import Mathlib

/-!
The reader layering of pstack: `OffsetReader`, `CacheReader`, `Lz4Reader`.

A shallow embedding of `reader.cc`, `libpstack/reader.h`, `lz4reader.cc` and
`libpstack/lz4reader.h`, followed by theorems about the embedded functions.

Conventions of the embedding:
* `Reader::Off` (`unsigned long`) and `size_t` are natural numbers; every
  C++ operation that can wrap is written with an explicit `% 2 ^ 64`. The one
  product, `count * sizeof(T)` in `readObj`, is written as the product of
  natural numbers and used where it is below `2 ^ 64`.
* A `char` buffer is a `List Byte`; a `read` that returns `rc` and fills `rc`
  bytes of `ptr` is a function returning the list of the bytes written.
* A thrown `Exception` is `Except.error`; the constructors of `Exception` name
  the throw sites.
-/

namespace pstack

/-! ## Basic types -/

/-- One `char` of a buffer. -/
abbrev Byte := Fin 256

/-- The type `Reader::Off` (`unsigned long`): values are below `2 ^ 64`. -/
abbrev Off := Nat

/-- The value `std::numeric_limits<Off>::max()`. -/
def OffMax : Nat := 2 ^ 64 - 1

/-- Unsigned 64-bit addition. -/
def wadd (a b : Nat) : Nat := (a + b) % 2 ^ 64

/-- Unsigned 64-bit subtraction. -/
def wsub (a b : Nat) : Nat := (a % 2 ^ 64 + 2 ^ 64 - b % 2 ^ 64) % 2 ^ 64

/-- The throw sites of `reader.cc`, `reader.h` and `lz4reader.cc`. The last two
constructors are not C++ exceptions: they stand for undefined behaviour, the
integer division by zero of `Lz4Reader::read` (in practice SIGFPE) and
`blocks_[blk_idx]` with an index that is not in the vector. -/
inductive Exception where
  | readPastEndOfMemory
  | preadFailed
  | unexpectedEOF
  | incompleteObjectRead
  | readFromNullReader
  | readPastEndOfObject
  | readBeyondDecompressed
  | failedToReadBlock (blk_idx : Nat)
  | divisionByZero
  | vectorOutOfRange
  deriving DecidableEq, Repr

deriving instance DecidableEq for Except

/-- The virtual interface of class `Reader` as implemented by a reader whose
dynamic type is not `OffsetReader`. The content behind the reader does not
change between calls, so each member is a function of its arguments. `read off
count` gives the bytes written to `ptr`; their number is the returned count. -/
structure LeafReader where
  read : Off → Nat → Except Exception (List Byte)
  size : Off
  readString : Off → Except Exception (List Byte)

/-- A reader, by dynamic type: `OffsetReader` is the only class the code
inspects with `dynamic_cast`, all others are a `leaf`. The `offsetReader` fields
are `upstream`, `offset`, `length` of class `OffsetReader`. -/
inductive Reader where
  | leaf (v : LeafReader)
  | offsetReader (upstream : Reader) (offset : Off) (length : Off)

/-- The literal `"(null)"`. -/
def nullString : List Byte := [40, 110, 117, 108, 108, 41]

/-! ## Reader base class -/

/-- The loop of `Reader::readString`: `n` is `size() - offset`, the number of
rounds the `for` loop has left. -/
def Reader.readStringLoop (read : Off → Nat → Except Exception (List Byte)) :
    Nat → Off → List Byte → Except Exception (List Byte)
  | 0, _, res => .ok res
  | n + 1, offset, res =>
    match read offset 1 with
    | .error e => .error e
    | .ok [c] => if c = 0 then .ok res else Reader.readStringLoop read n (offset + 1) (res ++ [c])
    | .ok _ => .ok res

/-- The default `Reader::readString`, over the `read` and `size()` of the
reader it is called on. -/
def Reader.readStringDefault (read : Off → Nat → Except Exception (List Byte)) (size : Off)
    (offset : Off) : Except Exception (List Byte) :=
  if offset = 0 then .ok nullString
  else Reader.readStringLoop read (size - offset) offset []

/-- The template `Reader::readObj(offset, object, count)` for an object of
`objSize` bytes: the bytes of the objects, or the incomplete-read exception.
The product `count * sizeof *object` is written as the product of natural
numbers: that is its value in `size_t` as long as it is below `2 ^ 64`, which
is where the theorems use it (the calls of the readers have `count == 1`). -/
def Reader.readObj (read : Off → Nat → Except Exception (List Byte)) (offset : Off)
    (objSize : Nat) (count : Nat) : Except Exception (List Byte) :=
  if count = 0 then .ok []
  else
    match read offset (count * objSize) with
    | .error e => .error e
    | .ok bs => if bs.length ≠ count * objSize then .error .incompleteObjectRead else .ok bs

/-! ## Leaf readers -/

/-- The system call `pread` on a regular file with content `file`: the bytes
transferred (none at or after end of file), never an error. -/
def preadFile (file : List Byte) (count : Nat) (off : Off) : Option (List Byte) :=
  some ((file.drop off).take count)

/-- The member `FileReader::read`, over a model of `pread` where `none` is the
return value `-1`. -/
def FileReader.read (pread : Nat → Off → Option (List Byte)) (off : Off) (count : Nat) :
    Except Exception (List Byte) :=
  match pread count off with
  | none => .error .preadFailed
  | some bs => if bs.length = 0 then .error .unexpectedEOF else .ok bs

/-- A `FileReader` over a model of `pread`, with `fileSize` as set by the
constructor. -/
def FileReader (pread : Nat → Off → Option (List Byte)) (fileSize : Off) : Reader :=
  .leaf {
    read := FileReader.read pread
    size := fileSize
    readString := Reader.readStringDefault (FileReader.read pread) fileSize }

/-- The member `MemReader::read` for a reader with fields `len` and `data`
(the memory at the pointer `data`). -/
def MemReader.read (len : Nat) (data : List Byte) (off : Off) (count : Nat) :
    Except Exception (List Byte) :=
  if off > len then .error .readPastEndOfMemory
  else
    let rc := min count (len - off)
    .ok ((data.drop off).take rc)

/-- The member `MemReader::readString`: the C string at `data + offset`. -/
def MemReader.readString (data : List Byte) (offset : Off) : Except Exception (List Byte) :=
  .ok ((data.drop offset).takeWhile (fun c => c ≠ 0))

/-- A `MemReader(descr, len, data)`. -/
def MemReader (len : Nat) (data : List Byte) : Reader :=
  .leaf {
    read := MemReader.read len data
    size := len
    readString := MemReader.readString data }

/-- The class `NullReader`. -/
def NullReader : Reader :=
  .leaf {
    read := fun _ _ => .error .readFromNullReader
    size := 0
    readString := Reader.readStringDefault (fun _ _ => .error .readFromNullReader) 0 }

/-! ## OffsetReader -/

/-- The part of `OffsetReader::read` before the delegation: the exception it
throws, or the arguments `(off + offset, count)` of the one call
`upstream->read` it makes. -/
def OffsetReader.request (offset length : Off) (off : Off) (count : Nat) :
    Except Exception (Off × Nat) :=
  if off > length then .error .readPastEndOfObject
  else
    let count := if wadd off count > length then length - off else count
    .ok (wadd off offset, count)

/-- Virtual `size()`. -/
def Reader.size : Reader → Off
  | .leaf v => v.size
  | .offsetReader _ _ length => length

/-- Virtual `read(off, count, ptr)`; for an `OffsetReader` this is
`OffsetReader::read`. -/
def Reader.read : Reader → Off → Nat → Except Exception (List Byte)
  | .leaf v, off, count => v.read off count
  | .offsetReader upstream offset length, off, count =>
    match OffsetReader.request offset length off count with
    | .error e => .error e
    | .ok (o, c) => Reader.read upstream o c

/-- Virtual `readString(offset)`; for an `OffsetReader` this is
`upstream->readString(absoff + offset)`. -/
def Reader.readString : Reader → Off → Except Exception (List Byte)
  | .leaf v, off => v.readString off
  | .offsetReader upstream offset _, absoff => Reader.readString upstream (wadd absoff offset)

/-- The `for (;;)` loop of the `OffsetReader` constructor: while `upstream` is
an `OffsetReader`, add its offset and move to its upstream. -/
def OffsetReader.collapse : Reader → Off → Reader × Off
  | .leaf v, offset => (.leaf v, offset)
  | .offsetReader upstream o _, offset => OffsetReader.collapse upstream (wadd offset o)

/-- The constructor `OffsetReader(name, upstream_, offset_, length_)`; an
omitted `length_` is `OffMax`. -/
def OffsetReader (upstream_ : Reader) (offset_ : Off) (length_ : Off) : Reader :=
  let p := OffsetReader.collapse upstream_ offset_
  let length := if length_ = OffMax then wsub p.1.size p.2 else length_
  .offsetReader p.1 p.2 length

/-- The base-class `Reader::view(name, offset, size)`; an omitted `size` is
`OffMax`. -/
def Reader.view (self : Reader) (offset : Off) (size : Off) : Reader :=
  OffsetReader self offset size

/-- The dynamic type test `dynamic_cast<const OffsetReader *>`. -/
def Reader.isOffsetReader : Reader → Bool
  | .leaf _ => false
  | .offsetReader _ _ _ => true

/-! ## CacheReader -/

/-- The constant `CacheReader::PAGESIZE`. -/
def CacheReader.PAGESIZE : Nat := 256

/-- The constant `CacheReader::MAXPAGES`. -/
def CacheReader.MAXPAGES : Nat := 16

/-- The class `CacheReader::Page`: `offset`, `len` and the array `data[PAGESIZE]`. -/
structure CacheReader.Page where
  offset : Off
  len : Nat
  data : List Byte
  deriving DecidableEq, Repr

/-- The state of a `CacheReader`: `upstream`, the list `pages` (front first) and
the entries of `stringCache` whose `isNew` is false. The field `uninit` is not
a member of the class: it is the indeterminate content of the `data` array of a
page allocated with `new Page()`, whose constructor initialises nothing. -/
structure CacheReader where
  upstream : Reader
  pages : List CacheReader.Page
  stringCache : List (Off × List Byte)
  uninit : List Byte

/-- The constructor `CacheReader(upstream_)`: no page, no cached string. -/
def CacheReader.new (upstream_ : Reader) (uninit : List Byte) : CacheReader :=
  { upstream := upstream_, pages := [], stringCache := [], uninit := uninit }

/-- The member `Page::load(r, offset_)`: `read` fills the first `len` bytes of
`data` and leaves the rest of the array as it was. (The `assert` on the
alignment of `offset_` holds at the only call site and is not modelled.) -/
def CacheReader.Page.load (p : CacheReader.Page) (r : Reader) (offset_ : Off) :
    Except Exception CacheReader.Page :=
  match r.read offset_ CacheReader.PAGESIZE with
  | .error e => .error e
  | .ok bs => .ok { offset := offset_, len := bs.length, data := bs ++ p.data.drop bs.length }

/-- The search loop of `CacheReader::getPage`: the first page with the wanted
offset together with the list without it, if there is one. -/
def CacheReader.findPage (pageoff : Off) :
    List CacheReader.Page → Option (CacheReader.Page × List CacheReader.Page)
  | [] => none
  | p :: ps =>
    if p.offset = pageoff then some (p, ps)
    else
      match CacheReader.findPage pageoff ps with
      | none => none
      | some (q, rest) => some (q, p :: rest)

/-- The member `CacheReader::getPage(pageoff)`: the page (or the exception of
the load) and the state after the call. A page that is found ends at the front
of the list; otherwise the last page is reused when the list is full, a new one
is allocated when not, and the page is deleted when the load throws. -/
def CacheReader.getPage (c : CacheReader) (pageoff : Off) :
    Except Exception CacheReader.Page × CacheReader :=
  match CacheReader.findPage pageoff c.pages with
  | some (p, rest) => (.ok p, { c with pages := p :: rest })
  | none =>
    let p : CacheReader.Page :=
      if c.pages.length = CacheReader.MAXPAGES then c.pages.getLastD ⟨0, 0, c.uninit⟩
      else ⟨0, 0, c.uninit⟩
    let pages := if c.pages.length = CacheReader.MAXPAGES then c.pages.dropLast else c.pages
    match p.load c.upstream pageoff with
    | .ok p1 => (.ok p1, { c with pages := p1 :: pages })
    | .error e => (.error e, { c with pages := pages })

/-- The `for (;;)` loop of `CacheReader::read`, with `acc` the bytes copied to
`ptr` so far; the result is the final `off` and the bytes copied. The first
argument bounds the number of rounds: it starts at `count`, every round that does
not leave the loop copies at least one byte, and at `0` the loop is at its
`count == 0` exit. -/
def CacheReader.readLoop : Nat → CacheReader → Off → Nat → List Byte →
    Except Exception (Off × List Byte) × CacheReader
  | 0, c, off, _, acc => (.ok (off, acc), c)
  | fuel + 1, c, off, count, acc =>
    if count = 0 then (.ok (off, acc), c)
    else
      let offsetOfDataInPage := off % CacheReader.PAGESIZE
      let offsetOfPageInFile := off - offsetOfDataInPage
      match c.getPage offsetOfPageInFile with
      | (.error e, c1) => (.error e, c1)
      | (.ok page, c1) =>
        let chunk := min (wsub page.len offsetOfDataInPage) count
        let acc1 := acc ++ (page.data.drop offsetOfDataInPage).take chunk
        if page.len ≠ CacheReader.PAGESIZE then (.ok (wadd off chunk, acc1), c1)
        else CacheReader.readLoop fuel c1 (wadd off chunk) (count - chunk) acc1

/-- The result of a `read` as a pair: the returned count and the bytes written. -/
def withCount (r : Except Exception (List Byte)) : Except Exception (Nat × List Byte) :=
  match r with
  | .error e => .error e
  | .ok bs => .ok (bs.length, bs)

/-- The member `CacheReader::read(off, count, ptr)`: the returned count
`off - startoff` with the bytes copied to `ptr` (or the exception), and the
state after the call. -/
def CacheReader.read (c : CacheReader) (off : Off) (count : Nat) :
    Except Exception (Nat × List Byte) × CacheReader :=
  if count ≥ CacheReader.PAGESIZE then (withCount (c.upstream.read off count), c)
  else
    match CacheReader.readLoop count c off count [] with
    | (.error e, c1) => (.error e, c1)
    | (.ok (off1, acc), c1) => (.ok (wsub off1 off, acc), c1)

/-- The member `CacheReader::flush()`. -/
def CacheReader.flush (c : CacheReader) : CacheReader :=
  { c with pages := [] }

/-- The state after a sequence of `read(off, count)` calls, whatever they return. -/
def CacheReader.reads (c : CacheReader) : List (Off × Nat) → CacheReader
  | [] => c
  | (off, count) :: rest => CacheReader.reads (c.read off count).2 rest

/-- The reader `u` serves the fixed content `data`: a read of at least one byte
that starts before the end returns the bytes from there, cut at the end of the
content (as `pread` on a file and `MemReader::read` do). -/
def Serves (u : Reader) (data : List Byte) : Prop :=
  ∀ off count, off < data.length → 0 < count →
    u.read off count = .ok ((data.drop off).take count)

/-! ## Lz4Reader -/

/-- The library function `LZ4_decompress_safe_partial(src, dst, srcSize,
targetOutputSize, dstCapacity)` of `lz4.h`, which is not part of the repository:
from the `srcSize` source bytes, the target size and the capacity, the bytes
written to `dst` (their number is the return value), or `none` for a negative
return value. -/
abbrev Lz4Decoder := List Byte → Nat → Nat → Option (List Byte)

/-- The value `le32toh(x)` of a `uint32_t` read from four bytes. -/
def le32toh : List Byte → Nat
  | [b0, b1, b2, b3] => b0.val + b1.val * 2 ^ 8 + b2.val * 2 ^ 16 + b3.val * 2 ^ 24
  | _ => 0

/-- The value of a `uint8_t` read from one byte. -/
def u8 : List Byte → Nat
  | [b] => b.val
  | _ => 0

/-- The struct `Lz4Reader::BlockInfo`. -/
structure Lz4Reader.BlockInfo where
  uncompressed_ : Bool
  data_size_ : Nat
  data_offset_ : Off
  deriving DecidableEq, Repr

/-- The data members of class `Lz4Reader`. -/
structure Lz4Reader where
  upstream_ : Reader
  with_block_checksum_ : Bool
  with_content_size_ : Bool
  with_content_checksum_ : Bool
  with_dic_id_ : Bool
  max_block_size_ : Nat
  block_buf_ : List Byte
  decompressed_buf_ : List Byte
  decompressed_buf_blk_id_ : Nat
  blocks_ : List Lz4Reader.BlockInfo
  decompressed_size_ : Nat

/-- The member initialisers of the class: the state at the start of the
constructor body. -/
def Lz4Reader.init (upstream : Reader) : Lz4Reader :=
  { upstream_ := upstream
    with_block_checksum_ := false
    with_content_size_ := false
    with_content_checksum_ := false
    with_dic_id_ := false
    max_block_size_ := 0
    block_buf_ := []
    decompressed_buf_ := []
    decompressed_buf_blk_id_ := OffMax
    blocks_ := []
    decompressed_size_ := 0 }

/-- The member `Lz4Reader::size()`. -/
def Lz4Reader.size (r : Lz4Reader) : Off := r.decompressed_size_

/-- The call `std::vector<char>::resize(n)`: cut, or fill with zero bytes. -/
def resize (buf : List Byte) (n : Nat) : List Byte :=
  buf.take n ++ List.replicate (n - buf.length) 0

/-- A buffer after `bytes` were written at its start. -/
def overwrite (buf : List Byte) (bytes : List Byte) : List Byte :=
  bytes ++ buf.drop bytes.length

/-- The `while` loop of `Lz4Reader::read_upstream_up_to`, with `read_sum_cnt` and
the bytes written to `dst` so far. The result is the returned `bool`, or the
exception of the upstream read, with the bytes written; `none` when the loop is
still running after the given number of rounds. -/
def Lz4Reader.read_upstream_loop (upstream : Reader) (offset : Off) (req_size : Nat) :
    Nat → Nat → List Byte → Option (Except Exception Bool × List Byte)
  | 0, read_sum_cnt, dst => if req_size > read_sum_cnt then none else some (.ok true, dst)
  | fuel + 1, read_sum_cnt, dst =>
    if req_size > read_sum_cnt then
      match upstream.read (wadd offset read_sum_cnt) (wsub req_size read_sum_cnt) with
      | .error e => some (.error e, dst)
      | .ok bs =>
        let read_size := bs.length % 2 ^ 32
        if read_size = 0 then some (.ok false, dst ++ bs)
        else
          Lz4Reader.read_upstream_loop upstream offset req_size fuel
            ((read_sum_cnt + read_size) % 2 ^ 32) (dst ++ bs)
    else some (.ok true, dst)

/-- The member `Lz4Reader::read_upstream_up_to(offset, req_size, dst)`. Every
round that does not leave the loop adds at least one to `read_sum_cnt`, so
`req_size` rounds are enough unless the 32-bit counter wraps. -/
def Lz4Reader.read_upstream_up_to (upstream : Reader) (offset : Off) (req_size : Nat) :
    Option (Except Exception Bool × List Byte) :=
  Lz4Reader.read_upstream_loop upstream offset req_size req_size 0 []

/-- What the `do ... while` loop of the constructor leaves: the block index,
and the offset after the loop, or `none` for the offset when the loop was left
by the `return` on an oversized block. -/
abbrev Lz4Reader.Scan := List Lz4Reader.BlockInfo × Option Off

/-- The `do ... while (block_size > 0)` loop of the constructor, from `offset`
with the blocks found so far; `none` when the loop is still running after the
given number of rounds. -/
def Lz4Reader.scanBlocks (upstream : Reader) (max_block_size_ : Nat)
    (with_block_checksum_ : Bool) :
    Nat → Off → List Lz4Reader.BlockInfo → Option (Except Exception Lz4Reader.Scan)
  | 0, _, _ => none
  | fuel + 1, offset, blocks =>
    match Reader.readObj upstream.read offset 4 1 with
    | .error e => some (.error e)
    | .ok bs =>
      let block_size := le32toh bs
      let offset1 := wadd offset 4
      let blk_info : Lz4Reader.BlockInfo :=
        { uncompressed_ := decide (block_size >>> 31 ≠ 0)
          data_size_ := block_size &&& 0x7fffffff
          data_offset_ := offset1 }
      if blk_info.data_size_ > max_block_size_ then some (.ok (blocks, none))
      else
        let blocks1 := if blk_info.data_size_ > 0 then blocks ++ [blk_info] else blocks
        let offset2 :=
          if blk_info.data_size_ > 0 then
            let o := wadd offset1 blk_info.data_size_
            if with_block_checksum_ then wadd o 4 else o
          else offset1
        if block_size > 0 then
          Lz4Reader.scanBlocks upstream max_block_size_ with_block_checksum_ fuel offset2 blocks1
        else some (.ok (blocks1, some offset2))

/-- The `switch` of the constructor on the block-size code. -/
def Lz4Reader.blockSizeOfCode (code : Nat) : Nat :=
  match code with
  | 4 => 64 * 1024
  | 5 => 256 * 1024
  | 6 => 1 * 1024 * 1024
  | 7 => 4 * 1024 * 1024
  | _ => 0

/-- The end of the constructor, from `if (!blocks_.empty())`: the constructed
reader, or the exception of an upstream read; `none` when
`read_upstream_up_to` does not return. -/
def Lz4Reader.finish (lz4 : Lz4Decoder) (r : Lz4Reader) : Option (Except Exception Lz4Reader) :=
  match r.blocks_.getLast? with
  | none => some (.ok r)
  | some back =>
    if back.uncompressed_ then
      some (.ok { r with decompressed_size_ :=
        ((r.blocks_.length - 1) * r.max_block_size_ + back.data_size_) % 2 ^ 64 })
    else
      match Lz4Reader.read_upstream_up_to r.upstream_ back.data_offset_ back.data_size_ with
      | none => none
      | some (.error e, _) => some (.error e)
      | some (.ok false, bytes) => some (.ok { r with block_buf_ := overwrite r.block_buf_ bytes })
      | some (.ok true, bytes) =>
        let r1 := { r with block_buf_ := overwrite r.block_buf_ bytes }
        match lz4 (r1.block_buf_.take back.data_size_) r.max_block_size_ r.max_block_size_ with
        | none => some (.ok r1)
        | some out =>
          some (.ok { r1 with
            decompressed_buf_ := out
            decompressed_buf_blk_id_ := r.blocks_.length - 1
            decompressed_size_ := ((r.blocks_.length - 1) * r.max_block_size_ + out.length) % 2 ^ 64 })

/-- The constructor `Lz4Reader(upstream)`: the constructed reader (after a
`return` at any point of the body, with the members as they are then), or the
exception that leaves the constructor; `none` when the block scan is still
running after `fuel` rounds or `read_upstream_up_to` does not return. -/
def Lz4Reader.new (lz4 : Lz4Decoder) (fuel : Nat) (upstream : Reader) :
    Option (Except Exception Lz4Reader) :=
  let r := Lz4Reader.init upstream
  match Reader.readObj upstream.read 0 4 1 with
  | .error e => some (.error e)
  | .ok magic =>
    if le32toh magic ≠ 0x184d2204 then some (.ok r)
    else
      match Reader.readObj upstream.read 4 1 1 with
      | .error e => some (.error e)
      | .ok flgb =>
        let flg := u8 flgb
        if flg &&& 0x60 ≠ 0x60 then some (.ok r)
        else
          let r1 := { r with
            with_block_checksum_ := decide (flg &&& 0x10 ≠ 0)
            with_content_size_ := decide (flg &&& 0x08 ≠ 0)
            with_content_checksum_ := decide (flg &&& 0x04 ≠ 0)
            with_dic_id_ := decide (flg &&& 0x01 ≠ 0) }
          match Reader.readObj upstream.read 5 1 1 with
          | .error e => some (.error e)
          | .ok bdb =>
            let bd_byte := u8 bdb
            let r2 := { r1 with
              max_block_size_ := Lz4Reader.blockSizeOfCode ((bd_byte &&& 0x70) >>> 4) }
            if r2.max_block_size_ = 0 then some (.ok r2)
            else
              let r3 := { r2 with
                block_buf_ := resize r2.block_buf_ r2.max_block_size_
                decompressed_buf_ := resize r2.decompressed_buf_ r2.max_block_size_ }
              let offset := 6 + (if r3.with_content_size_ then 8 else 0)
                + (if r3.with_dic_id_ then 4 else 0) + 1
              match Lz4Reader.scanBlocks upstream r3.max_block_size_ r3.with_block_checksum_
                  fuel offset r3.blocks_ with
              | none => none
              | some (.error e) => some (.error e)
              | some (.ok (blocks, none)) => some (.ok { r3 with blocks_ := blocks })
              | some (.ok (blocks, some offset1)) =>
                let r4 := { r3 with blocks_ := blocks }
                let offset2 := if r4.with_content_checksum_ then wadd offset1 4 else offset1
                if offset2 ≠ upstream.size then some (.ok r4)
                else Lz4Reader.finish lz4 r4

/-- The body of `if (decompressed_buf_blk_id_ != blk_idx)` in
`Lz4Reader::decompress_block`: `true` when the decompressed buffer now holds the
block, `false` for `return false`, or the exception of the upstream read, with
the state after it; `none` when `read_upstream_up_to` does not return. -/
def Lz4Reader.fill_cache (lz4 : Lz4Decoder) (r : Lz4Reader) (blk_idx : Nat)
    (blk : Lz4Reader.BlockInfo) : Option (Except Exception Bool × Lz4Reader) :=
  match Lz4Reader.read_upstream_up_to r.upstream_ blk.data_offset_ blk.data_size_ with
  | none => none
  | some (.error e, bytes) => some (.error e, { r with block_buf_ := overwrite r.block_buf_ bytes })
  | some (.ok false, bytes) => some (.ok false, { r with block_buf_ := overwrite r.block_buf_ bytes })
  | some (.ok true, bytes) =>
    let r1 := { r with
      block_buf_ := overwrite r.block_buf_ bytes
      decompressed_buf_blk_id_ := OffMax
      decompressed_buf_ := resize r.decompressed_buf_ r.max_block_size_ }
    match lz4 (r1.block_buf_.take blk.data_size_) r.max_block_size_ r.max_block_size_ with
    | none => some (.ok false, r1)
    | some out =>
      some (.ok true, { r1 with decompressed_buf_ := out, decompressed_buf_blk_id_ := blk_idx })

/-- The member `Lz4Reader::decompress_block(blk_idx, decompressed_offset,
req_read_size, dst)`: the returned `bool` with the bytes written to `dst`, or the
exception of an upstream read, and the state after the call. -/
def Lz4Reader.decompress_block (lz4 : Lz4Decoder) (r : Lz4Reader) (blk_idx : Nat)
    (decompressed_offset : Off) (req_read_size : Nat) :
    Option (Except Exception (Bool × List Byte) × Lz4Reader) :=
  match r.blocks_[blk_idx]? with
  | none => some (.error .vectorOutOfRange, r)
  | some blk =>
    if blk.uncompressed_ then
      match Lz4Reader.read_upstream_up_to r.upstream_ (wadd blk.data_offset_ decompressed_offset)
          req_read_size with
      | none => none
      | some (.error e, _) => some (.error e, r)
      | some (.ok b, bytes) => some (.ok (b, bytes), r)
    else
      let filled : Option (Except Exception Bool × Lz4Reader) :=
        if r.decompressed_buf_blk_id_ ≠ blk_idx then Lz4Reader.fill_cache lz4 r blk_idx blk
        else some (.ok true, r)
      match filled with
      | none => none
      | some (.error e, r1) => some (.error e, r1)
      | some (.ok false, r1) => some (.ok (false, []), r1)
      | some (.ok true, r1) =>
        if r1.decompressed_buf_.length < wadd decompressed_offset req_read_size then
          some (.ok (false, []), r1)
        else
          some (.ok (true, (r1.decompressed_buf_.drop decompressed_offset).take req_read_size), r1)

/-- The `for` loop of `Lz4Reader::read`, at `offset`, with the bytes written to
`dst` so far; `none` when the loop is still running after the given number of
rounds or `read_upstream_up_to` does not return. -/
def Lz4Reader.readLoop (lz4 : Lz4Decoder) (decompressed_offset : Off) (req_read_size : Nat)
    (blk_idx_start : Nat) (offset_floor : Off) :
    Nat → Lz4Reader → Off → List Byte → Option (Except Exception (List Byte) × Lz4Reader)
  | 0, r, offset, dst =>
    if offset < wadd decompressed_offset req_read_size then none else some (.ok dst, r)
  | fuel + 1, r, offset, dst =>
    if offset < wadd decompressed_offset req_read_size then
      let blk_idx := blk_idx_start + (wsub offset offset_floor) / r.max_block_size_
      let offset_start_within_blk :=
        if decompressed_offset > offset then decompressed_offset - offset else 0
      let offset_end_within_blk :=
        min r.max_block_size_ (wsub (wadd decompressed_offset req_read_size) offset)
      let req_read_len_within_blk := wsub offset_end_within_blk offset_start_within_blk
      match Lz4Reader.decompress_block lz4 r blk_idx offset_start_within_blk
          req_read_len_within_blk with
      | none => none
      | some (.error e, r1) => some (.error e, r1)
      | some (.ok (false, _), r1) => some (.error (.failedToReadBlock blk_idx), r1)
      | some (.ok (true, bytes), r1) =>
        Lz4Reader.readLoop lz4 decompressed_offset req_read_size blk_idx_start offset_floor
          fuel r1 (wadd offset r.max_block_size_) (dst ++ bytes)
    else some (.ok dst, r)

/-- The member `Lz4Reader::read(decompressed_offset, req_read_size, dst)`: the
bytes written to `dst` (the returned count is `req_read_size`) or the exception,
and the state after the call. Every round of the loop moves `offset` forward by
`max_block_size_`, so `offset_end - offset_floor` rounds are enough. -/
def Lz4Reader.read (lz4 : Lz4Decoder) (r : Lz4Reader) (decompressed_offset : Off)
    (req_read_size : Nat) : Option (Except Exception (List Byte) × Lz4Reader) :=
  let offset_end := wadd decompressed_offset req_read_size
  if offset_end > r.decompressed_size_ then some (.error .readBeyondDecompressed, r)
  else if r.max_block_size_ = 0 then some (.error .divisionByZero, r)
  else
    let blk_idx_start := decompressed_offset / r.max_block_size_
    let offset_floor := blk_idx_start * r.max_block_size_
    Lz4Reader.readLoop lz4 decompressed_offset req_read_size blk_idx_start offset_floor
      (offset_end - offset_floor) r offset_floor []

/-- The state after a sequence of `read` calls, whatever they return. -/
def Lz4Reader.reads (lz4 : Lz4Decoder) (r : Lz4Reader) : List (Off × Nat) → Option Lz4Reader
  | [] => some r
  | (off, count) :: rest =>
    match Lz4Reader.read lz4 r off count with
    | none => none
    | some (_, r1) => Lz4Reader.reads lz4 r1 rest

/-! ## LZ4 frames, as the specification lays them out -/

/-- The four bytes of a 32-bit word, least significant first. -/
def le32bytes (w : Nat) : List Byte :=
  [Fin.ofNat (w % 256), Fin.ofNat (w / 2 ^ 8 % 256), Fin.ofNat (w / 2 ^ 16 % 256),
    Fin.ofNat (w / 2 ^ 24 % 256)]

/-- One data block of a frame: the stored-uncompressed flag (high bit of the
block-size word), the payload, and the block checksum (empty when block
checksums are off). -/
structure Lz4Frame.Block where
  stored : Bool
  payload : List Byte
  checksum : List Byte
  deriving DecidableEq, Repr

/-- The block-size word: the flag in the high bit, the payload length in the
low 31 bits. -/
def Lz4Frame.Block.word (b : Lz4Frame.Block) : Nat :=
  b.payload.length + (if b.stored then 2 ^ 31 else 0)

/-- The bytes of a block: size word, payload, optional checksum. -/
def Lz4Frame.Block.bytes (b : Lz4Frame.Block) : List Byte :=
  le32bytes b.word ++ (b.payload ++ b.checksum)

/-- The bytes of a sequence of blocks. -/
def Lz4Frame.blockBytes : List Lz4Frame.Block → List Byte
  | [] => []
  | b :: bs => b.bytes ++ Lz4Frame.blockBytes bs

/-- A frame: flag byte, block-descriptor byte, optional content size and
dictionary id, header checksum, the data blocks, optional content checksum. -/
structure Lz4Frame where
  flg : Byte
  bd : Byte
  contentSize : List Byte
  dictId : List Byte
  headerChecksum : Byte
  blocks : List Lz4Frame.Block
  contentChecksum : List Byte

/-- The block-size code of the block-descriptor byte. -/
def Lz4Frame.code (f : Lz4Frame) : Nat := (f.bd.val &&& 0x70) >>> 4

/-- The maximum block size of a frame: `4 → 64 KiB, 5 → 256 KiB, 6 → 1 MiB,
7 → 4 MiB`. -/
def Lz4Frame.maxBlockSize (f : Lz4Frame) : Nat :=
  if f.code = 4 then 65536 else if f.code = 5 then 262144
  else if f.code = 6 then 1048576 else if f.code = 7 then 4194304 else 0

/-- The frame header: magic, flag byte, block descriptor, optional fields,
header checksum. -/
def Lz4Frame.header (f : Lz4Frame) : List Byte :=
  le32bytes 0x184D2204 ++ ([f.flg, f.bd] ++ (f.contentSize ++ (f.dictId ++ [f.headerChecksum])))

/-- The bytes of a frame: header, blocks, end mark, optional content checksum. -/
def Lz4Frame.bytes (f : Lz4Frame) : List Byte :=
  f.header ++ (Lz4Frame.blockBytes f.blocks ++ (le32bytes 0 ++ f.contentChecksum))

/-- The header is one the reader supports, and the optional fields have the
lengths the flag byte announces. -/
def Lz4Frame.HeaderOK (f : Lz4Frame) : Prop :=
  f.flg.val &&& 0x60 = 0x60 ∧ 4 ≤ f.code ∧ f.code ≤ 7 ∧
  f.contentSize.length = (if f.flg.val &&& 0x08 ≠ 0 then 8 else 0) ∧
  f.dictId.length = (if f.flg.val &&& 0x01 ≠ 0 then 4 else 0) ∧
  f.contentChecksum.length = (if f.flg.val &&& 0x04 ≠ 0 then 4 else 0)

/-- A data block of the frame: a payload of at least one and at most
`maxBlockSize` bytes, and a checksum of the announced length. -/
def Lz4Frame.BlockOK (f : Lz4Frame) (b : Lz4Frame.Block) : Prop :=
  0 < b.payload.length ∧ b.payload.length ≤ f.maxBlockSize ∧
  b.checksum.length = (if f.flg.val &&& 0x10 ≠ 0 then 4 else 0)

/-- A frame of the supported subset. -/
def Lz4Frame.WellFormed (f : Lz4Frame) : Prop :=
  f.HeaderOK ∧ ∀ b ∈ f.blocks, f.BlockOK b

/-- The block stores `chunk`: raw when the stored flag is set, otherwise as a
payload that the LZ4 block decompressor maps back to `chunk`. -/
def Lz4Frame.Block.decodesTo (lz4 : Lz4Decoder) (mbs : Nat) (b : Lz4Frame.Block)
    (chunk : List Byte) : Prop :=
  if b.stored then b.payload = chunk else lz4 b.payload mbs mbs = some chunk

/-- The frame splits the plaintext `P` into chunks of `maxBlockSize` bytes, only
the last of which may be shorter, and its `i`-th block stores the `i`-th chunk. -/
def Lz4Frame.Encodes (lz4 : Lz4Decoder) (f : Lz4Frame) (P : List Byte) : Prop :=
  f.blocks.length = (P.length + f.maxBlockSize - 1) / f.maxBlockSize ∧
  ∀ (i : Nat) (b : Lz4Frame.Block), f.blocks[i]? = some b →
    b.decodesTo lz4 f.maxBlockSize ((P.drop (i * f.maxBlockSize)).take f.maxBlockSize)

/-- The block index the constructor is to build for blocks laid out from
`offset` on. -/
def Lz4Frame.blockInfos : Nat → List Lz4Frame.Block → List Lz4Reader.BlockInfo
  | _, [] => []
  | offset, b :: bs =>
    { uncompressed_ := b.stored, data_size_ := b.payload.length, data_offset_ := offset + 4 }
      :: Lz4Frame.blockInfos (offset + b.bytes.length) bs

/-- The members of the reader when the constructor has read the header of the
frame `f` and resized its buffers, before the block scan. -/
def Lz4Frame.afterHeader (f : Lz4Frame) (u : Reader) : Lz4Reader :=
  { upstream_ := u
    with_block_checksum_ := decide (f.flg.val &&& 0x10 ≠ 0)
    with_content_size_ := decide (f.flg.val &&& 0x08 ≠ 0)
    with_content_checksum_ := decide (f.flg.val &&& 0x04 ≠ 0)
    with_dic_id_ := decide (f.flg.val &&& 0x01 ≠ 0)
    max_block_size_ := f.maxBlockSize
    block_buf_ := resize [] f.maxBlockSize
    decompressed_buf_ := resize [] f.maxBlockSize
    decompressed_buf_blk_id_ := OffMax
    blocks_ := []
    decompressed_size_ := 0 }

/-- A byte sequence the reader is to reject: the first four bytes are not the
magic; or the flag byte (at offset 4) lacks one of the bits `0x60`; or the
block-size code of the block-descriptor byte (at offset 5) is not one of `4..7`;
or, after a supported header and a run of well-formed blocks, a block-size word
declares a length above the maximum block size. -/
def Lz4Frame.Malformed (data : List Byte) : Prop :=
  (4 ≤ data.length ∧ le32toh (data.take 4) ≠ 0x184D2204) ∨
  (∃ flg : Byte, data[4]? = some flg ∧ flg.val &&& 0x60 ≠ 0x60) ∨
  (∃ bd : Byte, data[5]? = some bd ∧
    ¬ (4 ≤ (bd.val &&& 0x70) >>> 4 ∧ (bd.val &&& 0x70) >>> 4 ≤ 7)) ∨
  (∃ (f : Lz4Frame) (w : Nat) (rest : List Byte),
    f.WellFormed ∧ w < 2 ^ 32 ∧ w &&& 0x7fffffff > f.maxBlockSize ∧
    data = f.header ++ (Lz4Frame.blockBytes f.blocks ++ (le32bytes w ++ rest)))

/-- The reader `r` is a reader over the frame `f` served by `u`: its upstream,
maximum block size and block index are those of the frame, its size is `size`,
and when the cached block id is the index of a block, the decompressed buffer
holds what the decompressor returns for the payload of that block. -/
def Lz4Reader.Models (lz4 : Lz4Decoder) (f : Lz4Frame) (u : Reader) (size : Nat)
    (r : Lz4Reader) : Prop :=
  r.upstream_ = u ∧ r.max_block_size_ = f.maxBlockSize ∧
  r.blocks_ = Lz4Frame.blockInfos f.header.length f.blocks ∧
  r.decompressed_size_ = size ∧
  ∀ b, f.blocks[r.decompressed_buf_blk_id_]? = some b →
    lz4 b.payload f.maxBlockSize f.maxBlockSize = some r.decompressed_buf_

/-- The upstream `u` holds exactly the bytes of the well-formed frame `f`. -/
def Lz4Frame.ServedBy (f : Lz4Frame) (u : Reader) : Prop :=
  f.WellFormed ∧ Serves u f.bytes ∧ f.bytes.length < 2 ^ 64 ∧ u.size = f.bytes.length

/-- The LZ4 block decompressor on the blocks that consist of one sequence of at
most 14 literals and no match (token `16 * n`, then `n` literal bytes): the
literals, cut at the target size. On every other input this stand-in reports an
error. It instantiates the decoder in the examples. -/
def lz4LiteralRun : Lz4Decoder := fun src targetOutputSize dstCapacity =>
  match src with
  | [] => none
  | token :: literals =>
    if token.val % 16 = 0 ∧ token.val / 16 < 15 ∧ literals.length = token.val / 16
        ∧ literals.length ≤ dstCapacity then
      some (literals.take targetOutputSize)
    else none

/-- A frame with 64 KiB blocks and no optional field. -/
def testFrame (blocks : List Lz4Frame.Block) : Lz4Frame :=
  { flg := 0x60, bd := 0x40, contentSize := [], dictId := [], headerChecksum := 0,
    blocks := blocks, contentChecksum := [] }

/-- A chunk of 65536 bytes `7`. -/
def bigChunk : List Byte := List.replicate 65536 7

/-- Two blocks: `bigChunk` stored uncompressed, then the byte `9` as a literal
run. -/
def testFrame2 : Lz4Frame :=
  testFrame [⟨true, bigChunk, []⟩, ⟨false, [0x10, 9], []⟩]

/-- Two stored blocks of one byte each, `7` and `9`: the first is shorter than
the maximum block size. -/
def testFrameShort : Lz4Frame :=
  testFrame [⟨true, [7], []⟩, ⟨true, [9], []⟩]

/-- A cached page holds what `upstream->read(offset, PAGESIZE)` returns: `len`
is the returned count and the first `len` bytes of `data` are the bytes read. -/
def CacheReader.PageOK (u : Reader) (p : CacheReader.Page) : Prop :=
  ∃ bs, u.read p.offset CacheReader.PAGESIZE = .ok bs ∧ p.len = bs.length ∧ p.data.take p.len = bs

/-- Every page of the list holds what upstream returns for it. -/
def CacheReader.Coherent (c : CacheReader) : Prop :=
  ∀ p ∈ c.pages, CacheReader.PageOK c.upstream p

/-- A request `(off, count)` lies inside every window of a chain of
`OffsetReader`s, with no address of the chain wrapping. -/
def Reader.inWindow : Reader → Nat → Nat → Prop
  | .leaf _, _, _ => True
  | .offsetReader upstream offset length, off, count =>
    off + count ≤ length ∧ off + offset < 2 ^ 64 ∧ Reader.inWindow upstream (off + offset) count

/-- The bytes `0, 1, ..., n - 1` (each modulo 256): test content. -/
def testBytes (n : Nat) : List Byte := (List.range n).map (fun i => Fin.ofNat i)

/-! ## CacheReader: the string cache, call sequences and upstream reads -/

/-- The loop of `Reader::readString` run on a `CacheReader`: each
`read(offset, 1, &c)` is `CacheReader::read` and may change the page list. The
first argument is the number of rounds the `for` loop has left, `size() - offset`
at the start. When `read` returns 1, `c` is the first byte written; `read`
writes one whenever the `data` array of a page has its `PAGESIZE` bytes, and
the model leaves the loop if there is none. -/
def CacheReader.readStringLoop : Nat → CacheReader → Off → List Byte →
    Except Exception (List Byte) × CacheReader
  | 0, c, _, res => (.ok res, c)
  | n + 1, c, offset, res =>
    match c.read offset 1 with
    | (.error e, c1) => (.error e, c1)
    | (.ok (rc, bytes), c1) =>
      if rc ≠ 1 then (.ok res, c1)
      else
        match bytes with
        | [] => (.ok res, c1)
        | ch :: _ =>
          if ch = 0 then (.ok res, c1)
          else CacheReader.readStringLoop n c1 (offset + 1) (res ++ [ch])

/-- The call `Reader::readString(off)` on a `CacheReader` (the base-class member,
with the `read` and `size()` of the `CacheReader`). -/
def CacheReader.readStringDefault (c : CacheReader) (off : Off) :
    Except Exception (List Byte) × CacheReader :=
  if off = 0 then (.ok nullString, c)
  else CacheReader.readStringLoop (c.upstream.size - off) c off []

/-- The member `CacheReader::readString(off)`: the cached value when
`stringCache` has an entry for `off` that is not new; otherwise the value of
`Reader::readString(off)`, recorded in the cache. When that call throws, the
entry stays new. -/
def CacheReader.readString (c : CacheReader) (off : Off) :
    Except Exception (List Byte) × CacheReader :=
  match c.stringCache.lookup off with
  | some value => (.ok value, c)
  | none =>
    match c.readStringDefault off with
    | (.error e, c1) => (.error e, c1)
    | (.ok value, c1) => (.ok value, { c1 with stringCache := (off, value) :: c1.stringCache })

/-- A call of one of the members `read`, `readString` and `flush`. -/
inductive CacheReader.Call where
  | read (off : Off) (count : Nat)
  | readString (off : Off)
  | flush
  deriving DecidableEq, Repr

/-- The state after one call, whatever it returns or throws. -/
def CacheReader.call (c : CacheReader) : CacheReader.Call → CacheReader
  | .read off count => (c.read off count).2
  | .readString off => (c.readString off).2
  | .flush => c.flush

/-- The state after a sequence of calls. -/
def CacheReader.calls (c : CacheReader) : List CacheReader.Call → CacheReader
  | [] => c
  | k :: rest => CacheReader.calls (c.call k) rest

/-- The state after a sequence of `getPage` calls, whatever they return. -/
def CacheReader.getPages (c : CacheReader) : List Off → CacheReader
  | [] => c
  | pageoff :: rest => CacheReader.getPages (c.getPage pageoff).2 rest

/-- The calls `upstream->read(offset, count, ...)` that `getPage(pageoff)` makes:
none when the search loop finds the page, and the one of `Page::load` when it
does not. -/
def CacheReader.getPageReads (c : CacheReader) (pageoff : Off) : List (Off × Nat) :=
  match CacheReader.findPage pageoff c.pages with
  | some _ => []
  | none => [(pageoff, CacheReader.PAGESIZE)]

/-- The calls of `upstream->read` that the loop of `CacheReader::read` makes, in
order: those of each `getPage`, round by round as in `readLoop`. -/
def CacheReader.readLoopReads : Nat → CacheReader → Off → Nat → List (Off × Nat)
  | 0, _, _, _ => []
  | fuel + 1, c, off, count =>
    if count = 0 then []
    else
      let offsetOfDataInPage := off % CacheReader.PAGESIZE
      let offsetOfPageInFile := off - offsetOfDataInPage
      c.getPageReads offsetOfPageInFile ++
        match c.getPage offsetOfPageInFile with
        | (.error _, _) => []
        | (.ok page, c1) =>
          let chunk := min (wsub page.len offsetOfDataInPage) count
          if page.len ≠ CacheReader.PAGESIZE then []
          else CacheReader.readLoopReads fuel c1 (wadd off chunk) (count - chunk)

/-- The calls of `upstream->read` that `CacheReader::read(off, count, ptr)` makes:
the request itself when `count >= PAGESIZE`, and otherwise those of the loop. -/
def CacheReader.readReads (c : CacheReader) (off : Off) (count : Nat) : List (Off × Nat) :=
  if count ≥ CacheReader.PAGESIZE then [(off, count)]
  else CacheReader.readLoopReads count c off count

/-- Strict least-recently-used order, as the specification words it: after an
access to page `p` the pages are ordered by recency of last access, `p` first,
and of more than `MAXPAGES` pages the one accessed longest ago is dropped. -/
def lruTouch (order : List Off) (p : Off) : List Off :=
  (p :: order.erase p).take CacheReader.MAXPAGES

/-- The strict LRU order after a sequence of accesses, from an empty cache. -/
def lruOrder (accesses : List Off) : List Off :=
  accesses.foldl lruTouch []

/-- The offsets of the cached pages, front first. -/
def CacheReader.pageOffsets (c : CacheReader) : List Off :=
  c.pages.map (fun p => p.offset)

/-- The reader keeps the contract of `read`: it writes, and returns, at most
`count` bytes. -/
def Reader.Bounded (u : Reader) : Prop :=
  ∀ off count bs, u.read off count = .ok bs → bs.length ≤ count

/-- The page-cache invariant: at most `MAXPAGES` pages, with distinct offsets,
each offset a multiple of `PAGESIZE` and each `len` at most `PAGESIZE`. -/
def CacheReader.PagesOK (c : CacheReader) : Prop :=
  c.pages.length ≤ CacheReader.MAXPAGES ∧ c.pageOffsets.Nodup ∧
  ∀ p ∈ c.pages, p.offset % CacheReader.PAGESIZE = 0 ∧ p.len ≤ CacheReader.PAGESIZE

/-! ## LEB128 -/

/-- The two instantiations of the type parameter `T` of `readleb128` that the
readers use: both are 64 bits wide. -/
inductive IntType where
  | uintmax_t
  | intmax_t
  deriving DecidableEq, Repr

/-- The value `std::is_signed_v<T>`. -/
def IntType.isSigned : IntType → Bool
  | .uintmax_t => false
  | .intmax_t => true

/-- How `readleb128` can fail to return a value: the iterator is moved past the
last byte before a byte with bit 7 clear was read, or the count of a shift
reaches the width of `T`, for which C++ defines no result. -/
inductive Leb128Fault where
  | pastEnd
  | shiftTooLarge
  deriving DecidableEq, Repr

/-- The value of a 64-bit pattern read as two's complement. -/
def toSigned64 (pattern : Nat) : Int :=
  if pattern < 2 ^ 63 then (pattern : Int) else (pattern : Int) - 2 ^ 64

/-- The `for` loop of the template `readleb128<T, Iter>` over the bytes from
`it` on, with `result` as its 64-bit pattern, `shift`, and `n = it - start`.
The result is the pattern of the returned value and the returned count. -/
def readleb128Loop (signed : Bool) :
    List Byte → Nat → Nat → Nat → Except Leb128Fault (Nat × Nat)
  | [], _, _, _ => .error .pastEnd
  | byte :: rest, result, shift, n =>
    if shift ≥ 64 then .error .shiftTooLarge
    else
      let result1 := result ||| ((byte.val &&& 0x7f) <<< shift) % 2 ^ 64
      let shift1 := shift + 7
      if byte.val &&& 0x80 = 0 then
        if signed = true ∧ shift1 < 64 ∧ byte.val &&& 0x40 ≠ 0 then
          .ok (result1 ||| ((2 ^ 64 - 1) <<< shift1) % 2 ^ 64, n + 1)
        else .ok (result1, n + 1)
      else readleb128Loop signed rest result1 shift1 (n + 1)

/-- The template `readleb128<T, Iter>(start)` for the bytes from `start` on:
the value (of type `T`) and the number of bytes consumed. -/
def readleb128 (T : IntType) (start : List Byte) : Except Leb128Fault (Int × Nat) :=
  match readleb128Loop T.isSigned start 0 0 0 with
  | .error e => .error e
  | .ok (result, n) => .ok (if T.isSigned then toSigned64 result else (result : Int), n)

/-- The member `MemReader::readULEB128(off)`, on the memory at `data`. -/
def MemReader.readULEB128 (data : List Byte) (off : Off) : Except Leb128Fault (Int × Nat) :=
  readleb128 .uintmax_t (data.drop off)

/-- The member `MemReader::readSLEB128(off)`, on the memory at `data`. -/
def MemReader.readSLEB128 (data : List Byte) (off : Off) : Except Leb128Fault (Int × Nat) :=
  readleb128 .intmax_t (data.drop off)

/-- The standard unsigned LEB128 encoding: seven bits a byte, low group first,
bit 7 set on every byte but the last. -/
def uleb128 (v : Nat) : List Byte :=
  if v < 128 then [Fin.ofNat v]
  else Fin.ofNat (v % 128 + 128) :: uleb128 (v / 128)
termination_by v
decreasing_by omega

/-- The standard signed LEB128 encoding: seven bits of the two's complement a
byte, low group first, ending at the first byte after which only copies of its
bit 6, the sign, are left. -/
def sleb128 (s : Int) : List Byte :=
  if (s / 128 = 0 ∧ s % 128 < 64) ∨ (s / 128 = -1 ∧ 64 ≤ s % 128) then
    [Fin.ofNat (s % 128).toNat]
  else Fin.ofNat ((s % 128).toNat + 128) :: sleb128 (s / 128)
termination_by s.natAbs
decreasing_by omega

/-- The sum of the seven-bit groups of the bytes `b_0 .. b_k` of a sequence,
`(b_i & 0x7f) * 2^(7i)`. -/
def leb128Sum (bs : List Byte) (k : Nat) : Nat :=
  Finset.sum (Finset.range (k + 1)) (fun i => ((bs.getD i 0).val &&& 0x7f) * 2 ^ (7 * i))

/-! ## Lz4Reader: the upstream ranges a read fetches -/

/-- The call `read_upstream_up_to(offset, req_size, ...)` that
`decompress_block(blk_idx, decompressed_offset, req_read_size, dst)` makes, as
the pair `(offset, req_size)`: the requested range of a stored block, the whole
payload of a compressed block that is not the cached one, and none otherwise.
Every `upstream_->read` of `read_upstream_up_to` starts in that range, at
`offset + read_sum_cnt`, and asks for what is left of it. -/
def Lz4Reader.decompress_block_fetch (r : Lz4Reader) (blk_idx : Nat)
    (decompressed_offset : Off) (req_read_size : Nat) : List (Off × Nat) :=
  match r.blocks_[blk_idx]? with
  | none => []
  | some blk =>
    if blk.uncompressed_ then [(wadd blk.data_offset_ decompressed_offset, req_read_size)]
    else if r.decompressed_buf_blk_id_ ≠ blk_idx then [(blk.data_offset_, blk.data_size_)]
    else []

/-- The calls of `read_upstream_up_to` that the loop of `Lz4Reader::read` makes,
in order, round by round as in `readLoop`. -/
def Lz4Reader.readLoopFetches (lz4 : Lz4Decoder) (decompressed_offset : Off)
    (req_read_size : Nat) (blk_idx_start : Nat) (offset_floor : Off) :
    Nat → Lz4Reader → Off → List (Off × Nat)
  | 0, _, _ => []
  | fuel + 1, r, offset =>
    if offset < wadd decompressed_offset req_read_size then
      let blk_idx := blk_idx_start + (wsub offset offset_floor) / r.max_block_size_
      let offset_start_within_blk :=
        if decompressed_offset > offset then decompressed_offset - offset else 0
      let offset_end_within_blk :=
        min r.max_block_size_ (wsub (wadd decompressed_offset req_read_size) offset)
      let req_read_len_within_blk := wsub offset_end_within_blk offset_start_within_blk
      r.decompress_block_fetch blk_idx offset_start_within_blk req_read_len_within_blk ++
        match Lz4Reader.decompress_block lz4 r blk_idx offset_start_within_blk
            req_read_len_within_blk with
        | some (.ok (true, _), r1) =>
          Lz4Reader.readLoopFetches lz4 decompressed_offset req_read_size blk_idx_start
            offset_floor fuel r1 (wadd offset r.max_block_size_)
        | _ => []
    else []

/-- The calls of `read_upstream_up_to` that
`Lz4Reader::read(decompressed_offset, req_read_size, dst)` makes. -/
def Lz4Reader.readFetches (lz4 : Lz4Decoder) (r : Lz4Reader) (decompressed_offset : Off)
    (req_read_size : Nat) : List (Off × Nat) :=
  let offset_end := wadd decompressed_offset req_read_size
  if offset_end > r.decompressed_size_ then []
  else if r.max_block_size_ = 0 then []
  else
    let blk_idx_start := decompressed_offset / r.max_block_size_
    let offset_floor := blk_idx_start * r.max_block_size_
    Lz4Reader.readLoopFetches lz4 decompressed_offset req_read_size blk_idx_start offset_floor
      (offset_end - offset_floor) r offset_floor

/-- The range `q = (offset, size)` lies inside the payload of one block of the
frame. -/
def Lz4Frame.InPayload (f : Lz4Frame) (q : Nat × Nat) : Prop :=
  ∃ (i : Nat) (b : Lz4Frame.Block) (o : Nat), f.blocks[i]? = some b ∧
    (Lz4Frame.blockInfos f.header.length f.blocks)[i]? = some
      { uncompressed_ := b.stored, data_size_ := b.payload.length, data_offset_ := o } ∧
    o ≤ q.1 ∧ q.1 + q.2 ≤ o + b.payload.length

/-! ## ReaderArray -/

/-- The struct `ReaderArray<T>` for a type `T` of `objSize` bytes: the members
`reader` and `initialOffset`. -/
structure ReaderArray where
  reader : Reader
  objSize : Nat
  initialOffset : Nat

/-- The condition of the `assert` in the constructor of `ReaderArray`. -/
def ReaderArray.sizeAsserted (reader : Reader) (objSize : Nat) : Bool :=
  decide (reader.size = OffMax ∨ reader.size % objSize = 0)

/-- The constructor `ReaderArray(reader_, offset)`: `none` when the `assert`
fails and the program is aborted. Where `NDEBUG` is defined the `assert` is
compiled out, and the constructor is `ReaderArray.mk`. -/
def ReaderArray.new (reader : Reader) (objSize : Nat) (offset : Nat) : Option ReaderArray :=
  if ReaderArray.sizeAsserted reader objSize then some ⟨reader, objSize, offset⟩ else none

/-- The class `ReaderArray<T>::iterator`: `datum` and `offset`; the member
`reader` is that of the array the iterator comes from. -/
structure ReaderArray.iterator where
  datum : List Byte
  offset : Off
  deriving DecidableEq, Repr

/-- The member `iterator::getitem()`: `readObj(offset, &datum)`, and on an
exception `offset = reader->size()`. (What a failed read has written to `datum`
before the exception is not modelled: `datum` is kept.) -/
def ReaderArray.iterator.getitem (a : ReaderArray) (it : ReaderArray.iterator) :
    ReaderArray.iterator :=
  match Reader.readObj a.reader.read it.offset a.objSize 1 with
  | .ok bs => { it with datum := bs }
  | .error _ => { it with offset := a.reader.size }

/-- The member `begin()`: an iterator at `initialOffset`, after `getitem()`.
`uninit` is the indeterminate content of `datum` before the first read. -/
def ReaderArray.begin (a : ReaderArray) (uninit : List Byte) : ReaderArray.iterator :=
  ReaderArray.iterator.getitem a { datum := uninit, offset := a.initialOffset }

/-- The comparison `it != end()`: `end()` has the offset `reader->size()`, and
both iterators have the reader of the array. -/
def ReaderArray.iterator.atEnd (a : ReaderArray) (it : ReaderArray.iterator) : Bool :=
  decide (it.offset = a.reader.size)

/-- The member `iterator::operator++()`. -/
def ReaderArray.iterator.next (a : ReaderArray) (it : ReaderArray.iterator) :
    ReaderArray.iterator :=
  let it1 := { it with offset := wadd it.offset a.objSize }
  if it1.offset ≠ a.reader.size then ReaderArray.iterator.getitem a it1 else it1

/-- The elements a range-based `for` over the array visits from the iterator
`it` on: `*it`, then those from `++it`, until `it == end()`; `none` when the loop
is still running after the given number of rounds. -/
def ReaderArray.elementsFrom (a : ReaderArray) : Nat → ReaderArray.iterator →
    Option (List (List Byte))
  | 0, it => if it.atEnd a then some [] else none
  | fuel + 1, it =>
    if it.atEnd a then some []
    else
      match ReaderArray.elementsFrom a fuel (it.next a) with
      | none => none
      | some rest => some (it.datum :: rest)

/-- The elements of `for (const T &x : array)`, from `begin()` to `end()`. -/
def ReaderArray.elements (a : ReaderArray) (uninit : List Byte) (fuel : Nat) :
    Option (List (List Byte)) :=
  ReaderArray.elementsFrom a fuel (a.begin uninit)

/-- The records `k, k + 1, ..., k + n - 1` of `r` bytes each of a content:
record `i` is the `r` bytes at offset `i * r`. -/
def recordsFrom (data : List Byte) (r : Nat) (k : Nat) : Nat → List (List Byte)
  | 0 => []
  | n + 1 => (data.drop (k * r)).take r :: recordsFrom data r (k + 1) n

/-! ## Lz4Reader: the decompressed buffer as a cache -/

/-- What the body of `if (decompressed_buf_blk_id_ != blk_idx)` in
`decompress_block` computes for the block `blk`, which depends on nothing but
the upstream, `max_block_size_` and the descriptor: the exception of the
upstream read, `none` for `return false`, or the content it leaves in the
decompressed buffer, the decompression of the block; `none` on the outside when
`read_upstream_up_to` does not return. -/
def Lz4Reader.blockFetch (lz4 : Lz4Decoder) (upstream : Reader) (max_block_size_ : Nat)
    (blk : Lz4Reader.BlockInfo) : Option (Except Exception (Option (List Byte))) :=
  match Lz4Reader.read_upstream_up_to upstream blk.data_offset_ blk.data_size_ with
  | none => none
  | some (.error e, _) => some (.error e)
  | some (.ok false, _) => some (.ok none)
  | some (.ok true, bytes) =>
    some (.ok (lz4 (bytes.take blk.data_size_) max_block_size_ max_block_size_))

/-- The cached block id is the sentinel `numeric_limits<size_t>::max()`, or the
index of a block of the index whose decompression is the content of the
decompressed buffer. -/
def Lz4Reader.CacheCoherent (lz4 : Lz4Decoder) (r : Lz4Reader) : Prop :=
  r.decompressed_buf_blk_id_ = OffMax ∨
    ∃ blk, r.blocks_[r.decompressed_buf_blk_id_]? = some blk ∧
      Lz4Reader.blockFetch lz4 r.upstream_ r.max_block_size_ blk
        = some (.ok (some r.decompressed_buf_))

/-- What `decompress_block(blk_idx, decompressed_offset, req_read_size, dst)`
returns when the decompressed buffer holds no block: the result written in terms
of the upstream, `max_block_size_` and the block index only. -/
def Lz4Reader.blockResult (lz4 : Lz4Decoder) (upstream : Reader) (max_block_size_ : Nat)
    (blocks : List Lz4Reader.BlockInfo) (blk_idx : Nat) (decompressed_offset : Off)
    (req_read_size : Nat) : Option (Except Exception (Bool × List Byte)) :=
  match blocks[blk_idx]? with
  | none => some (.error .vectorOutOfRange)
  | some blk =>
    if blk.uncompressed_ then
      match Lz4Reader.read_upstream_up_to upstream (wadd blk.data_offset_ decompressed_offset)
          req_read_size with
      | none => none
      | some (.error e, _) => some (.error e)
      | some (.ok b, bytes) => some (.ok (b, bytes))
    else
      match Lz4Reader.blockFetch lz4 upstream max_block_size_ blk with
      | none => none
      | some (.error e) => some (.error e)
      | some (.ok none) => some (.ok (false, []))
      | some (.ok (some buf)) =>
        if buf.length < wadd decompressed_offset req_read_size then some (.ok (false, []))
        else some (.ok (true, (buf.drop decompressed_offset).take req_read_size))

/-! ## The varint readers of the base class -/

/-- The `for` loop of the template `readleb128<T, Iter>` with `Iter` the
iterator of a `ReaderArray<unsigned char>`: `*it` is the `datum` of the
iterator, `++it` is `operator++`, and `it - start` is the difference of the two
offsets. The loop has no test against `end()`. The result is the pattern of the
returned value and the returned count; `none` when the loop is still running
after the given number of rounds. -/
def ReaderArray.readleb128Loop (signed : Bool) (a : ReaderArray) (startOffset : Off) :
    Nat → ReaderArray.iterator → Nat → Nat → Option (Except Leb128Fault (Nat × Nat))
  | 0, _, _, _ => none
  | fuel + 1, it, result, shift =>
    if shift ≥ 64 then some (.error .shiftTooLarge)
    else
      let byte := u8 it.datum
      let result1 := result ||| ((byte &&& 0x7f) <<< shift) % 2 ^ 64
      let shift1 := shift + 7
      if byte &&& 0x80 = 0 then
        let n := wadd (wsub it.offset startOffset) 1
        if signed = true ∧ shift1 < 64 ∧ byte &&& 0x40 ≠ 0 then
          some (.ok (result1 ||| ((2 ^ 64 - 1) <<< shift1) % 2 ^ 64, n))
        else some (.ok (result1, n))
      else ReaderArray.readleb128Loop signed a startOffset fuel (it.next a) result1 shift1

/-- The body shared by `Reader::readULEB128(off)` and `Reader::readSLEB128(off)`:
`ReaderArray<unsigned char> ar(*this, off)`, whose `assert` holds as the size of
the element is 1, then `readleb128<T>(ar.begin())`. `uninit` is the
indeterminate content of `datum` before the first read. -/
def Reader.readleb128 (T : IntType) (reader : Reader) (uninit : List Byte) (fuel : Nat)
    (off : Off) : Option (Except Leb128Fault (Int × Nat)) :=
  let ar : ReaderArray := { reader := reader, objSize := 1, initialOffset := off }
  let start := ar.begin uninit
  match ReaderArray.readleb128Loop T.isSigned ar start.offset fuel start 0 0 with
  | none => none
  | some (.error e) => some (.error e)
  | some (.ok (result, n)) =>
    some (.ok (if T.isSigned then toSigned64 result else (result : Int), n))

/-- The member `Reader::readULEB128(off)` of the base class. -/
def Reader.readULEB128 (reader : Reader) (uninit : List Byte) (fuel : Nat) (off : Off) :
    Option (Except Leb128Fault (Int × Nat)) :=
  Reader.readleb128 .uintmax_t reader uninit fuel off

/-- The member `Reader::readSLEB128(off)` of the base class. -/
def Reader.readSLEB128 (reader : Reader) (uninit : List Byte) (fuel : Nat) (off : Off) :
    Option (Except Leb128Fault (Int × Nat)) :=
  Reader.readleb128 .intmax_t reader uninit fuel off

/-! ## Theorems: OffsetReader -/

theorem wadd_of_lt {a b : Nat} (h : a + b < 2 ^ 64) : wadd a b = a + b := by
  unfold wadd; omega

theorem wadd_right_comm (a b c : Nat) : wadd (wadd a b) c = wadd (wadd a c) b := by
  unfold wadd; omega

theorem wadd_comm (a b : Nat) : wadd a b = wadd b a := by
  unfold wadd; omega

theorem OffsetReader.collapse_fst_leaf (u : Reader) (s : Off) :
    (OffsetReader.collapse u s).1.isOffsetReader = false := by
  induction u generalizing s with
  | leaf v => rfl
  | offsetReader up o l ih => exact ih (wadd s o)

theorem OffsetReader.collapse_fst (u : Reader) (s t : Off) :
    (OffsetReader.collapse u s).1 = (OffsetReader.collapse u t).1 := by
  induction u generalizing s t with
  | leaf v => rfl
  | offsetReader up o l ih => exact ih (wadd s o) (wadd t o)

theorem OffsetReader.collapse_snd (u : Reader) (a b : Off) :
    (OffsetReader.collapse u (wadd a b)).2 = wadd b (OffsetReader.collapse u a).2 := by
  induction u generalizing a with
  | leaf v => exact wadd_comm a b
  | offsetReader up o l ih =>
    show (OffsetReader.collapse up (wadd (wadd a b) o)).2 = wadd b (OffsetReader.collapse up (wadd a o)).2
    rw [wadd_right_comm a b o]
    exact ih (wadd a o)

theorem OffsetReader.collapse_of_leaf (u : Reader) (h : u.isOffsetReader = false) (s : Off) :
    OffsetReader.collapse u s = (u, s) := by
  cases u with
  | leaf v => rfl
  | offsetReader up o l => simp [Reader.isOffsetReader] at h

/-- A request inside the window is forwarded unchanged, moved by `offset`. -/
theorem OffsetReader.request_inside (offset length off count : Nat)
    (h : off + count ≤ length) (hw : off + offset < 2 ^ 64) :
    OffsetReader.request offset length off count = .ok (off + offset, count) := by
  unfold OffsetReader.request
  have h1 : ¬ off > length := by omega
  have h2 : ¬ wadd off count > length := by unfold wadd; omega
  simp [h1, h2, wadd_of_lt hw]

/-- A request that starts inside the window and ends after it (without
wrapping) is clamped to the end of the window. -/
theorem OffsetReader.request_clamped (offset length off count : Nat)
    (h0 : off ≤ length) (h : length < off + count) (hc : off + count < 2 ^ 64) :
    OffsetReader.request offset length off count = .ok (wadd off offset, length - off) := by
  unfold OffsetReader.request
  have h1 : ¬ off > length := by omega
  have h2 : wadd off count > length := by rw [wadd_of_lt hc]; exact h
  simp [h1, h2]

/-- Without wrapping, the forwarded count never exceeds `length - off`. -/
theorem OffsetReader.request_bound (offset length off count : Nat) (hc : off + count < 2 ^ 64) :
    OffsetReader.request offset length off count = .error .readPastEndOfObject ∨
    ∃ c, c ≤ length - off ∧ c ≤ count ∧ off ≤ length ∧
      OffsetReader.request offset length off count = .ok (wadd off offset, c) := by
  by_cases h0 : off > length
  · left; simp [OffsetReader.request, h0]
  · right
    by_cases h : length < off + count
    · exact ⟨length - off, le_refl _, by omega, by omega,
        OffsetReader.request_clamped offset length off count (by omega) h hc⟩
    · refine ⟨count, by omega, le_refl _, by omega, ?_⟩
      unfold OffsetReader.request
      have h2 : ¬ wadd off count > length := by rw [wadd_of_lt hc]; omega
      simp [h0, h2]

theorem OffsetReader.read_collapse (u : Reader) (start i n : Nat)
    (hw : start + i < 2 ^ 64) (hin : u.inWindow (start + i) n) :
    Reader.read (OffsetReader.collapse u start).1 (i + (OffsetReader.collapse u start).2) n
      = Reader.read u (start + i) n := by
  induction u generalizing start with
  | leaf v => simp [OffsetReader.collapse, Nat.add_comm]
  | offsetReader up o l ih =>
    simp only [Reader.inWindow] at hin
    obtain ⟨h1, h2, h3⟩ := hin
    have hso : wadd start o = start + o := wadd_of_lt (by omega)
    have e : start + o + i = start + i + o := by omega
    show Reader.read (OffsetReader.collapse up (wadd start o)).1
        (i + (OffsetReader.collapse up (wadd start o)).2) n = _
    rw [hso, ih (start + o) (by omega) (by rw [e]; exact h3)]
    show _ = (match OffsetReader.request o l (start + i) n with
      | .error e => .error e
      | .ok (o, c) => Reader.read up o c)
    rw [OffsetReader.request_inside o l (start + i) n h1 h2, e]

theorem OffsetReader.collapse_snd_lt (u : Reader) (start i n : Nat)
    (hw : start + i < 2 ^ 64) (hin : u.inWindow (start + i) n) :
    i + (OffsetReader.collapse u start).2 < 2 ^ 64 := by
  induction u generalizing start with
  | leaf v => simp [OffsetReader.collapse]; omega
  | offsetReader up o l ih =>
    simp only [Reader.inWindow] at hin
    obtain ⟨_, h2, h3⟩ := hin
    have hso : wadd start o = start + o := wadd_of_lt (by omega)
    have e : start + o + i = start + i + o := by omega
    show i + (OffsetReader.collapse up (wadd start o)).2 < 2 ^ 64
    rw [hso]
    exact ih (start + o) (by omega) (by rw [e]; exact h3)

set_option maxRecDepth 100000 in
/-- C4 (as stated, refuted): in the window `(100, 50)` over a 1000-byte upstream the
offset `40` is below the length, yet `read(40, 20)` is not `upstream.read(140, 20)`:
the count is clamped to the 10 bytes left in the window. -/
theorem C4_read_clamped_counterexample :
    40 < 50 ∧
    Reader.read (OffsetReader (MemReader 1000 (testBytes 1000)) 100 50) 40 20
      ≠ Reader.read (MemReader 1000 (testBytes 1000)) (100 + 40) 20 := by
  decide

/-- C4 (amended): an `OffsetReader` built over `upstream` with `(start, length)`,
`length` given explicitly, has `size() == length`; a request with `i + n <= length`
(and, when `upstream` is itself an `OffsetReader`, inside its windows) returns the
same result as `upstream.read(start + i, n)`; a request that starts inside the
window and runs past its end is served as `read(i, length - i)`. In particular the
window `(100, 50)` has size 50 and `read(40, 10)` equals `upstream.read(140, 10)`. -/
theorem C4_offset_read_delegates (upstream : Reader) (start length i n : Nat)
    (hlen : length ≠ OffMax) (hw : start + i < 2 ^ 64) :
    (OffsetReader upstream start length).size = length ∧
    (i + n ≤ length → upstream.inWindow (start + i) n →
      Reader.read (OffsetReader upstream start length) i n = Reader.read upstream (start + i) n) ∧
    (i ≤ length → length < i + n → i + n < 2 ^ 64 →
      Reader.read (OffsetReader upstream start length) i n
        = Reader.read (OffsetReader upstream start length) i (length - i)) ∧
    (OffsetReader upstream 100 50).size = 50 ∧
    (upstream.inWindow 140 10 →
      Reader.read (OffsetReader upstream 100 50) 40 10 = Reader.read upstream 140 10) := by
  have key : ∀ (s len j m : Nat), len ≠ OffMax → s + j < 2 ^ 64 → j + m ≤ len →
      upstream.inWindow (s + j) m →
      Reader.read (OffsetReader upstream s len) j m = Reader.read upstream (s + j) m := by
    intro s len j m hl hsj hjm hin
    have hlt := OffsetReader.collapse_snd_lt upstream s j m hsj hin
    simp only [OffsetReader, hl, if_false, Reader.read]
    rw [OffsetReader.request_inside _ _ _ _ hjm hlt]
    exact OffsetReader.read_collapse upstream s j m hsj hin
  refine ⟨by simp [OffsetReader, hlen, Reader.size], key start length i n hlen hw, ?_, ?_, ?_⟩
  · intro h0 h1 h2
    simp only [OffsetReader, hlen, if_false, Reader.read]
    rw [OffsetReader.request_clamped _ _ _ _ h0 h1 h2]
    have h3 : OffsetReader.request (OffsetReader.collapse upstream start).2 length i (length - i)
        = .ok (wadd i (OffsetReader.collapse upstream start).2, length - i) := by
      unfold OffsetReader.request
      have h4 : ¬ i > length := by omega
      have h5 : ¬ wadd i (length - i) > length := by unfold wadd; omega
      simp [h4, h5]
    rw [h3]
  · simp [OffsetReader, OffMax, Reader.size]
  · intro hin
    exact key 100 50 40 10 (by simp [OffMax]) (by norm_num) (by norm_num) hin

/-- C4 (witness): the amended statement at the window `(100, 50)` over a 1000-byte
memory reader, for `read(40, 10)`. -/
theorem C4_offset_read_delegates_witness :
    (OffsetReader (MemReader 1000 (testBytes 1000)) 100 50).size = 50 ∧
    Reader.read (OffsetReader (MemReader 1000 (testBytes 1000)) 100 50) 40 10
      = Reader.read (MemReader 1000 (testBytes 1000)) 140 10 :=
  have h := C4_offset_read_delegates (MemReader 1000 (testBytes 1000)) 100 50 40 10
    (by decide) (by decide)
  ⟨h.1, h.2.1 (by decide) trivial⟩

/-- C5 (the code at the failing input): in the window `(0, 5)` over a 20-byte
memory reader, `read(1, 2^64 - 1)` does not raise; the sum `off + count` wraps to
`0`, the count is not clamped, the request forwarded upstream is
`read(1, 2^64 - 1)` and 19 bytes come back, 15 of them from outside the window.
Likewise in a window of length `2^64 - 2`, `read(2^64 - 16, 32)` is forwarded with
the count 32, above the 14 bytes left in the window. -/
theorem C5_wrapped_count_escapes_window :
    OffsetReader.request 0 5 1 (2 ^ 64 - 1) = .ok (1, 2 ^ 64 - 1) ∧
    Reader.read (OffsetReader (MemReader 20 (testBytes 20)) 0 5) 1 (2 ^ 64 - 1)
      = .ok ((testBytes 20).drop 1) ∧
    ((testBytes 20).drop 1).length = 19 ∧ ¬ (19 ≤ 5 - 1) ∧
    OffsetReader.request 0 (2 ^ 64 - 2) (2 ^ 64 - 16) 32 = .ok (2 ^ 64 - 16, 32) ∧
    ¬ (32 ≤ (2 ^ 64 - 2) - (2 ^ 64 - 16)) := by
  decide

/-- C6 (as stated, refuted): in the window `(100, 50)` the offset `i = 50` equals the
length, yet `read(50, 10)` does not raise: it forwards `read(150, 0)` upstream and
returns no bytes. -/
theorem C6_offset_equal_length_counterexample :
    50 ≥ 50 ∧
    OffsetReader.request 100 50 50 10 = .ok (150, 0) ∧
    Reader.read (OffsetReader (MemReader 200 (testBytes 200)) 100 50) 50 10 = .ok [] := by
  decide

/-- C6 (amended): for every `OffsetReader` with window length `L` and every offset
`i > L`, `read(i, n)` raises the out-of-range error for every `n` and forwards no
request upstream (whatever the upstream is). At `i == L` it does not raise by
itself: it forwards `read(start + L, 0)` when `L + n` does not wrap. -/
theorem C6_read_past_length_raises (upstream : Reader) (offset L i n : Nat) (h : L < i) :
    OffsetReader.request offset L i n = .error .readPastEndOfObject ∧
    Reader.read (.offsetReader upstream offset L) i n = .error .readPastEndOfObject ∧
    (L + n < 2 ^ 64 → OffsetReader.request offset L L n = .ok (wadd L offset, 0)) := by
  have h1 : OffsetReader.request offset L i n = .error .readPastEndOfObject := by
    simp [OffsetReader.request, h]
  refine ⟨h1, by simp [Reader.read, h1], fun hn => ?_⟩
  by_cases h0 : n = 0
  · subst h0
    have h2 : ¬ wadd L 0 > L := by unfold wadd; omega
    simp [OffsetReader.request, h2]
  · have := OffsetReader.request_clamped offset L L n (le_refl _) (by omega) hn
    simpa using this

/-- C6 (witness): a window of length 50 over the null reader, read at offset 51. -/
theorem C6_read_past_length_raises_witness :
    50 < 51 ∧
    Reader.read (.offsetReader NullReader 100 50) 51 10 = .error .readPastEndOfObject :=
  ⟨by decide, (C6_read_past_length_raises NullReader 100 50 51 10 (by decide)).2.1⟩

/-- C7: the reader `OffsetReader(OffsetReader(U, a, la), b, lb)` is the same reader
(same stored upstream, offset and length) as `OffsetReader(U, a + b, lb)`, so both
have the same `size()` and return the same result for every `read(i, n)` and
`readString(i)`; the stored upstream is not an `OffsetReader`. -/
theorem C7_chain_flattening (U : Reader) (a la b lb : Nat) :
    (OffsetReader (OffsetReader U a la) b lb).size = (OffsetReader U (wadd a b) lb).size ∧
    (∀ i n, Reader.read (OffsetReader (OffsetReader U a la) b lb) i n
      = Reader.read (OffsetReader U (wadd a b) lb) i n) ∧
    (∀ i, Reader.readString (OffsetReader (OffsetReader U a la) b lb) i
      = Reader.readString (OffsetReader U (wadd a b) lb) i) ∧
    (∃ up off len, OffsetReader (OffsetReader U a la) b lb = .offsetReader up off len ∧
      up.isOffsetReader = false) := by
  have hc : OffsetReader.collapse (OffsetReader U a la) b
      = ((OffsetReader.collapse U a).1, wadd b (OffsetReader.collapse U a).2) := by
    show OffsetReader.collapse (OffsetReader.collapse U a).1 (wadd b (OffsetReader.collapse U a).2) = _
    exact OffsetReader.collapse_of_leaf _ (OffsetReader.collapse_fst_leaf U a) _
  have heq : OffsetReader (OffsetReader U a la) b lb = OffsetReader U (wadd a b) lb := by
    unfold OffsetReader
    rw [← OffsetReader.collapse_snd U a b, ← OffsetReader.collapse_fst U (wadd a b) a] at hc
    exact congrArg (fun p : Reader × Off =>
      Reader.offsetReader p.1 p.2 (if lb = OffMax then wsub p.1.size p.2 else lb)) hc
  refine ⟨by rw [heq], fun i n => by rw [heq], fun i => by rw [heq], ?_⟩
  exact ⟨_, _, _, rfl, by rw [hc]; exact OffsetReader.collapse_fst_leaf U a⟩

/-- C8 (the code at the failing input): with `U = OffsetReader(M, 10, 20)` over a
100-byte memory reader `M`, `U.size() == 20`, and the reader built over `U` at
start `5` without a length has `size() == 85` (the size of `M` minus the summed
offsets `15`), not `U.size() - 5 == 15`. -/
theorem C8_default_length_over_offset_reader :
    (OffsetReader (MemReader 100 (testBytes 100)) 10 20).size = 20 ∧
    5 ≤ (OffsetReader (MemReader 100 (testBytes 100)) 10 20).size ∧
    (OffsetReader (OffsetReader (MemReader 100 (testBytes 100)) 10 20) 5 OffMax).size = 85 ∧
    (OffsetReader (MemReader 100 (testBytes 100)) 10 20).size - 5 = 15 := by
  decide

/-- C9 (as stated, refuted): for `W = (M, 10, 20)` over a 100-byte memory reader the
view `W.view(5, 100)` has size 100, above `la - b = 15`, and the default-length view
`W.view(5)` has size 85; `V.read(50, 10)` on the first succeeds with bytes 65..74
of `M`, outside `[10, 30)`. -/
theorem C9_view_exceeds_window_counterexample :
    (Reader.view (.offsetReader (MemReader 100 (testBytes 100)) 10 20) 5 100).size = 100 ∧
    ¬ (100 ≤ 20 - 5) ∧
    (Reader.view (.offsetReader (MemReader 100 (testBytes 100)) 10 20) 5 OffMax).size = 85 ∧
    Reader.read (Reader.view (.offsetReader (MemReader 100 (testBytes 100)) 10 20) 5 100) 50 10
      = .ok (((testBytes 100).drop 65).take 10) := by
  decide

/-- C9 (amended): for every `OffsetReader` `W = (U, a, la)` and every view
`V = W.view(name, b, lb)` with an explicit `lb` such that `b + lb <= la`,
`size(V) = lb <= la - b`, and every `V.read(off, count)` (with `off + count` not
wrapping) either raises the out-of-range error or forwards exactly one request
`U.read(a + b + off, c)` with `c <= lb - off`, whose bytes lie in `[a, a + la)`. -/
theorem C9_view_within_window (v : LeafReader) (a la b lb : Nat)
    (hlb : lb ≠ OffMax) (hb : b + lb ≤ la) (ha : a + la < 2 ^ 64) :
    (Reader.view (.offsetReader (.leaf v) a la) b lb).size = lb ∧ lb ≤ la - b ∧
    ∀ off count, off + count < 2 ^ 64 →
      Reader.read (Reader.view (.offsetReader (.leaf v) a la) b lb) off count
          = .error .readPastEndOfObject ∨
      ∃ c, c ≤ lb - off ∧ a ≤ a + b + off ∧ a + b + off + c ≤ a + la ∧
        OffsetReader.request (a + b) lb off count = .ok (a + b + off, c) ∧
        Reader.read (Reader.view (.offsetReader (.leaf v) a la) b lb) off count
          = v.read (a + b + off) c := by
  have hab : wadd b a = a + b := by unfold wadd; omega
  have hV : Reader.view (.offsetReader (.leaf v) a la) b lb = .offsetReader (.leaf v) (a + b) lb := by
    simp [Reader.view, OffsetReader, OffsetReader.collapse, hlb, hab]
  rw [hV]
  refine ⟨rfl, by omega, fun off count hc => ?_⟩
  rcases OffsetReader.request_bound (a + b) lb off count hc with h | ⟨c, h1, _, h3, h4⟩
  · left; simp [Reader.read, h]
  · right
    have hw : wadd off (a + b) = a + b + off := by unfold wadd; omega
    rw [hw] at h4
    exact ⟨c, h1, by omega, by omega, h4, by simp [Reader.read, h4]⟩

/-- C9 (witness): the view `(5, 10)` of the window `(10, 20)` over a 100-byte
memory reader. -/
theorem C9_view_within_window_witness :
    (Reader.view (.offsetReader (MemReader 100 (testBytes 100)) 10 20) 5 10).size = 10 ∧
    10 ≤ 20 - 5 :=
  have h := C9_view_within_window
    { read := MemReader.read 100 (testBytes 100), size := 100,
      readString := MemReader.readString (testBytes 100) } 10 20 5 10
    (by decide) (by decide) (by decide)
  ⟨h.1, h.2.1⟩

/-! ## Theorems: CacheReader -/

theorem CacheReader.findPage_some (pageoff : Off) (ps : List CacheReader.Page)
    (q : CacheReader.Page) (rest : List CacheReader.Page)
    (h : CacheReader.findPage pageoff ps = some (q, rest)) :
    q.offset = pageoff ∧ q ∈ ps ∧ ∀ x ∈ rest, x ∈ ps := by
  induction ps generalizing q rest with
  | nil => simp [CacheReader.findPage] at h
  | cons p ps ih =>
    unfold CacheReader.findPage at h
    by_cases hp : p.offset = pageoff
    · simp only [hp, if_true, Option.some.injEq, Prod.mk.injEq] at h
      obtain ⟨rfl, rfl⟩ := h
      exact ⟨hp, List.mem_cons_self _ _, fun x hx => List.mem_cons_of_mem _ hx⟩
    · simp only [hp, if_false] at h
      cases hf : CacheReader.findPage pageoff ps with
      | none => simp [hf] at h
      | some qr =>
        obtain ⟨q1, rest1⟩ := qr
        simp only [hf, Option.some.injEq, Prod.mk.injEq] at h
        obtain ⟨rfl, rfl⟩ := h
        obtain ⟨h1, h2, h3⟩ := ih q1 rest1 hf
        refine ⟨h1, List.mem_cons_of_mem _ h2, fun x hx => ?_⟩
        rcases List.mem_cons.mp hx with rfl | hx
        · exact List.mem_cons_self _ _
        · exact List.mem_cons_of_mem _ (h3 x hx)

theorem CacheReader.Page.load_ok (p p1 : CacheReader.Page) (u : Reader) (pageoff : Off)
    (h : p.load u pageoff = .ok p1) : CacheReader.PageOK u p1 ∧ p1.offset = pageoff := by
  unfold CacheReader.Page.load at h
  cases hr : u.read pageoff CacheReader.PAGESIZE with
  | error e => simp [hr] at h
  | ok bs =>
    simp only [hr, Except.ok.injEq] at h
    subst h
    exact ⟨⟨bs, hr, rfl, by simp⟩, rfl⟩

/-- What `getPage` keeps and returns: the list stays coherent, also when the load
throws, and a returned page is the coherent page of the wanted offset. -/
theorem CacheReader.getPage_spec (c : CacheReader) (pageoff : Off) (hc : c.Coherent) :
    (c.getPage pageoff).2.Coherent ∧ (c.getPage pageoff).2.upstream = c.upstream ∧
    (c.getPage pageoff).2.uninit = c.uninit ∧
    ∀ page, (c.getPage pageoff).1 = .ok page →
      CacheReader.PageOK c.upstream page ∧ page.offset = pageoff := by
  unfold CacheReader.getPage
  cases hf : CacheReader.findPage pageoff c.pages with
  | some qr =>
    obtain ⟨q, rest⟩ := qr
    obtain ⟨h1, h2, h3⟩ := CacheReader.findPage_some pageoff c.pages q rest hf
    refine ⟨?_, rfl, rfl, ?_⟩
    · intro x hx
      rcases List.mem_cons.mp hx with rfl | hx
      · exact hc _ h2
      · exact hc x (h3 x hx)
    · intro page hpage
      simp only [Except.ok.injEq] at hpage
      subst hpage
      exact ⟨hc _ h2, h1⟩
  | none =>
    simp only
    have hsub : ∀ x ∈ (if c.pages.length = CacheReader.MAXPAGES then c.pages.dropLast else c.pages),
        x ∈ c.pages := by
      intro x hx
      split at hx
      · exact List.dropLast_subset _ hx
      · exact hx
    cases hl : CacheReader.Page.load
        (if c.pages.length = CacheReader.MAXPAGES then c.pages.getLastD ⟨0, 0, c.uninit⟩
          else ⟨0, 0, c.uninit⟩) c.upstream pageoff with
    | error e =>
      refine ⟨fun x hx => hc x (hsub x hx), rfl, rfl, ?_⟩
      intro page hpage
      simp at hpage
    | ok p1 =>
      obtain ⟨h1, h2⟩ := CacheReader.Page.load_ok _ _ _ _ hl
      refine ⟨?_, rfl, rfl, ?_⟩
      · intro x hx
        rcases List.mem_cons.mp hx with rfl | hx
        · exact h1
        · exact hc x (hsub x hx)
      · intro page hpage
        simp only [Except.ok.injEq] at hpage
        subst hpage
        exact ⟨h1, h2⟩

theorem CacheReader.readLoop_zero_count (fuel : Nat) (c : CacheReader) (off : Nat)
    (acc : List Byte) : CacheReader.readLoop fuel c off 0 acc = (.ok (off, acc), c) := by
  cases fuel <;> simp [CacheReader.readLoop]

theorem CacheReader.readLoop_error (fuel : Nat) (c c1 : CacheReader) (off count : Nat)
    (acc : List Byte) (e : Exception) (h0 : count ≠ 0)
    (hg : c.getPage (off - off % CacheReader.PAGESIZE) = (.error e, c1)) :
    CacheReader.readLoop (fuel + 1) c off count acc = (.error e, c1) := by
  simp only [CacheReader.readLoop, h0, if_false, hg]

theorem CacheReader.readLoop_ok (fuel : Nat) (c c1 : CacheReader) (off count : Nat)
    (acc : List Byte) (page : CacheReader.Page) (h0 : count ≠ 0)
    (hg : c.getPage (off - off % CacheReader.PAGESIZE) = (.ok page, c1)) :
    CacheReader.readLoop (fuel + 1) c off count acc =
      if page.len ≠ CacheReader.PAGESIZE then
        (.ok (wadd off (min (wsub page.len (off % CacheReader.PAGESIZE)) count),
          acc ++ (page.data.drop (off % CacheReader.PAGESIZE)).take
            (min (wsub page.len (off % CacheReader.PAGESIZE)) count)), c1)
      else CacheReader.readLoop fuel c1
        (wadd off (min (wsub page.len (off % CacheReader.PAGESIZE)) count))
        (count - min (wsub page.len (off % CacheReader.PAGESIZE)) count)
        (acc ++ (page.data.drop (off % CacheReader.PAGESIZE)).take
          (min (wsub page.len (off % CacheReader.PAGESIZE)) count)) := by
  simp only [CacheReader.readLoop, h0, if_false, hg]

/-- The loop of `read` keeps the page list coherent, whatever it is asked. -/
theorem CacheReader.readLoop_coherent (fuel : Nat) (c : CacheReader) (off count : Nat)
    (acc : List Byte) (hc : c.Coherent) :
    (CacheReader.readLoop fuel c off count acc).2.Coherent ∧
    (CacheReader.readLoop fuel c off count acc).2.upstream = c.upstream := by
  induction fuel generalizing c off count acc with
  | zero => exact ⟨hc, rfl⟩
  | succ fuel ih =>
    by_cases h0 : count = 0
    · subst h0; rw [CacheReader.readLoop_zero_count]; exact ⟨hc, rfl⟩
    · obtain ⟨g1, g2, _, _⟩ := CacheReader.getPage_spec c (off - off % CacheReader.PAGESIZE) hc
      rcases hg : c.getPage (off - off % CacheReader.PAGESIZE) with ⟨res, c1⟩
      rw [hg] at g1 g2
      cases res with
      | error e => rw [CacheReader.readLoop_error fuel c c1 off count acc e h0 hg]; exact ⟨g1, g2⟩
      | ok page =>
        rw [CacheReader.readLoop_ok fuel c c1 off count acc page h0 hg]
        split
        · exact ⟨g1, g2⟩
        · obtain ⟨i1, i2⟩ := ih c1 (wadd off (min (wsub page.len (off % CacheReader.PAGESIZE)) count))
            (count - min (wsub page.len (off % CacheReader.PAGESIZE)) count)
            (acc ++ (page.data.drop (off % CacheReader.PAGESIZE)).take
              (min (wsub page.len (off % CacheReader.PAGESIZE)) count)) g1
          exact ⟨i1, i2.trans g2⟩

theorem CacheReader.read_coherent (c : CacheReader) (off count : Nat) (hc : c.Coherent) :
    (c.read off count).2.Coherent ∧ (c.read off count).2.upstream = c.upstream := by
  unfold CacheReader.read
  split
  · exact ⟨hc, rfl⟩
  · obtain ⟨h1, h2⟩ := CacheReader.readLoop_coherent count c off count [] hc
    rcases hl : CacheReader.readLoop count c off count [] with ⟨res, c1⟩
    rw [hl] at h1 h2
    cases res with
    | error e => exact ⟨h1, h2⟩
    | ok r => exact ⟨h1, h2⟩

theorem CacheReader.reads_coherent (c : CacheReader) (reqs : List (Off × Nat)) (hc : c.Coherent) :
    (c.reads reqs).Coherent ∧ (c.reads reqs).upstream = c.upstream := by
  induction reqs generalizing c with
  | nil => exact ⟨hc, rfl⟩
  | cons r rest ih =>
    obtain ⟨off, count⟩ := r
    obtain ⟨h1, h2⟩ := CacheReader.read_coherent c off count hc
    obtain ⟨i1, i2⟩ := ih (c.read off count).2 h1
    exact ⟨i1, i2.trans h2⟩

theorem CacheReader.getPage_ok_of_read_ok (c : CacheReader) (pageoff : Off) (bs : List Byte)
    (h : c.upstream.read pageoff CacheReader.PAGESIZE = .ok bs) :
    ∃ page, (c.getPage pageoff).1 = .ok page := by
  unfold CacheReader.getPage
  cases hf : CacheReader.findPage pageoff c.pages with
  | some qr => exact ⟨qr.1, rfl⟩
  | none => simp [CacheReader.Page.load, h]

/-- A slice of a list that lies inside a prefix can be taken from the prefix. -/
theorem List.take_drop_of_take {α : Type} (l : List α) (n i k : Nat) (h : i + k ≤ n) :
    (l.drop i).take k = ((l.take n).drop i).take k := by
  rw [List.drop_take, List.take_take, Nat.min_eq_left (by omega)]

/-- Inside the content, the loop of `read` copies exactly the bytes asked for. -/
theorem CacheReader.readLoop_in_range (u : Reader) (data : List Byte) (hs : Serves u data)
    (hlen : data.length < 2 ^ 64) (fuel : Nat) (c : CacheReader) (off count : Nat)
    (acc : List Byte) (hu : c.upstream = u) (hc : c.Coherent) (hf : count ≤ fuel)
    (hr : off + count ≤ data.length) :
    (CacheReader.readLoop fuel c off count acc).1
      = .ok (off + count, acc ++ (data.drop off).take count) := by
  induction fuel generalizing c off count acc with
  | zero =>
    have h0 : count = 0 := by omega
    subst h0
    simp [CacheReader.readLoop]
  | succ fuel ih =>
    by_cases h0 : count = 0
    · subst h0; rw [CacheReader.readLoop_zero_count]; simp
    · have hP : CacheReader.PAGESIZE = 256 := rfl
      have hpo : off - off % CacheReader.PAGESIZE < data.length := by omega
      have hread := hs (off - off % CacheReader.PAGESIZE) CacheReader.PAGESIZE hpo (by decide)
      obtain ⟨g1, g2, _, g4⟩ := CacheReader.getPage_spec c (off - off % CacheReader.PAGESIZE) hc
      obtain ⟨pg, hpg⟩ := CacheReader.getPage_ok_of_read_ok c (off - off % CacheReader.PAGESIZE) _
        (hu ▸ hread)
      obtain ⟨⟨bs, hb1, hb2, hb3⟩, hoff⟩ := g4 pg hpg
      rcases hg : c.getPage (off - off % CacheReader.PAGESIZE) with ⟨res, c1⟩
      rw [hg] at g1 g2 hpg
      simp only at hpg
      subst hpg
      rw [CacheReader.readLoop_ok fuel c c1 off count acc pg h0 hg]
      rw [hoff, hu, hread] at hb1
      simp only [Except.ok.injEq] at hb1
      have hlenpg : pg.len = min 256 (data.length - (off - off % 256)) := by
        rw [hb2, ← hb1, hP]; simp [List.length_take, List.length_drop]
      have hmod : off % 256 < 256 := Nat.mod_lt _ (by decide)
      have hws : wsub pg.len (off % CacheReader.PAGESIZE) = pg.len - off % 256 := by
        rw [hP]; unfold wsub; omega
      have hch1 : 1 ≤ min (pg.len - off % 256) count := by omega
      have hslice : (pg.data.drop (off % 256)).take (min (pg.len - off % 256) count)
          = (data.drop off).take (min (pg.len - off % 256) count) := by
        rw [List.take_drop_of_take pg.data pg.len _ _ (by omega), hb3, ← hb1, hP,
          ← List.take_drop_of_take _ 256 _ _ (by omega), List.drop_drop]
        congr 2; omega
      rw [hws, hP, hslice]
      by_cases hfull : pg.len = 256
      · rw [if_neg (by simpa using hfull)]
        have hw : wadd off (min (pg.len - off % 256) count) = off + min (pg.len - off % 256) count :=
          wadd_of_lt (by omega)
        rw [hw, ih c1 _ _ _ (g2.trans hu) g1 (by omega) (by omega)]
        have e1 : off + min (pg.len - off % 256) count + (count - min (pg.len - off % 256) count)
            = off + count := by omega
        have e2 : count = min (pg.len - off % 256) count + (count - min (pg.len - off % 256) count) := by
          omega
        rw [e1, List.append_assoc]
        congr 3
        conv_rhs => rw [e2, List.take_add, List.drop_drop]
      · rw [if_pos (by simpa using hfull)]
        have hmin : min (pg.len - off % 256) count = count := by omega
        rw [hmin, wadd_of_lt (by omega)]

theorem MemReader_serves (data : List Byte) : Serves (MemReader data.length data) data := by
  intro off count hoff _
  show MemReader.read data.length data off count = _
  unfold MemReader.read
  have h1 : ¬ off > data.length := by omega
  rw [if_neg h1]
  show Except.ok ((data.drop off).take (min count (data.length - off))) = _
  have h2 : (data.drop off).length = data.length - off := List.length_drop _ _
  by_cases h : count ≤ data.length - off
  · rw [Nat.min_eq_left h]
  · rw [Nat.min_eq_right (by omega), List.take_of_length_le (by omega),
      List.take_of_length_le (by omega)]

theorem FileReader_serves (data : List Byte) (fileSize : Off) :
    Serves (FileReader (preadFile data) fileSize) data := by
  intro off count hoff hcount
  show FileReader.read (preadFile data) off count = _
  unfold FileReader.read preadFile
  have h2 : (data.drop off).length = data.length - off := List.length_drop _ _
  have : ((data.drop off).take count).length ≠ 0 := by
    rw [List.length_take, h2]; omega
  simp only [this, if_false]

set_option maxRecDepth 100000 in
/-- C3 (as stated, refuted): over a file reader the cache differs from its upstream
at the end of the source. On a 100-byte file `read(100, 10)` returns the count 0
where `upstream.read(100, 10)` raises; on a 256-byte file `read(250, 10)` raises
(the load of the page at 256 hits end of file) where `upstream.read(250, 10)`
returns the 6 bytes left; and `read(10, 0)` returns the count 0 where
`upstream.read(10, 0)` raises. -/
theorem C3_read_at_end_counterexample :
    ((CacheReader.new (FileReader (preadFile (testBytes 100)) 100) []).read 100 10).1
      = .ok (0, []) ∧
    Reader.read (FileReader (preadFile (testBytes 100)) 100) 100 10 = .error .unexpectedEOF ∧
    ((CacheReader.new (FileReader (preadFile (testBytes 256)) 256) []).read 250 10).1
      = .error .unexpectedEOF ∧
    withCount (Reader.read (FileReader (preadFile (testBytes 256)) 256) 250 10)
      = .ok (6, [250, 251, 252, 253, 254, 255]) ∧
    ((CacheReader.new (FileReader (preadFile (testBytes 100)) 100) []).read 10 0).1
      = .ok (0, []) ∧
    Reader.read (FileReader (preadFile (testBytes 100)) 100) 10 0 = .error .unexpectedEOF := by
  decide

/-- C3 (amended): for every upstream serving a fixed content of size `s` (a read of
one or more bytes starting before the end returns the bytes from there, cut at the
end) and every sequence of earlier `read` calls on the `CacheReader` (any offsets
and counts, in range or not), each `read(off, count)` with `count > 0` and
`off + count <= s` returns the same byte count and the same bytes as
`upstream.read(off, count)`: the `count` bytes of the content at `off`. -/
theorem C3_cache_read_transparent (u : Reader) (data : List Byte) (hs : Serves u data)
    (hlen : data.length < 2 ^ 64) (uninit : List Byte) (reqs : List (Off × Nat))
    (off count : Nat) (hcount : 0 < count) (hr : off + count ≤ data.length) :
    (((CacheReader.new u uninit).reads reqs).read off count).1 = withCount (u.read off count) ∧
    withCount (u.read off count) = .ok (count, (data.drop off).take count) := by
  have hu : withCount (u.read off count) = .ok (count, (data.drop off).take count) := by
    rw [hs off count (by omega) hcount]
    simp only [withCount, List.length_take, List.length_drop]
    rw [Nat.min_eq_left (by omega)]
  refine ⟨?_, hu⟩
  have h0 : (CacheReader.new u uninit).Coherent := by
    intro p hp; simp [CacheReader.new] at hp
  obtain ⟨hc, hup⟩ := CacheReader.reads_coherent (CacheReader.new u uninit) reqs h0
  have hup1 : ((CacheReader.new u uninit).reads reqs).upstream = u := hup
  unfold CacheReader.read
  by_cases hbig : count ≥ CacheReader.PAGESIZE
  · rw [if_pos hbig, hup1]
  · rw [if_neg hbig]
    have hl := CacheReader.readLoop_in_range u data hs hlen count _ off count [] hup1 hc
      (le_refl _) hr
    rcases hrl : CacheReader.readLoop count ((CacheReader.new u uninit).reads reqs) off count []
      with ⟨res, c1⟩
    rw [hrl] at hl
    simp only at hl
    subst hl
    simp only [hu, List.nil_append]
    have : wsub (off + count) off = count := by unfold wsub; omega
    rw [this]

/-- C3 (witness): a cache over a 100-byte memory reader, after a read past the end
and a read at 0, asked for the last 10 bytes. -/
theorem C3_cache_read_transparent_witness :
    (((CacheReader.new (MemReader 100 (testBytes 100)) []).reads [(150, 10), (0, 10)]).read 90 10).1
      = withCount (Reader.read (MemReader 100 (testBytes 100)) 90 10) :=
  (C3_cache_read_transparent (MemReader (testBytes 100).length (testBytes 100)) (testBytes 100)
    (MemReader_serves (testBytes 100)) (by decide) [] [(150, 10), (0, 10)] 90 10
    (by decide) (by decide)).1

/-! ## Theorems: Lz4Reader -/

theorem le32toh_le32bytes (w : Nat) (h : w < 2 ^ 32) : le32toh (le32bytes w) = w := by
  simp only [le32bytes, le32toh, Fin.ofNat, Nat.mod_mod]
  omega

theorem le32bytes_length (w : Nat) : (le32bytes w).length = 4 := rfl

theorem and_mask31 (x : Nat) : x &&& 0x7fffffff = x % 2 ^ 31 :=
  Nat.and_pow_two_sub_one_eq_mod x 31

theorem Lz4Frame.Block.word_bits (b : Lz4Frame.Block) (h : b.payload.length < 2 ^ 31) :
    b.word &&& 0x7fffffff = b.payload.length ∧ decide (b.word >>> 31 ≠ 0) = b.stored ∧
    b.word < 2 ^ 32 := by
  unfold Lz4Frame.Block.word
  rw [and_mask31, Nat.shiftRight_eq_div_pow]
  cases b.stored <;> simp <;> omega

theorem Lz4Frame.maxBlockSize_eq (f : Lz4Frame) :
    f.maxBlockSize = Lz4Reader.blockSizeOfCode ((f.bd.val &&& 0x70) >>> 4) := by
  unfold Lz4Frame.maxBlockSize Lz4Frame.code
  generalize (f.bd.val &&& 0x70) >>> 4 = c
  by_cases h4 : c = 4
  · subst h4; rfl
  by_cases h5 : c = 5
  · subst h5; rfl
  by_cases h6 : c = 6
  · subst h6; rfl
  by_cases h7 : c = 7
  · subst h7; rfl
  rw [if_neg h4, if_neg h5, if_neg h6, if_neg h7]
  unfold Lz4Reader.blockSizeOfCode
  split <;> first | rfl | contradiction

theorem Lz4Frame.maxBlockSize_bounds (f : Lz4Frame) (h : f.HeaderOK) :
    65536 ≤ f.maxBlockSize ∧ f.maxBlockSize ≤ 4194304 := by
  obtain ⟨_, h4, h7, _⟩ := h
  unfold Lz4Frame.maxBlockSize
  have : f.code = 4 ∨ f.code = 5 ∨ f.code = 6 ∨ f.code = 7 := by omega
  rcases this with h | h | h | h <;> simp [h]

/-- A read in the middle of the content served. -/
theorem Serves.read_mid {u : Reader} {data : List Byte} (hs : Serves u data)
    (pre mid post : List Byte) (hd : data = pre ++ (mid ++ post)) (hm : mid ≠ []) :
    u.read pre.length mid.length = .ok mid := by
  have hlen : 0 < mid.length := List.length_pos.mpr hm
  rw [hs pre.length mid.length (by rw [hd]; simp; omega) hlen, hd]
  simp

theorem Serves.readObj_mid {u : Reader} {data : List Byte} (hs : Serves u data)
    (pre mid post : List Byte) (hd : data = pre ++ (mid ++ post)) (k : Nat) (hk : mid.length = k)
    (hpos : 0 < k) :
    Reader.readObj u.read pre.length k 1 = .ok mid := by
  have hm : mid ≠ [] := by intro h; rw [h] at hk; simp at hk; omega
  unfold Reader.readObj
  simp only [one_ne_zero, if_false, one_mul]
  rw [← hk, hs.read_mid pre mid post hd hm]
  simp

/-- One round of the block scan, given the four bytes of the block-size word. -/
theorem Lz4Reader.scanBlocks_step (u : Reader) (mbs : Nat) (cks : Bool) (fuel offset : Nat)
    (blocks : List Lz4Reader.BlockInfo) (bs4 : List Byte)
    (hread : Reader.readObj u.read offset 4 1 = .ok bs4) :
    Lz4Reader.scanBlocks u mbs cks (fuel + 1) offset blocks =
      if le32toh bs4 &&& 0x7fffffff > mbs then some (.ok (blocks, none))
      else if le32toh bs4 > 0 then
        Lz4Reader.scanBlocks u mbs cks fuel
          (if le32toh bs4 &&& 0x7fffffff > 0 then
            (if cks then wadd (wadd (wadd offset 4) (le32toh bs4 &&& 0x7fffffff)) 4
              else wadd (wadd offset 4) (le32toh bs4 &&& 0x7fffffff))
            else wadd offset 4)
          (if le32toh bs4 &&& 0x7fffffff > 0 then
            blocks ++ [{ uncompressed_ := decide (le32toh bs4 >>> 31 ≠ 0),
                         data_size_ := le32toh bs4 &&& 0x7fffffff,
                         data_offset_ := wadd offset 4 }]
            else blocks)
      else some (.ok
        ((if le32toh bs4 &&& 0x7fffffff > 0 then
            blocks ++ [{ uncompressed_ := decide (le32toh bs4 >>> 31 ≠ 0),
                         data_size_ := le32toh bs4 &&& 0x7fffffff,
                         data_offset_ := wadd offset 4 }]
            else blocks),
          some (if le32toh bs4 &&& 0x7fffffff > 0 then
            (if cks then wadd (wadd (wadd offset 4) (le32toh bs4 &&& 0x7fffffff)) 4
              else wadd (wadd offset 4) (le32toh bs4 &&& 0x7fffffff))
            else wadd offset 4))) := by
  rw [Lz4Reader.scanBlocks]
  simp only [hread]

theorem Lz4Frame.Block.bytes_length (b : Lz4Frame.Block) :
    b.bytes.length = 4 + b.payload.length + b.checksum.length := by
  simp [Lz4Frame.Block.bytes, le32bytes_length]; omega

/-- The scan walks over well-formed blocks and records one descriptor each. -/
theorem Lz4Reader.scanBlocks_blocks (u : Reader) (data : List Byte) (hs : Serves u data)
    (hlen : data.length < 2 ^ 64) (mbs : Nat) (cks : Bool) (hmbs : mbs < 2 ^ 31)
    (bs : List Lz4Frame.Block)
    (hbs : ∀ b ∈ bs, 0 < b.payload.length ∧ b.payload.length ≤ mbs ∧
      b.checksum.length = (if cks then 4 else 0))
    (pre tail : List Byte) (hd : data = pre ++ (Lz4Frame.blockBytes bs ++ tail))
    (fuel : Nat) (acc : List Lz4Reader.BlockInfo) :
    Lz4Reader.scanBlocks u mbs cks (fuel + bs.length) pre.length acc =
      Lz4Reader.scanBlocks u mbs cks fuel (pre.length + (Lz4Frame.blockBytes bs).length)
        (acc ++ Lz4Frame.blockInfos pre.length bs) := by
  induction bs generalizing pre acc with
  | nil => simp [Lz4Frame.blockBytes, Lz4Frame.blockInfos]
  | cons b bs ih =>
    obtain ⟨hb1, hb2, hb3⟩ := hbs b (List.mem_cons_self _ _)
    obtain ⟨w1, w2, w3⟩ := b.word_bits (by omega)
    have hd1 : data = pre ++ (le32bytes b.word ++
        ((b.payload ++ b.checksum) ++ (Lz4Frame.blockBytes bs ++ tail))) := by
      rw [hd]; simp [Lz4Frame.blockBytes, Lz4Frame.Block.bytes]
    have hread := hs.readObj_mid pre (le32bytes b.word) _ hd1 4 (le32bytes_length _) (by decide)
    have hdl : data.length = pre.length + (4 + (b.payload.length + b.checksum.length +
        ((Lz4Frame.blockBytes bs).length + tail.length))) := by
      rw [hd1]; simp only [List.length_append, le32bytes_length]
    have e : fuel + (b :: bs).length = (fuel + bs.length) + 1 := by simp; omega
    rw [e, Lz4Reader.scanBlocks_step u mbs cks _ _ _ _ hread, le32toh_le32bytes _ w3, w1, w2]
    have hw : b.word > 0 := by unfold Lz4Frame.Block.word; omega
    rw [if_neg (by omega), if_pos hw, if_pos hb1, if_pos hb1]
    have ho : (if cks then wadd (wadd (wadd pre.length 4) b.payload.length) 4
        else wadd (wadd pre.length 4) b.payload.length) = (pre ++ b.bytes).length := by
      rw [List.length_append, b.bytes_length]
      cases cks
      · simp only [Bool.false_eq_true, if_false] at hb3 ⊢; unfold wadd; omega
      · simp only [if_true] at hb3 ⊢; unfold wadd; omega
    have h4 : wadd pre.length 4 = pre.length + 4 := wadd_of_lt (by omega)
    rw [ho, h4]
    have hd2 : data = (pre ++ b.bytes) ++ (Lz4Frame.blockBytes bs ++ tail) := by
      rw [hd]; simp [Lz4Frame.blockBytes]
    rw [ih (fun x hx => hbs x (List.mem_cons_of_mem _ hx)) (pre ++ b.bytes) hd2]
    simp [Lz4Frame.blockBytes, Lz4Frame.blockInfos, Nat.add_assoc]

/-- The scan stops at the end mark and reports the offset after it. -/
theorem Lz4Reader.scanBlocks_end_mark (u : Reader) (data : List Byte) (hs : Serves u data)
    (hlen : data.length < 2 ^ 64) (mbs : Nat) (cks : Bool)
    (pre tail : List Byte) (hd : data = pre ++ (le32bytes 0 ++ tail))
    (fuel : Nat) (acc : List Lz4Reader.BlockInfo) :
    Lz4Reader.scanBlocks u mbs cks (fuel + 1) pre.length acc
      = some (.ok (acc, some (pre.length + 4))) := by
  have hread := hs.readObj_mid pre (le32bytes 0) _ hd 4 (le32bytes_length _) (by decide)
  have hdl : data.length = pre.length + (4 + tail.length) := by
    rw [hd]; simp [le32bytes_length]
  rw [Lz4Reader.scanBlocks_step u mbs cks _ _ _ _ hread, le32toh_le32bytes _ (by decide)]
  have h4 : wadd pre.length 4 = pre.length + 4 := wadd_of_lt (by omega)
  simp [h4]

/-- The scan leaves the constructor at a block-size word above the maximum. -/
theorem Lz4Reader.scanBlocks_oversized (u : Reader) (data : List Byte) (hs : Serves u data)
    (mbs : Nat) (cks : Bool) (w : Nat) (hw : w < 2 ^ 32) (hbig : w &&& 0x7fffffff > mbs)
    (pre tail : List Byte) (hd : data = pre ++ (le32bytes w ++ tail))
    (fuel : Nat) (acc : List Lz4Reader.BlockInfo) :
    Lz4Reader.scanBlocks u mbs cks (fuel + 1) pre.length acc = some (.ok (acc, none)) := by
  have hread := hs.readObj_mid pre (le32bytes w) _ hd 4 (le32bytes_length _) (by decide)
  rw [Lz4Reader.scanBlocks_step u mbs cks _ _ _ _ hread, le32toh_le32bytes _ hw, if_pos hbig]

theorem Lz4Frame.header_length (f : Lz4Frame) (h : f.HeaderOK) :
    f.header.length = 6 + (if decide (f.flg.val &&& 0x08 ≠ 0) then 8 else 0)
      + (if decide (f.flg.val &&& 0x01 ≠ 0) then 4 else 0) + 1 := by
  obtain ⟨_, _, _, h1, h2, _⟩ := h
  simp only [Lz4Frame.header, List.length_append, le32bytes_length, List.length_cons,
    List.length_nil, h1, h2, decide_eq_true_eq]
  omega

theorem Lz4Reader.readObj_magic {u : Reader} {data : List Byte} (hs : Serves u data)
    (w : Nat) (rest : List Byte) (hd : data = le32bytes w ++ rest) :
    Reader.readObj u.read 0 4 1 = .ok (le32bytes w) := by
  have := hs.readObj_mid [] (le32bytes w) rest (by simpa using hd) 4 (le32bytes_length _)
    (by decide)
  simpa using this

theorem Lz4Reader.readObj_flg {u : Reader} {data : List Byte} (hs : Serves u data)
    (w : Nat) (flg : Byte) (rest : List Byte) (hd : data = le32bytes w ++ flg :: rest) :
    Reader.readObj u.read 4 1 1 = .ok [flg] := by
  have := hs.readObj_mid (le32bytes w) [flg] rest (by simpa using hd) 1 rfl (by decide)
  simpa [le32bytes_length] using this

theorem Lz4Reader.readObj_bd {u : Reader} {data : List Byte} (hs : Serves u data)
    (w : Nat) (flg bd : Byte) (rest : List Byte)
    (hd : data = le32bytes w ++ flg :: bd :: rest) :
    Reader.readObj u.read 5 1 1 = .ok [bd] := by
  have := hs.readObj_mid (le32bytes w ++ [flg]) [bd] rest (by simpa using hd) 1 rfl (by decide)
  simpa [le32bytes_length] using this

theorem le32toh_magic : le32toh (le32bytes 0x184D2204) = 0x184d2204 := by decide

/-- The constructor on a supported header: what is left is the block scan from
the end of the header, the length test and the last block. -/
theorem Lz4Reader.new_header (lz4 : Lz4Decoder) (fuel : Nat) (u : Reader) (data : List Byte)
    (hs : Serves u data) (f : Lz4Frame) (hh : f.HeaderOK) (rest : List Byte)
    (hd : data = f.header ++ rest) :
    Lz4Reader.new lz4 fuel u =
      match Lz4Reader.scanBlocks u f.maxBlockSize (decide (f.flg.val &&& 0x10 ≠ 0)) fuel
          f.header.length [] with
      | none => none
      | some (.error e) => some (.error e)
      | some (.ok (blocks, none)) => some (.ok { f.afterHeader u with blocks_ := blocks })
      | some (.ok (blocks, some offset1)) =>
        if (if decide (f.flg.val &&& 0x04 ≠ 0) then wadd offset1 4 else offset1) ≠ u.size then
          some (.ok { f.afterHeader u with blocks_ := blocks })
        else Lz4Reader.finish lz4 { f.afterHeader u with blocks_ := blocks } := by
  have hd1 : data = le32bytes 0x184D2204 ++ f.flg :: f.bd ::
      (f.contentSize ++ (f.dictId ++ [f.headerChecksum]) ++ rest) := by
    rw [hd]; simp [Lz4Frame.header]
  have hmbs := (Lz4Frame.maxBlockSize_bounds f hh).1
  have hne : ¬ f.maxBlockSize = 0 := by omega
  have hflag : ¬ (f.flg.val &&& 0x60 ≠ 0x60) := by simp [hh.1]
  unfold Lz4Reader.new
  rw [Lz4Reader.readObj_magic hs _ _ hd1, Lz4Reader.readObj_flg hs _ _ _ hd1,
    Lz4Reader.readObj_bd hs _ _ _ _ hd1]
  simp only [le32toh_magic, ne_eq, not_true_eq_false, if_false, u8, hflag,
    ← Lz4Frame.maxBlockSize_eq, hne, Lz4Reader.init, ← Lz4Frame.header_length f hh]
  rfl

theorem Lz4Reader.blockSizeOfCode_zero (c : Nat) (h : ¬ (4 ≤ c ∧ c ≤ 7)) :
    Lz4Reader.blockSizeOfCode c = 0 := by
  unfold Lz4Reader.blockSizeOfCode
  split <;> first | rfl | omega

theorem Lz4Frame.blockBytes_length_ge (bs : List Lz4Frame.Block)
    (h : ∀ b ∈ bs, 0 < b.payload.length) : 5 * bs.length ≤ (Lz4Frame.blockBytes bs).length := by
  induction bs with
  | nil => simp [Lz4Frame.blockBytes]
  | cons b bs ih =>
    have h1 := h b (List.mem_cons_self _ _)
    have h2 := ih (fun x hx => h x (List.mem_cons_of_mem _ hx))
    simp only [Lz4Frame.blockBytes, List.length_append, List.length_cons, b.bytes_length]
    omega

theorem Lz4Frame.blockBytes_length_ge_of_ok (f : Lz4Frame) (bs : List Lz4Frame.Block)
    (h : ∀ b ∈ bs, f.BlockOK b) : 5 * bs.length ≤ (Lz4Frame.blockBytes bs).length :=
  Lz4Frame.blockBytes_length_ge bs (fun b hb => (h b hb).1)

theorem Lz4Frame.BlockOK.scan {f : Lz4Frame} {b : Lz4Frame.Block} (h : f.BlockOK b) :
    0 < b.payload.length ∧ b.payload.length ≤ f.maxBlockSize ∧
    b.checksum.length = (if decide (f.flg.val &&& 0x10 ≠ 0) then 4 else 0) := by
  obtain ⟨h1, h2, h3⟩ := h
  exact ⟨h1, h2, by simpa using h3⟩

theorem le32bytes_le32toh (bs : List Byte) (h : bs.length = 4) : le32bytes (le32toh bs) = bs := by
  match bs, h with
  | [b0, b1, b2, b3], _ =>
    have h0 := b0.isLt
    have h1 := b1.isLt
    have h2 := b2.isLt
    have h3 := b3.isLt
    simp only [le32toh, le32bytes, List.cons.injEq, and_true]
    refine ⟨?_, ?_, ?_, ?_⟩ <;> apply Fin.ext <;> simp only [Fin.ofNat, Nat.mod_mod] <;> omega

theorem List.split_at_index {α : Type} (l : List α) (i : Nat) (a : α) (h : l[i]? = some a) :
    l = l.take i ++ a :: l.drop (i + 1) := by
  have hlt : i < l.length := by
    by_contra hc
    rw [List.getElem?_eq_none (by omega)] at h
    simp at h
  have h1 : l[i] = a := by
    rw [List.getElem?_eq_getElem hlt] at h
    exact Option.some.inj h
  rw [← h1]
  simp

/-- The constructor returns an empty reader when the magic is wrong. -/
theorem Lz4Reader.new_bad_magic (lz4 : Lz4Decoder) (fuel : Nat) (u : Reader) (data : List Byte)
    (hs : Serves u data) (h4 : 4 ≤ data.length) (hm : le32toh (data.take 4) ≠ 0x184D2204) :
    ∃ r, Lz4Reader.new lz4 fuel u = some (.ok r) ∧ r.size = 0 := by
  refine ⟨Lz4Reader.init u, ?_, rfl⟩
  have hr : u.read 0 4 = .ok (data.take 4) := by
    rw [hs 0 4 (by omega) (by decide)]; simp
  unfold Lz4Reader.new Reader.readObj
  simp only [one_ne_zero, if_false, one_mul, hr, List.length_take]
  rw [Nat.min_eq_left h4]
  simp [hm]

/-- The constructor returns an empty reader when the flag byte lacks a bit of
`0x60`. -/
theorem Lz4Reader.new_bad_flag (lz4 : Lz4Decoder) (fuel : Nat) (u : Reader) (data : List Byte)
    (hs : Serves u data) (flg : Byte) (rest : List Byte)
    (hd : data = le32bytes 0x184D2204 ++ flg :: rest) (hf : flg.val &&& 0x60 ≠ 0x60) :
    ∃ r, Lz4Reader.new lz4 fuel u = some (.ok r) ∧ r.size = 0 := by
  refine ⟨Lz4Reader.init u, ?_, rfl⟩
  unfold Lz4Reader.new
  rw [Lz4Reader.readObj_magic hs _ _ hd, Lz4Reader.readObj_flg hs _ _ _ hd]
  simp [le32toh_magic, u8, hf]

/-- The constructor returns an empty reader when the block-size code is not
one of `4..7`. -/
theorem Lz4Reader.new_bad_code (lz4 : Lz4Decoder) (fuel : Nat) (u : Reader) (data : List Byte)
    (hs : Serves u data) (flg bd : Byte) (rest : List Byte)
    (hd : data = le32bytes 0x184D2204 ++ flg :: bd :: rest) (hf : flg.val &&& 0x60 = 0x60)
    (hc : ¬ (4 ≤ (bd.val &&& 0x70) >>> 4 ∧ (bd.val &&& 0x70) >>> 4 ≤ 7)) :
    ∃ r, Lz4Reader.new lz4 fuel u = some (.ok r) ∧ r.size = 0 := by
  unfold Lz4Reader.new
  rw [Lz4Reader.readObj_magic hs _ _ hd, Lz4Reader.readObj_flg hs _ _ _ hd,
    Lz4Reader.readObj_bd hs _ _ _ _ hd]
  simp only [le32toh_magic, ne_eq, not_true_eq_false, if_false, u8, hf,
    Lz4Reader.blockSizeOfCode_zero _ hc, if_true]
  exact ⟨_, rfl, rfl⟩

/-- The constructor returns an empty reader when the scan meets an oversized
block-size word. -/
theorem Lz4Reader.new_oversized (lz4 : Lz4Decoder) (fuel : Nat) (u : Reader) (data : List Byte)
    (hs : Serves u data) (hlen : data.length < 2 ^ 64) (f : Lz4Frame) (w : Nat) (rest : List Byte)
    (hwf : f.WellFormed) (hw : w < 2 ^ 32) (hbig : w &&& 0x7fffffff > f.maxBlockSize)
    (hd : data = f.header ++ (Lz4Frame.blockBytes f.blocks ++ (le32bytes w ++ rest)))
    (hfuel : data.length ≤ fuel) :
    ∃ r, Lz4Reader.new lz4 fuel u = some (.ok r) ∧ r.size = 0 := by
  obtain ⟨hh, hb⟩ := hwf
  have hmbs := (Lz4Frame.maxBlockSize_bounds f hh).2
  have hn := Lz4Frame.blockBytes_length_ge_of_ok f f.blocks hb
  have hdl : data.length = f.header.length + ((Lz4Frame.blockBytes f.blocks).length +
      (4 + rest.length)) := by
    rw [hd]; simp only [List.length_append, le32bytes_length]
  have hfu : fuel = (fuel - f.blocks.length - 1 + 1) + f.blocks.length := by omega
  have hscan : Lz4Reader.scanBlocks u f.maxBlockSize (decide (f.flg.val &&& 0x10 ≠ 0)) fuel
      f.header.length [] = some (.ok (Lz4Frame.blockInfos f.header.length f.blocks, none)) := by
    rw [hfu, Lz4Reader.scanBlocks_blocks u data hs hlen f.maxBlockSize _ (by omega) f.blocks
      (fun b hb1 => (hb b hb1).scan) f.header _ hd]
    have hd2 : data = (f.header ++ Lz4Frame.blockBytes f.blocks) ++ (le32bytes w ++ rest) := by
      rw [hd]; simp
    have := Lz4Reader.scanBlocks_oversized u data hs f.maxBlockSize
      (decide (f.flg.val &&& 0x10 ≠ 0)) w hw hbig _ rest hd2 (fuel - f.blocks.length - 1)
      ([] ++ Lz4Frame.blockInfos f.header.length f.blocks)
    rw [List.length_append] at this
    rw [this]; simp
  refine ⟨{ f.afterHeader u with blocks_ := Lz4Frame.blockInfos f.header.length f.blocks }, ?_, rfl⟩
  rw [Lz4Reader.new_header lz4 fuel u data hs f hh _ hd, hscan]

/-- C10: for every upstream byte sequence whose first four bytes are not the magic
`0x184D2204`, or whose flag byte does not have both bits of `0x60` set, or whose
block-size code is not one of `4..7`, or in which the block scan meets a block
header declaring a length above the frame's maximum block size, the constructor
of `Lz4Reader` returns (given at least as many scan rounds as there are bytes)
without raising, and `size() == 0`. -/
theorem C10_malformed_frame_is_empty (lz4 : Lz4Decoder) (u : Reader) (data : List Byte)
    (hs : Serves u data) (hlen : data.length < 2 ^ 64) (hbad : Lz4Frame.Malformed data)
    (fuel : Nat) (hfuel : data.length ≤ fuel) :
    ∃ r, Lz4Reader.new lz4 fuel u = some (.ok r) ∧ r.size = 0 := by
  have hlt : ∀ (i : Nat) (a : Byte), data[i]? = some a → i < data.length := by
    intro i a h
    by_contra hc
    rw [List.getElem?_eq_none (by omega)] at h
    simp at h
  have hmagic : ∀ (flg : Byte), data[4]? = some flg → le32toh (data.take 4) = 0x184D2204 →
      data = le32bytes 0x184D2204 ++ flg :: data.drop 5 := by
    intro flg h hm
    have h1 := le32bytes_le32toh (data.take 4)
      (by rw [List.length_take]; have := hlt 4 flg h; omega)
    rw [hm] at h1
    rw [h1]
    exact List.split_at_index data 4 flg h
  rcases hbad with ⟨h4, hm⟩ | ⟨flg, hflg, hf⟩ | ⟨bd, hbd, hc⟩ | ⟨f, w, rest, hwf, hw, hbig, hd⟩
  · exact Lz4Reader.new_bad_magic lz4 fuel u data hs h4 hm
  · by_cases hm : le32toh (data.take 4) = 0x184D2204
    · exact Lz4Reader.new_bad_flag lz4 fuel u data hs flg _ (hmagic flg hflg hm) hf
    · exact Lz4Reader.new_bad_magic lz4 fuel u data hs (by have := hlt 4 flg hflg; omega) hm
  · have h6 := hlt 5 bd hbd
    have hflg : data[4]? = some data[4] := List.getElem?_eq_getElem (by omega)
    by_cases hm : le32toh (data.take 4) = 0x184D2204
    · have hd1 := hmagic _ hflg hm
      by_cases hf : (data[4]).val &&& 0x60 = 0x60
      · have hd5 : (data.drop 5)[0]? = some bd := by
          rw [List.getElem?_drop]; exact hbd
        have hd2 := List.split_at_index (data.drop 5) 0 bd hd5
        rw [List.take_zero, List.nil_append] at hd2
        rw [hd2] at hd1
        exact Lz4Reader.new_bad_code lz4 fuel u data hs _ bd _ hd1 hf hc
      · exact Lz4Reader.new_bad_flag lz4 fuel u data hs _ _ hd1 hf
    · exact Lz4Reader.new_bad_magic lz4 fuel u data hs (by omega) hm
  · exact Lz4Reader.new_oversized lz4 fuel u data hs hlen f w rest hwf hw hbig hd hfuel

/-- C10 (witness): a four-byte file that does not start with the magic. -/
theorem C10_malformed_frame_is_empty_witness :
    ∃ r, Lz4Reader.new (fun _ _ _ => none) 4 (FileReader (preadFile [1, 2, 3, 4]) 4)
      = some (.ok r) ∧ r.size = 0 :=
  C10_malformed_frame_is_empty (fun _ _ _ => none) (FileReader (preadFile [1, 2, 3, 4]) 4)
    [1, 2, 3, 4] (FileReader_serves _ _) (by decide) (Or.inl (by decide)) 4 (by decide)

theorem Lz4Reader.read_upstream_loop_done (u : Reader) (offset req_size fuel sum : Nat)
    (dst : List Byte) (h : ¬ req_size > sum) :
    Lz4Reader.read_upstream_loop u offset req_size fuel sum dst = some (.ok true, dst) := by
  cases fuel <;> simp [Lz4Reader.read_upstream_loop, h]

/-- Inside the content, `read_upstream_up_to` returns `true` with the bytes asked
for, in one upstream read. -/
theorem Lz4Reader.read_upstream_up_to_slice (u : Reader) (data : List Byte) (hs : Serves u data)
    (hlen : data.length < 2 ^ 64) (off len : Nat) (h : off + len ≤ data.length)
    (hl : len < 2 ^ 32) :
    Lz4Reader.read_upstream_up_to u off len = some (.ok true, (data.drop off).take len) := by
  unfold Lz4Reader.read_upstream_up_to
  cases len with
  | zero => simp [Lz4Reader.read_upstream_loop]
  | succ k =>
    have hr := hs off (k + 1) (by omega) (by omega)
    have h0 : wadd off 0 = off := by unfold wadd; omega
    have h1 : wsub (k + 1) 0 = k + 1 := by unfold wsub; omega
    have hsl : ((data.drop off).take (k + 1)).length = k + 1 := by
      rw [List.length_take, List.length_drop]; omega
    rw [Lz4Reader.read_upstream_loop]
    simp only [h0, h1, hr, hsl, gt_iff_lt, Nat.zero_lt_succ, if_true, Nat.zero_add]
    have h2 : (k + 1) % 2 ^ 32 = k + 1 := Nat.mod_eq_of_lt hl
    have h3 : ¬ (k + 1) % 2 ^ 32 = 0 := by omega
    rw [if_neg h3]
    rw [Lz4Reader.read_upstream_loop_done u off (k + 1) k _ _ (by omega)]
    simp

theorem Lz4Frame.blockInfos_length (offset : Nat) (bs : List Lz4Frame.Block) :
    (Lz4Frame.blockInfos offset bs).length = bs.length := by
  induction bs generalizing offset with
  | nil => rfl
  | cons b bs ih => simp [Lz4Frame.blockInfos, ih]

/-- Where the payload of the `i`-th block lies, and its descriptor. -/
theorem Lz4Frame.blockInfos_get (bs : List Lz4Frame.Block) (offset i : Nat) (b : Lz4Frame.Block)
    (h : bs[i]? = some b) :
    ∃ pre post, Lz4Frame.blockBytes bs = pre ++ (b.payload ++ post) ∧
      (Lz4Frame.blockInfos offset bs)[i]? = some
        { uncompressed_ := b.stored, data_size_ := b.payload.length,
          data_offset_ := offset + pre.length } := by
  induction bs generalizing offset i with
  | nil => simp at h
  | cons b0 bs ih =>
    cases i with
    | zero =>
      simp only [List.getElem?_cons_zero, Option.some.injEq] at h
      subst h
      exact ⟨le32bytes b0.word, b0.checksum ++ Lz4Frame.blockBytes bs,
        by simp [Lz4Frame.blockBytes, Lz4Frame.Block.bytes],
        by simp [Lz4Frame.blockInfos, le32bytes_length]⟩
    | succ j =>
      simp only [List.getElem?_cons_succ] at h
      obtain ⟨pre, post, h1, h2⟩ := ih (offset + b0.bytes.length) j h
      refine ⟨b0.bytes ++ pre, post, by simp [Lz4Frame.blockBytes, h1], ?_⟩
      simp only [Lz4Frame.blockInfos, List.getElem?_cons_succ, h2, List.length_append,
        Nat.add_assoc]

/-- A slice of the middle part of a concatenation. -/
theorem List.take_drop_mid {α : Type} (pre mid post : List α) (s l : Nat)
    (h : s + l ≤ mid.length) :
    ((pre ++ (mid ++ post)).drop (pre.length + s)).take l = (mid.drop s).take l := by
  rw [List.drop_append, List.drop_append_of_le_length (by omega),
    List.take_append_of_le_length (by simp; omega)]

theorem Lz4Frame.ServedBy.blocks_lt {f : Lz4Frame} {u : Reader} (hf : f.ServedBy u) :
    f.blocks.length < OffMax := by
  obtain ⟨⟨_, hb⟩, _, hlen, _⟩ := hf
  have h1 := Lz4Frame.blockBytes_length_ge_of_ok f f.blocks hb
  have h2 : (Lz4Frame.blockBytes f.blocks).length ≤ f.bytes.length := by
    simp only [Lz4Frame.bytes, List.length_append]; omega
  unfold OffMax
  omega

/-- The descriptor of the `i`-th block, and what `read_upstream_up_to` returns
inside its payload. -/
theorem Lz4Frame.ServedBy.block_lookup {f : Lz4Frame} {u : Reader} (hf : f.ServedBy u)
    (i : Nat) (b : Lz4Frame.Block) (hb : f.blocks[i]? = some b) :
    ∃ o : Nat, (Lz4Frame.blockInfos f.header.length f.blocks)[i]? = some
        { uncompressed_ := b.stored, data_size_ := b.payload.length, data_offset_ := o } ∧
      o + b.payload.length < 2 ^ 64 ∧
      ∀ s l, s + l ≤ b.payload.length →
        Lz4Reader.read_upstream_up_to u (o + s) l = some (.ok true, (b.payload.drop s).take l) := by
  obtain ⟨⟨hh, hbs⟩, hs, hlen, _⟩ := hf
  obtain ⟨pre, post, h1, h2⟩ := Lz4Frame.blockInfos_get f.blocks f.header.length i b hb
  have hmem : b ∈ f.blocks := List.getElem?_mem hb
  have hbok := hbs b hmem
  have hmbs := (Lz4Frame.maxBlockSize_bounds f hh).2
  have hd : f.bytes = (f.header ++ pre) ++ (b.payload ++ (post ++ (le32bytes 0 ++ f.contentChecksum))) := by
    simp [Lz4Frame.bytes, h1]
  have hdl : f.bytes.length = f.header.length + pre.length + (b.payload.length +
      ((post ++ (le32bytes 0 ++ f.contentChecksum)).length)) := by
    rw [hd]; simp only [List.length_append]
  refine ⟨f.header.length + pre.length, h2, by omega, fun s l hsl => ?_⟩
  have hl32 : l < 2 ^ 32 := by have := hbok.2.1; omega
  rw [Lz4Reader.read_upstream_up_to_slice u f.bytes hs hlen (f.header.length + pre.length + s) l
    (by omega) hl32]
  have := List.take_drop_mid (f.header ++ pre) b.payload
    (post ++ (le32bytes 0 ++ f.contentChecksum)) s l hsl
  rw [List.length_append] at this
  rw [hd, this]

theorem Lz4Reader.Models.lookup {lz4 : Lz4Decoder} {f : Lz4Frame} {u : Reader} {size : Nat}
    {r : Lz4Reader} (hM : r.Models lz4 f u size) (idx : Nat) (info : Lz4Reader.BlockInfo)
    (h : r.blocks_[idx]? = some info) : ∃ b, f.blocks[idx]? = some b := by
  rw [hM.2.2.1] at h
  have hlt : idx < (Lz4Frame.blockInfos f.header.length f.blocks).length := by
    by_contra hc
    rw [List.getElem?_eq_none (by omega)] at h
    simp at h
  rw [Lz4Frame.blockInfos_length] at hlt
  exact ⟨f.blocks[idx], List.getElem?_eq_getElem hlt⟩

theorem overwrite_take (buf bytes : List Byte) : (overwrite buf bytes).take bytes.length = bytes := by
  simp [overwrite]

/-- What the refill of the decompressed buffer does for the `i`-th block. -/
theorem Lz4Reader.fill_cache_spec {lz4 : Lz4Decoder} {f : Lz4Frame} {u : Reader} {size : Nat}
    {r : Lz4Reader} (hf : f.ServedBy u) (hM : r.Models lz4 f u size) (i : Nat)
    (b : Lz4Frame.Block) (hb : f.blocks[i]? = some b) (o : Nat)
    (hread : Lz4Reader.read_upstream_up_to u o b.payload.length = some (.ok true, b.payload)) :
    ∃ r1, Lz4Reader.fill_cache lz4 r i
        { uncompressed_ := b.stored, data_size_ := b.payload.length, data_offset_ := o }
        = some (.ok (lz4 b.payload f.maxBlockSize f.maxBlockSize).isSome, r1) ∧
      r1.Models lz4 f u size ∧
      ((lz4 b.payload f.maxBlockSize f.maxBlockSize).isSome = true →
        r1.decompressed_buf_blk_id_ = i) := by
  obtain ⟨m1, m2, m3, m4, m5⟩ := hM
  unfold Lz4Reader.fill_cache
  simp only [m1, hread, overwrite_take, m2]
  cases hz : lz4 b.payload f.maxBlockSize f.maxBlockSize with
  | none =>
    refine ⟨_, rfl, ⟨rfl, rfl, m3, m4, ?_⟩, by simp⟩
    intro b1 hb1
    have hlt := hf.blocks_lt
    rw [List.getElem?_eq_none (by simpa using Nat.le_of_lt hlt)] at hb1
    simp at hb1
  | some out =>
    refine ⟨_, rfl, ⟨rfl, rfl, m3, m4, ?_⟩, fun _ => rfl⟩
    intro b1 hb1
    have : b1 = b := by
      have h2 : f.blocks[i]? = some b1 := hb1
      rw [hb] at h2
      exact (Option.some.inj h2).symm
    rw [this, hz]

theorem Lz4Frame.ServedBy.block_read_all {f : Lz4Frame} {u : Reader} (hf : f.ServedBy u)
    (i : Nat) (b : Lz4Frame.Block) (hb : f.blocks[i]? = some b) :
    ∃ o : Nat, (Lz4Frame.blockInfos f.header.length f.blocks)[i]? = some
        { uncompressed_ := b.stored, data_size_ := b.payload.length, data_offset_ := o } ∧
      o + b.payload.length < 2 ^ 64 ∧
      Lz4Reader.read_upstream_up_to u o b.payload.length = some (.ok true, b.payload) ∧
      ∀ s l, s + l ≤ b.payload.length →
        Lz4Reader.read_upstream_up_to u (o + s) l = some (.ok true, (b.payload.drop s).take l) := by
  obtain ⟨o, h1, h2, h3⟩ := hf.block_lookup i b hb
  refine ⟨o, h1, h2, ?_, h3⟩
  have := h3 0 b.payload.length (by omega)
  simpa using this

/-- The call `decompress_block` keeps the reader a reader over the frame,
whatever block, offset and length it is asked for. -/
theorem Lz4Reader.decompress_block_models {lz4 : Lz4Decoder} {f : Lz4Frame} {u : Reader}
    {size : Nat} {r : Lz4Reader} (hf : f.ServedBy u) (hM : r.Models lz4 f u size)
    (idx s l : Nat) (res : Except Exception (Bool × List Byte)) (r1 : Lz4Reader)
    (h : Lz4Reader.decompress_block lz4 r idx s l = some (res, r1)) : r1.Models lz4 f u size := by
  unfold Lz4Reader.decompress_block at h
  cases hinfo : r.blocks_[idx]? with
  | none =>
    simp only [hinfo, Option.some.injEq, Prod.mk.injEq] at h
    rw [← h.2]; exact hM
  | some info =>
    obtain ⟨b, hb⟩ := hM.lookup idx info hinfo
    obtain ⟨o, h1, _, h3, _⟩ := hf.block_read_all idx b hb
    rw [hM.2.2.1, h1] at hinfo
    simp only [Option.some.injEq] at hinfo
    subst hinfo
    have hget : r.blocks_[idx]? = some ⟨b.stored, b.payload.length, o⟩ := by rw [hM.2.2.1, h1]
    rw [hget] at h
    simp only at h
    by_cases hst : b.stored = true
    · simp only [hst, if_true] at h
      rcases hru : Lz4Reader.read_upstream_up_to r.upstream_ (wadd o s) l with _ | ⟨rr, bytes⟩
      · simp [hru] at h
      · rw [hru] at h
        cases rr with
        | error e =>
          simp only [Option.some.injEq, Prod.mk.injEq] at h
          rw [← h.2]; exact hM
        | ok bb =>
          simp only [Option.some.injEq, Prod.mk.injEq] at h
          rw [← h.2]; exact hM
    · simp only [hst, Bool.false_eq_true, if_false] at h
      by_cases hid : r.decompressed_buf_blk_id_ = idx
      · simp only [hid, ne_eq, not_true_eq_false, if_false] at h
        split at h
        · simp only [Option.some.injEq, Prod.mk.injEq] at h
          rw [← h.2]; exact hM
        · simp only [Option.some.injEq, Prod.mk.injEq] at h
          rw [← h.2]; exact hM
      · obtain ⟨r2, g1, g2, _⟩ := Lz4Reader.fill_cache_spec hf hM idx b hb o h3
        rw [Bool.eq_false_iff.mpr hst] at g1
        simp only [ne_eq, hid, not_false_eq_true, if_true, g1] at h
        cases hz : (lz4 b.payload f.maxBlockSize f.maxBlockSize).isSome with
        | false =>
          simp only [hz, Option.some.injEq, Prod.mk.injEq] at h
          rw [← h.2]; exact g2
        | true =>
          simp only [hz] at h
          split at h
          · simp only [Option.some.injEq, Prod.mk.injEq] at h
            rw [← h.2]; exact g2
          · simp only [Option.some.injEq, Prod.mk.injEq] at h
            rw [← h.2]; exact g2

/-- Inside the chunk that the `i`-th block stores, `decompress_block` returns
`true` with the bytes asked for. -/
theorem Lz4Reader.decompress_block_chunk {lz4 : Lz4Decoder} {f : Lz4Frame} {u : Reader}
    {size : Nat} {r : Lz4Reader} (hf : f.ServedBy u) (hM : r.Models lz4 f u size)
    (i : Nat) (b : Lz4Frame.Block) (hb : f.blocks[i]? = some b) (chunk : List Byte)
    (hdec : b.decodesTo lz4 f.maxBlockSize chunk) (s l : Nat) (hsl : s + l ≤ chunk.length)
    (hch : chunk.length < 2 ^ 64) :
    ∃ r1, Lz4Reader.decompress_block lz4 r i s l
        = some (.ok (true, (chunk.drop s).take l), r1) ∧ r1.Models lz4 f u size := by
  obtain ⟨o, h1, h2, h3, h4⟩ := hf.block_read_all i b hb
  have hws : wadd s l = s + l := wadd_of_lt (by omega)
  unfold Lz4Reader.decompress_block
  have hget : r.blocks_[i]? = some ⟨b.stored, b.payload.length, o⟩ := by rw [hM.2.2.1, h1]
  rw [hget]
  simp only
  unfold Lz4Frame.Block.decodesTo at hdec
  by_cases hst : b.stored = true
  · simp only [hst, if_true] at hdec ⊢
    subst hdec
    have hwo : wadd o s = o + s := wadd_of_lt (by omega)
    rw [hM.1, hwo, h4 s l hsl]
    exact ⟨r, rfl, hM⟩
  · simp only [hst, Bool.false_eq_true, if_false] at hdec ⊢
    by_cases hid : r.decompressed_buf_blk_id_ = i
    · have hbuf := hM.2.2.2.2 b (by rw [hid]; exact hb)
      rw [hdec] at hbuf
      simp only [Option.some.injEq] at hbuf
      simp only [hid, ne_eq, not_true_eq_false, if_false, ← hbuf, hws]
      rw [if_neg (by omega)]
      exact ⟨r, rfl, hM⟩
    · obtain ⟨r2, g1, g2, g3⟩ := Lz4Reader.fill_cache_spec hf hM i b hb o h3
      rw [Bool.eq_false_iff.mpr hst] at g1
      have hsome : (lz4 b.payload f.maxBlockSize f.maxBlockSize).isSome = true := by simp [hdec]
      have hbuf := g2.2.2.2.2 b (by rw [g3 hsome]; exact hb)
      rw [hdec] at hbuf
      simp only [Option.some.injEq] at hbuf
      simp only [ne_eq, hid, not_false_eq_true, if_true, g1, hsome, ← hbuf, hws]
      rw [if_neg (by omega)]
      exact ⟨r2, rfl, g2⟩

/-- The loop of `read` keeps the reader a reader over the frame. -/
theorem Lz4Reader.readLoop_models {lz4 : Lz4Decoder} {f : Lz4Frame} {u : Reader} {size : Nat}
    (hf : f.ServedBy u) (off count start floor fuel : Nat) (r : Lz4Reader)
    (hM : r.Models lz4 f u size) (offset : Nat) (dst : List Byte)
    (res : Except Exception (List Byte)) (r1 : Lz4Reader)
    (h : Lz4Reader.readLoop lz4 off count start floor fuel r offset dst = some (res, r1)) :
    r1.Models lz4 f u size := by
  induction fuel generalizing r offset dst with
  | zero =>
    unfold Lz4Reader.readLoop at h
    split at h
    · simp at h
    · simp only [Option.some.injEq, Prod.mk.injEq] at h
      rw [← h.2]; exact hM
  | succ fuel ih =>
    unfold Lz4Reader.readLoop at h
    split at h
    · simp only at h
      split at h
      · simp at h
      · rename_i e r2 hd
        simp only [Option.some.injEq, Prod.mk.injEq] at h
        rw [← h.2]; exact Lz4Reader.decompress_block_models hf hM _ _ _ _ _ hd
      · rename_i bytes r2 hd
        simp only [Option.some.injEq, Prod.mk.injEq] at h
        rw [← h.2]; exact Lz4Reader.decompress_block_models hf hM _ _ _ _ _ hd
      · rename_i bytes r2 hd
        exact ih r2 (Lz4Reader.decompress_block_models hf hM _ _ _ _ _ hd) _ _ h
    · simp only [Option.some.injEq, Prod.mk.injEq] at h
      rw [← h.2]; exact hM

theorem Lz4Reader.read_models {lz4 : Lz4Decoder} {f : Lz4Frame} {u : Reader} {size : Nat}
    (hf : f.ServedBy u) (r : Lz4Reader) (hM : r.Models lz4 f u size) (off count : Nat)
    (res : Except Exception (List Byte)) (r1 : Lz4Reader)
    (h : Lz4Reader.read lz4 r off count = some (res, r1)) : r1.Models lz4 f u size := by
  unfold Lz4Reader.read at h
  simp only at h
  split at h
  · simp only [Option.some.injEq, Prod.mk.injEq] at h
    rw [← h.2]; exact hM
  · split at h
    · simp only [Option.some.injEq, Prod.mk.injEq] at h
      rw [← h.2]; exact hM
    · exact Lz4Reader.readLoop_models hf _ _ _ _ _ r hM _ _ _ _ h

theorem Lz4Reader.reads_models {lz4 : Lz4Decoder} {f : Lz4Frame} {u : Reader} {size : Nat}
    (hf : f.ServedBy u) (r : Lz4Reader) (hM : r.Models lz4 f u size) (reqs : List (Off × Nat))
    (r1 : Lz4Reader) (h : Lz4Reader.reads lz4 r reqs = some r1) : r1.Models lz4 f u size := by
  induction reqs generalizing r with
  | nil =>
    simp only [Lz4Reader.reads, Option.some.injEq] at h
    rw [← h]; exact hM
  | cons q rest ih =>
    obtain ⟨off, count⟩ := q
    unfold Lz4Reader.reads at h
    rcases hr : Lz4Reader.read lz4 r off count with _ | ⟨res, r2⟩
    · simp [hr] at h
    · rw [hr] at h
      exact ih r2 (Lz4Reader.read_models hf r hM off count res r2 hr) h

theorem Lz4Reader.readLoop_exit (lz4 : Lz4Decoder) (off count start floor fuel : Nat)
    (r : Lz4Reader) (offset : Nat) (dst : List Byte) (h : ¬ offset < wadd off count) :
    Lz4Reader.readLoop lz4 off count start floor fuel r offset dst = some (.ok dst, r) := by
  cases fuel <;> simp [Lz4Reader.readLoop, h]

theorem Lz4Reader.readLoop_step (lz4 : Lz4Decoder) (off count start floor fuel : Nat)
    (r r1 : Lz4Reader) (offset : Nat) (dst bytes : List Byte) (hlt : offset < wadd off count)
    (hd : Lz4Reader.decompress_block lz4 r (start + wsub offset floor / r.max_block_size_)
      (if off > offset then off - offset else 0)
      (wsub (min r.max_block_size_ (wsub (wadd off count) offset))
        (if off > offset then off - offset else 0)) = some (.ok (true, bytes), r1)) :
    Lz4Reader.readLoop lz4 off count start floor (fuel + 1) r offset dst =
      Lz4Reader.readLoop lz4 off count start floor fuel r1 (wadd offset r.max_block_size_)
        (dst ++ bytes) := by
  rw [Lz4Reader.readLoop]
  simp only [hlt, if_true, hd]

/-- The number of blocks of a frame that encodes `P` covers every offset of `P`. -/
theorem Lz4Frame.Encodes.block_at {lz4 : Lz4Decoder} {f : Lz4Frame} {P : List Byte}
    (hE : f.Encodes lz4 P) (hpos : 0 < f.maxBlockSize) (k : Nat)
    (hk : k * f.maxBlockSize < P.length) :
    ∃ b, f.blocks[k]? = some b ∧
      b.decodesTo lz4 f.maxBlockSize ((P.drop (k * f.maxBlockSize)).take f.maxBlockSize) := by
  have hlt : k < f.blocks.length := by
    rw [hE.1]
    have : (k + 1) * f.maxBlockSize ≤ P.length + f.maxBlockSize - 1 := by
      rw [Nat.succ_mul]; omega
    exact (Nat.le_div_iff_mul_le hpos).mpr this
  exact ⟨f.blocks[k], List.getElem?_eq_getElem hlt, hE.2 k _ (List.getElem?_eq_getElem hlt)⟩

/-- Inside the plaintext, the loop of `read`, entered at the block boundary
`k * max_block_size`, appends the bytes from there (or from `off`, if later) up
to `off + count`. -/
theorem Lz4Reader.readLoop_plaintext {lz4 : Lz4Decoder} {f : Lz4Frame} {u : Reader}
    {P : List Byte} (hf : f.ServedBy u) (hE : f.Encodes lz4 P)
    (hP : P.length + f.maxBlockSize < 2 ^ 64) (off count : Nat) (hr : off + count ≤ P.length)
    (fuel : Nat) (r : Lz4Reader) (hM : r.Models lz4 f u P.length) (k : Nat) (dst : List Byte)
    (hk1 : off / f.maxBlockSize ≤ k) (hk2 : off < k * f.maxBlockSize + f.maxBlockSize)
    (hfuel : off + count - k * f.maxBlockSize ≤ fuel) :
    ∃ r1, Lz4Reader.readLoop lz4 off count (off / f.maxBlockSize)
        (off / f.maxBlockSize * f.maxBlockSize) fuel r (k * f.maxBlockSize) dst
        = some (.ok (dst ++ (P.drop (max off (k * f.maxBlockSize))).take
            (off + count - max off (k * f.maxBlockSize))), r1) ∧
      r1.Models lz4 f u P.length := by
  have hpos : 0 < f.maxBlockSize := by
    have := (Lz4Frame.maxBlockSize_bounds f hf.1.1).1; omega
  have hwe : wadd off count = off + count := wadd_of_lt (by omega)
  induction fuel generalizing r k dst with
  | zero =>
    have hge : ¬ k * f.maxBlockSize < wadd off count := by rw [hwe]; omega
    rw [Lz4Reader.readLoop_exit _ _ _ _ _ _ _ _ _ hge]
    refine ⟨r, ?_, hM⟩
    have : off + count - max off (k * f.maxBlockSize) = 0 := by omega
    rw [this]; simp
  | succ fuel ih =>
    by_cases hlt : k * f.maxBlockSize < off + count
    · obtain ⟨b, hb, hdec⟩ := hE.block_at hpos k (by omega)
      have hq1 : off / f.maxBlockSize * f.maxBlockSize ≤ off := Nat.div_mul_le_self _ _
      have hq2 : off / f.maxBlockSize * f.maxBlockSize ≤ k * f.maxBlockSize :=
        Nat.mul_le_mul_right _ hk1
      have hidx : off / f.maxBlockSize
          + wsub (k * f.maxBlockSize) (off / f.maxBlockSize * f.maxBlockSize) / r.max_block_size_
          = k := by
        have h1 : wsub (k * f.maxBlockSize) (off / f.maxBlockSize * f.maxBlockSize)
            = (k - off / f.maxBlockSize) * f.maxBlockSize := by
          rw [Nat.sub_mul]; unfold wsub; omega
        rw [h1, hM.2.1, Nat.mul_div_cancel _ hpos]; omega
      have hclen : ((P.drop (k * f.maxBlockSize)).take f.maxBlockSize).length
          = min f.maxBlockSize (P.length - k * f.maxBlockSize) := by
        rw [List.length_take, List.length_drop]
      have hew : wsub (wadd off count) (k * f.maxBlockSize) = off + count - k * f.maxBlockSize := by
        rw [hwe]; unfold wsub; omega
      have hsw : (if off > k * f.maxBlockSize then off - k * f.maxBlockSize else 0)
          = max off (k * f.maxBlockSize) - k * f.maxBlockSize := by
        split <;> omega
      have hlen : wsub (min r.max_block_size_ (wsub (wadd off count) (k * f.maxBlockSize)))
          (if off > k * f.maxBlockSize then off - k * f.maxBlockSize else 0)
          = min (k * f.maxBlockSize + f.maxBlockSize) (off + count)
            - max off (k * f.maxBlockSize) := by
        rw [hew, hsw, hM.2.1]; unfold wsub; omega
      obtain ⟨r1, hd, hM1⟩ := Lz4Reader.decompress_block_chunk hf hM k b hb _ hdec
        (max off (k * f.maxBlockSize) - k * f.maxBlockSize)
        (min (k * f.maxBlockSize + f.maxBlockSize) (off + count) - max off (k * f.maxBlockSize))
        (by rw [hclen]; omega) (by rw [hclen]; omega)
      have hstep := Lz4Reader.readLoop_step lz4 off count (off / f.maxBlockSize)
        (off / f.maxBlockSize * f.maxBlockSize) fuel r r1 (k * f.maxBlockSize) dst _
        (by rw [hwe]; exact hlt) (by rw [hlen, hsw, hidx]; exact hd)
      have hnext : wadd (k * f.maxBlockSize) r.max_block_size_ = (k + 1) * f.maxBlockSize := by
        rw [hM.2.1, Nat.succ_mul]; exact wadd_of_lt (by omega)
      rw [hstep, hnext]
      have hsm : (k + 1) * f.maxBlockSize = k * f.maxBlockSize + f.maxBlockSize := Nat.succ_mul _ _
      obtain ⟨r2, hres, hM2⟩ := ih r1 hM1 (k + 1) _ (by omega) (by rw [hsm]; omega)
        (by rw [hsm]; omega)
      refine ⟨r2, ?_, hM2⟩
      rw [hres, List.append_assoc]
      congr 3
      rw [hsm]
      rw [← List.take_drop_of_take (P.drop (k * f.maxBlockSize)) f.maxBlockSize _ _ (by omega),
        List.drop_drop]
      have hc : k * f.maxBlockSize + (max off (k * f.maxBlockSize) - k * f.maxBlockSize)
          = max off (k * f.maxBlockSize) := by omega
      rw [hc]
      by_cases hend : off + count ≤ k * f.maxBlockSize + f.maxBlockSize
      · have z : off + count - max off (k * f.maxBlockSize + f.maxBlockSize) = 0 := by omega
        rw [z, Nat.min_eq_right hend]; simp
      · have e1 : max off (k * f.maxBlockSize + f.maxBlockSize)
            = max off (k * f.maxBlockSize)
              + (min (k * f.maxBlockSize + f.maxBlockSize) (off + count)
                - max off (k * f.maxBlockSize)) := by omega
        have e2 : off + count - max off (k * f.maxBlockSize)
            = (min (k * f.maxBlockSize + f.maxBlockSize) (off + count)
                - max off (k * f.maxBlockSize))
              + (off + count - max off (k * f.maxBlockSize + f.maxBlockSize)) := by omega
        conv_rhs => rw [e2, List.take_add, List.drop_drop, ← e1]
    · have hge : ¬ k * f.maxBlockSize < wadd off count := by rw [hwe]; exact hlt
      rw [Lz4Reader.readLoop_exit _ _ _ _ _ _ _ _ _ hge]
      refine ⟨r, ?_, hM⟩
      have : off + count - max off (k * f.maxBlockSize) = 0 := by omega
      rw [this]; simp

/-- Inside the plaintext, `read` returns exactly the bytes asked for, whatever
block the decompressed buffer holds. -/
theorem Lz4Reader.read_in_range {lz4 : Lz4Decoder} {f : Lz4Frame} {u : Reader}
    {P : List Byte} (hf : f.ServedBy u) (hE : f.Encodes lz4 P)
    (hP : P.length + f.maxBlockSize < 2 ^ 64) (r : Lz4Reader) (hM : r.Models lz4 f u P.length)
    (off count : Nat) (hr : off + count ≤ P.length) :
    ∃ r1, Lz4Reader.read lz4 r off count = some (.ok ((P.drop off).take count), r1) ∧
      r1.Models lz4 f u P.length := by
  have hpos : 0 < f.maxBlockSize := by
    have := (Lz4Frame.maxBlockSize_bounds f hf.1.1).1; omega
  have hwe : wadd off count = off + count := wadd_of_lt (by omega)
  have hq1 : off / f.maxBlockSize * f.maxBlockSize ≤ off := Nat.div_mul_le_self _ _
  have hq2 : off < off / f.maxBlockSize * f.maxBlockSize + f.maxBlockSize := by
    have h1 := Nat.div_add_mod off f.maxBlockSize
    have h2 := Nat.mod_lt off hpos
    rw [Nat.mul_comm] at h1
    omega
  obtain ⟨r1, h1, h2⟩ := Lz4Reader.readLoop_plaintext hf hE hP off count hr
    (off + count - off / f.maxBlockSize * f.maxBlockSize) r hM (off / f.maxBlockSize) []
    (le_refl _) hq2 (le_refl _)
  refine ⟨r1, ?_, h2⟩
  unfold Lz4Reader.read
  simp only [hwe, hM.2.2.2.1, hM.2.1]
  rw [if_neg (by omega), if_neg (by omega), h1]
  have e1 : max off (off / f.maxBlockSize * f.maxBlockSize) = off := by omega
  rw [e1]
  simp

theorem ceil_div_bounds (p m n : Nat) (hm : 0 < m) (hn : n = (p + m - 1) / m) (h1 : 1 ≤ n) :
    (n - 1) * m < p ∧ p ≤ (n - 1) * m + m := by
  have h2 := Nat.div_add_mod (p + m - 1) m
  have h3 := Nat.mod_lt (p + m - 1) hm
  rw [← hn] at h2
  obtain ⟨j, rfl⟩ : ∃ j, n = j + 1 := ⟨n - 1, by omega⟩
  rw [Nat.mul_succ, Nat.mul_comm] at h2
  simp only [Nat.add_sub_cancel]
  omega

/-- The end of the constructor on a frame that encodes `P`: the last block gives
the size `|P|`, and the reader is a reader over the frame. -/
theorem Lz4Reader.finish_encodes {lz4 : Lz4Decoder} {f : Lz4Frame} {u : Reader}
    {P : List Byte} (hf : f.ServedBy u) (hE : f.Encodes lz4 P)
    (hP : P.length + f.maxBlockSize < 2 ^ 64) :
    ∃ r, Lz4Reader.finish lz4
        { f.afterHeader u with blocks_ := Lz4Frame.blockInfos f.header.length f.blocks }
        = some (.ok r) ∧ r.Models lz4 f u P.length := by
  have hpos : 0 < f.maxBlockSize := by
    have := (Lz4Frame.maxBlockSize_bounds f hf.1.1).1; omega
  have hnone : ∀ b, f.blocks[OffMax]? = some b → False := by
    intro b hb
    have hlt := hf.blocks_lt
    rw [List.getElem?_eq_none (by omega)] at hb
    simp at hb
  unfold Lz4Reader.finish
  simp only [List.getLast?_eq_getElem?, Lz4Frame.blockInfos_length]
  by_cases hn : f.blocks.length = 0
  · have hnil : f.blocks = [] := List.length_eq_zero.mp hn
    have hP0 : P.length = 0 := by
      have h1 := hE.1
      rw [hn] at h1
      have h2 := (Nat.div_eq_zero_iff hpos).mp h1.symm
      omega
    simp only [hnil, Lz4Frame.blockInfos, List.length_nil, List.getElem?_nil]
    refine ⟨_, rfl, rfl, rfl, ?_, ?_, ?_⟩
    · simp [hnil, Lz4Frame.blockInfos]
    · simp [Lz4Frame.afterHeader, hP0]
    · intro b hb; exact (hnone b hb).elim
  · have hlt : f.blocks.length - 1 < f.blocks.length := by omega
    have hb : f.blocks[f.blocks.length - 1]? = some f.blocks[f.blocks.length - 1] :=
      List.getElem?_eq_getElem hlt
    obtain ⟨o, h1, h2, h3, _⟩ := hf.block_read_all _ _ hb
    have hdec := hE.2 _ _ hb
    obtain ⟨c1, c2⟩ := ceil_div_bounds P.length f.maxBlockSize f.blocks.length hpos hE.1 (by omega)
    have hclen : ((P.drop ((f.blocks.length - 1) * f.maxBlockSize)).take f.maxBlockSize).length
        = P.length - (f.blocks.length - 1) * f.maxBlockSize := by
      rw [List.length_take, List.length_drop]; omega
    generalize f.blocks[f.blocks.length - 1] = b at hb h1 h2 h3 hdec
    rw [h1]
    simp only
    unfold Lz4Frame.Block.decodesTo at hdec
    by_cases hst : b.stored = true
    · simp only [hst, if_true] at hdec ⊢
      refine ⟨_, rfl, rfl, rfl, rfl, ?_, ?_⟩
      · show ((f.blocks.length - 1) * f.maxBlockSize + b.payload.length) % 2 ^ 64 = P.length
        rw [hdec, hclen]; omega
      · intro b1 hb1; exact (hnone b1 hb1).elim
    · simp only [hst, Bool.false_eq_true, if_false] at hdec ⊢
      have hu : (f.afterHeader u).upstream_ = u := rfl
      simp only [hu, h3, overwrite_take]
      have hm : (f.afterHeader u).max_block_size_ = f.maxBlockSize := rfl
      simp only [hm, hdec]
      refine ⟨_, rfl, rfl, rfl, rfl, ?_, ?_⟩
      · show ((f.blocks.length - 1) * f.maxBlockSize
          + ((P.drop ((f.blocks.length - 1) * f.maxBlockSize)).take f.maxBlockSize).length)
            % 2 ^ 64 = P.length
        rw [hclen]; omega
      · intro b1 hb1
        have hb2 : f.blocks[f.blocks.length - 1]? = some b1 := hb1
        rw [hb] at hb2
        rw [← Option.some.inj hb2]
        exact hdec

/-- The constructor on a frame that encodes `P`, served by the upstream: it
returns a reader over the frame, of size `|P|`. -/
theorem Lz4Reader.new_encodes {lz4 : Lz4Decoder} {f : Lz4Frame} {u : Reader}
    {P : List Byte} (hf : f.ServedBy u) (hE : f.Encodes lz4 P)
    (hP : P.length + f.maxBlockSize < 2 ^ 64) (fuel : Nat) (hfuel : f.bytes.length ≤ fuel) :
    ∃ r, Lz4Reader.new lz4 fuel u = some (.ok r) ∧ r.Models lz4 f u P.length := by
  obtain ⟨⟨hh, hb⟩, hs, hlen, hsize⟩ := hf
  have hmbs := (Lz4Frame.maxBlockSize_bounds f hh).2
  have hn := Lz4Frame.blockBytes_length_ge_of_ok f f.blocks hb
  have hdl : f.bytes.length = f.header.length + ((Lz4Frame.blockBytes f.blocks).length +
      (4 + f.contentChecksum.length)) := by
    simp only [Lz4Frame.bytes, List.length_append, le32bytes_length]
  have hfu : fuel = (fuel - f.blocks.length - 1 + 1) + f.blocks.length := by omega
  have hscan : Lz4Reader.scanBlocks u f.maxBlockSize (decide (f.flg.val &&& 0x10 ≠ 0)) fuel
      f.header.length [] = some (.ok (Lz4Frame.blockInfos f.header.length f.blocks,
        some (f.header.length + (Lz4Frame.blockBytes f.blocks).length + 4))) := by
    rw [hfu, Lz4Reader.scanBlocks_blocks u f.bytes hs hlen f.maxBlockSize _ (by omega) f.blocks
      (fun b hb1 => (hb b hb1).scan) f.header _ rfl]
    have hd2 : f.bytes = (f.header ++ Lz4Frame.blockBytes f.blocks) ++
        (le32bytes 0 ++ f.contentChecksum) := by
      simp [Lz4Frame.bytes]
    have := Lz4Reader.scanBlocks_end_mark u f.bytes hs hlen f.maxBlockSize
      (decide (f.flg.val &&& 0x10 ≠ 0)) _ _ hd2 (fuel - f.blocks.length - 1)
      ([] ++ Lz4Frame.blockInfos f.header.length f.blocks)
    rw [List.length_append] at this
    rw [this]; simp
  have hcc := hh.2.2.2.2.2
  have hoff : (if decide (f.flg.val &&& 0x04 ≠ 0) = true
      then wadd (f.header.length + (Lz4Frame.blockBytes f.blocks).length + 4) 4
      else f.header.length + (Lz4Frame.blockBytes f.blocks).length + 4) = u.size := by
    rw [hsize, hdl]
    by_cases hc : f.flg.val &&& 0x04 ≠ 0
    · rw [if_pos hc] at hcc
      rw [if_pos (by simpa using hc), wadd_of_lt (by omega)]; omega
    · rw [if_neg hc] at hcc
      rw [if_neg (by simpa using hc)]; omega
  rw [Lz4Reader.new_header lz4 fuel u f.bytes hs f hh _ rfl, hscan]
  simp only [hoff, ne_eq, not_true_eq_false, if_false]
  exact Lz4Reader.finish_encodes ⟨⟨hh, hb⟩, hs, hlen, hsize⟩ hE hP

/-- C1: for every plaintext `P`, every supported block-size code and every frame
that splits `P` into chunks of `max_block_size` bytes (only the last may be
shorter) and stores each chunk raw or as a payload that the decompressor maps
back to the chunk, an `Lz4Reader` constructed over the bytes of the frame has
`size() == |P|` and `read(0, |P|)` returns exactly `P`; this covers one block,
several blocks, and stored-uncompressed blocks. -/
theorem C1_round_trip (lz4 : Lz4Decoder) (f : Lz4Frame) (u : Reader) (P : List Byte)
    (hf : f.ServedBy u) (hE : f.Encodes lz4 P) (hP : P.length + f.maxBlockSize < 2 ^ 64)
    (fuel : Nat) (hfuel : f.bytes.length ≤ fuel) :
    ∃ r, Lz4Reader.new lz4 fuel u = some (.ok r) ∧ r.size = P.length ∧
      ∃ r1, Lz4Reader.read lz4 r 0 P.length = some (.ok P, r1) := by
  obtain ⟨r, h1, hM⟩ := Lz4Reader.new_encodes hf hE hP fuel hfuel
  obtain ⟨r1, h2, _⟩ := Lz4Reader.read_in_range hf hE hP r hM 0 P.length (by omega)
  refine ⟨r, h1, hM.2.2.2.1, r1, ?_⟩
  rw [h2]; simp

theorem bigChunk_length : bigChunk.length = 65536 := List.length_replicate _ _

theorem block0_payload_length :
    (Lz4Frame.Block.mk true bigChunk []).payload.length = 65536 := bigChunk_length

theorem block0_bytes_length : (Lz4Frame.Block.bytes ⟨true, bigChunk, []⟩).length = 65540 := by
  rw [Lz4Frame.Block.bytes_length, block0_payload_length]
  rfl

theorem testFrame2_blocks :
    testFrame2.blocks = [⟨true, bigChunk, []⟩, ⟨false, [0x10, 9], []⟩] := rfl

theorem testFrame2_blockBytes_length : (Lz4Frame.blockBytes testFrame2.blocks).length = 65546 := by
  rw [testFrame2_blocks, Lz4Frame.blockBytes, List.length_append, block0_bytes_length]
  rfl

theorem testFrame2_bytes_length : testFrame2.bytes.length = 65557 := by
  rw [Lz4Frame.bytes, List.length_append, List.length_append, testFrame2_blockBytes_length]
  rfl

theorem testFrame2_maxBlockSize : testFrame2.maxBlockSize = 65536 := by decide

theorem testFrame2_served :
    testFrame2.ServedBy (FileReader (preadFile testFrame2.bytes) 65557) := by
  refine ⟨⟨by unfold Lz4Frame.HeaderOK; decide, ?_⟩, FileReader_serves _ _,
    by rw [testFrame2_bytes_length]; decide, by rw [testFrame2_bytes_length]; rfl⟩
  intro b hb
  have hflg : (if testFrame2.flg.val &&& 0x10 ≠ 0 then 4 else 0) = 0 := by decide
  unfold Lz4Frame.BlockOK
  rw [testFrame2_maxBlockSize, hflg]
  rw [testFrame2_blocks] at hb
  simp only [List.mem_cons, List.mem_singleton, List.not_mem_nil, or_false] at hb
  rcases hb with rfl | rfl
  · rw [block0_payload_length]; exact ⟨by decide, by decide, rfl⟩
  · decide

theorem testFrame2_encodes : testFrame2.Encodes lz4LiteralRun (bigChunk ++ [9]) := by
  refine ⟨?_, ?_⟩
  · rw [testFrame2_maxBlockSize, List.length_append, bigChunk_length]; rfl
  intro i b hb
  rw [testFrame2_maxBlockSize]
  unfold Lz4Frame.Block.decodesTo
  rw [testFrame2_blocks] at hb
  match i, hb with
  | 0, hb =>
    simp only [List.getElem?_cons_zero, Option.some.injEq] at hb
    subst hb
    have h := List.take_left bigChunk [9]
    rw [bigChunk_length] at h
    simp only [if_true, Nat.zero_mul, List.drop_zero, h]
  | 1, hb =>
    simp only [List.getElem?_cons_succ, List.getElem?_cons_zero,
      Option.some.injEq] at hb
    subst hb
    have h := List.drop_left bigChunk [9]
    rw [bigChunk_length] at h
    rw [Nat.one_mul, h]
    decide
  | n + 2, hb =>
    simp at hb

/-- C1 (witness): a frame of two blocks, the first stored uncompressed, the second
compressed, over a file reader. -/
theorem C1_round_trip_witness :
    ∃ r, Lz4Reader.new lz4LiteralRun 65557
        (FileReader (preadFile testFrame2.bytes) 65557) = some (.ok r) ∧
      r.size = (bigChunk ++ [9]).length ∧
      ∃ r1, Lz4Reader.read lz4LiteralRun r 0 (bigChunk ++ [9]).length
        = some (.ok (bigChunk ++ [9]), r1) :=
  C1_round_trip lz4LiteralRun testFrame2 _ (bigChunk ++ [9]) testFrame2_served
    testFrame2_encodes
    (by rw [testFrame2_maxBlockSize, List.length_append, bigChunk_length]; decide) 65557
    (by rw [testFrame2_bytes_length])

/-- C2 (as stated, refuted): the frame of two stored blocks of one byte each (block
size code 4) is accepted with two blocks and `size() == 65537`, yet the in-range
`read(0, 65537)` raises: block 0 is read as if it held 65536 bytes, the upstream
read runs to the end of the file and fails. So no result of `read(0, size())`
exists for `read(0, 1)`, which succeeds, to be a slice of. -/
theorem C2_short_block_counterexample :
    ∃ r, Lz4Reader.new lz4LiteralRun 21 (FileReader (preadFile testFrameShort.bytes) 21)
        = some (.ok r) ∧
      r.blocks_.length = 2 ∧ r.size = 65537 ∧ 0 + 65537 ≤ r.size ∧
      (Lz4Reader.read lz4LiteralRun r 0 65537).map Prod.fst = some (.error .unexpectedEOF) ∧
      (Lz4Reader.read lz4LiteralRun r 0 1).map Prod.fst = some (.ok [7]) := by
  refine ⟨_, rfl, ?_, ?_, ?_, ?_, ?_⟩ <;> decide

/-- C2 (amended): for every frame whose blocks other than the last each hold
exactly `max_block_size` bytes of the plaintext (the frames of C1, with any
number of blocks), the constructed reader, in every state reached by any sequence
of earlier `read` calls (so whatever block the single-slot cache holds), returns
for `read(0, size())` the whole plaintext, and for every `(offset, count)` with
`offset + count <= size()` exactly the bytes `[offset, offset + count)` of it. -/
theorem C2_random_access (lz4 : Lz4Decoder) (f : Lz4Frame) (u : Reader) (P : List Byte)
    (hf : f.ServedBy u) (hE : f.Encodes lz4 P) (hP : P.length + f.maxBlockSize < 2 ^ 64)
    (fuel : Nat) (hfuel : f.bytes.length ≤ fuel) :
    ∃ r, Lz4Reader.new lz4 fuel u = some (.ok r) ∧ r.size = P.length ∧
      ∀ (reqs : List (Off × Nat)) (r1 : Lz4Reader), Lz4Reader.reads lz4 r reqs = some r1 →
        ∃ full r2, Lz4Reader.read lz4 r1 0 r.size = some (.ok full, r2) ∧ full = P ∧
          ∀ off count, off + count ≤ r.size →
            ∃ r3, Lz4Reader.read lz4 r1 off count = some (.ok ((full.drop off).take count), r3) := by
  obtain ⟨r, h1, hM⟩ := Lz4Reader.new_encodes hf hE hP fuel hfuel
  have hsize : r.size = P.length := hM.2.2.2.1
  refine ⟨r, h1, hsize, fun reqs r1 hreach => ?_⟩
  have hM1 := Lz4Reader.reads_models hf r hM reqs r1 hreach
  obtain ⟨r2, h2, _⟩ := Lz4Reader.read_in_range hf hE hP r1 hM1 0 P.length (by omega)
  refine ⟨P, r2, ?_, rfl, fun off count hr => ?_⟩
  · rw [hsize, h2]; simp
  · rw [hsize] at hr
    obtain ⟨r3, h3, _⟩ := Lz4Reader.read_in_range hf hE hP r1 hM1 off count hr
    exact ⟨r3, h3⟩

/-- C2 (witness): the two-block frame of the C1 witness, read across the block
boundary at `(65535, 2)`. -/
theorem C2_random_access_witness :
    ∃ r, Lz4Reader.new lz4LiteralRun 65557 (FileReader (preadFile testFrame2.bytes) 65557)
        = some (.ok r) ∧
      ∃ full r2, Lz4Reader.read lz4LiteralRun r 0 r.size = some (.ok full, r2) ∧
        ∃ r3, Lz4Reader.read lz4LiteralRun r 65535 2
          = some (.ok ((full.drop 65535).take 2), r3) :=
  let ⟨r, h1, h2, h3⟩ := C2_random_access lz4LiteralRun testFrame2 _ (bigChunk ++ [9])
    testFrame2_served testFrame2_encodes
    (by rw [testFrame2_maxBlockSize, List.length_append, bigChunk_length]; decide) 65557
    (by rw [testFrame2_bytes_length])
  let ⟨full, r2, h4, _, h5⟩ := h3 [] r rfl
  ⟨r, h1, full, r2, h4, h5 65535 2
    (by rw [h2, List.length_append, bigChunk_length]; decide)⟩

/-! ## Theorems: the constructor of Lz4Reader on truncated and trailing input -/

/-- The constructor on a well-formed header and block sequence followed by the
end mark: the scan indexes the blocks, and what is left is the length test and
the last block. -/
theorem Lz4Reader.new_scanned (lz4 : Lz4Decoder) (f : Lz4Frame) (u : Reader)
    (tail data : List Byte) (hw : f.WellFormed)
    (hd : data = f.header ++ (Lz4Frame.blockBytes f.blocks ++ (le32bytes 0 ++ tail)))
    (hs : Serves u data) (hlen : data.length < 2 ^ 64) (fuel : Nat) (hfuel : data.length ≤ fuel) :
    Lz4Reader.new lz4 fuel u =
      if (if decide (f.flg.val &&& 0x04 ≠ 0) then
            wadd (f.header.length + (Lz4Frame.blockBytes f.blocks).length + 4) 4
          else f.header.length + (Lz4Frame.blockBytes f.blocks).length + 4) ≠ u.size then
        some (.ok { f.afterHeader u with
          blocks_ := Lz4Frame.blockInfos f.header.length f.blocks })
      else Lz4Reader.finish lz4
        { f.afterHeader u with blocks_ := Lz4Frame.blockInfos f.header.length f.blocks } := by
  obtain ⟨hh, hb⟩ := hw
  have hmbs := (Lz4Frame.maxBlockSize_bounds f hh).2
  have hn := Lz4Frame.blockBytes_length_ge_of_ok f f.blocks hb
  have hdl : data.length = f.header.length + ((Lz4Frame.blockBytes f.blocks).length +
      (4 + tail.length)) := by
    rw [hd]; simp only [List.length_append, le32bytes_length]
  have hfu : fuel = (fuel - f.blocks.length - 1 + 1) + f.blocks.length := by omega
  have hscan : Lz4Reader.scanBlocks u f.maxBlockSize (decide (f.flg.val &&& 0x10 ≠ 0)) fuel
      f.header.length [] = some (.ok (Lz4Frame.blockInfos f.header.length f.blocks,
        some (f.header.length + (Lz4Frame.blockBytes f.blocks).length + 4))) := by
    rw [hfu, Lz4Reader.scanBlocks_blocks u data hs hlen f.maxBlockSize _ (by omega) f.blocks
      (fun b hb1 => (hb b hb1).scan) f.header _ hd]
    have hd2 : data = (f.header ++ Lz4Frame.blockBytes f.blocks) ++ (le32bytes 0 ++ tail) := by
      rw [hd]; simp
    have := Lz4Reader.scanBlocks_end_mark u data hs hlen f.maxBlockSize
      (decide (f.flg.val &&& 0x10 ≠ 0)) _ _ hd2 (fuel - f.blocks.length - 1)
      ([] ++ Lz4Frame.blockInfos f.header.length f.blocks)
    rw [List.length_append] at this
    rw [this]; simp
  rw [Lz4Reader.new_header lz4 fuel u data hs f hh _ hd, hscan]

/-- C12: for every well-formed frame `f` and every byte sequence `data` that is
the header, blocks and end mark of `f` followed by `tail`, where the length of
`tail` is not the length of the content checksum the flag byte announces (so
`data` is the frame followed by at least one extra byte, or the frame with bytes
of its content checksum missing), the constructor over a source that holds
exactly `data` returns with `size() == 0`: the parse offset after the end mark
and the optional 4-byte checksum is not `upstream.size()`. -/
theorem C12_single_frame_only (lz4 : Lz4Decoder) (f : Lz4Frame) (u : Reader)
    (tail data : List Byte) (hw : f.WellFormed)
    (hd : data = f.header ++ (Lz4Frame.blockBytes f.blocks ++ (le32bytes 0 ++ tail)))
    (htail : tail.length ≠ f.contentChecksum.length)
    (hs : Serves u data) (hsize : u.size = data.length) (hlen : data.length + 4 < 2 ^ 64)
    (fuel : Nat) (hfuel : data.length ≤ fuel) :
    ∃ r, Lz4Reader.new lz4 fuel u = some (.ok r) ∧ r.size = 0 := by
  have hcc := hw.1.2.2.2.2.2
  have hdl : data.length = f.header.length + ((Lz4Frame.blockBytes f.blocks).length +
      (4 + tail.length)) := by
    rw [hd]; simp only [List.length_append, le32bytes_length]
  have hoff : (if decide (f.flg.val &&& 0x04 ≠ 0) = true
      then wadd (f.header.length + (Lz4Frame.blockBytes f.blocks).length + 4) 4
      else f.header.length + (Lz4Frame.blockBytes f.blocks).length + 4) ≠ u.size := by
    rw [hsize, hdl]
    by_cases hc : f.flg.val &&& 0x04 ≠ 0
    · rw [if_pos hc] at hcc
      rw [if_pos (by simpa using hc), wadd_of_lt (by omega)]; omega
    · rw [if_neg hc] at hcc
      rw [if_neg (by simpa using hc)]; omega
  rw [Lz4Reader.new_scanned lz4 f u tail data hw hd hs (by omega) fuel hfuel, if_pos hoff]
  exact ⟨_, rfl, rfl⟩


/-- C12 (witness): a one-block frame followed by one extra byte, and a frame that
announces a content checksum of which only two bytes are present. -/
theorem C12_single_frame_only_witness :
    (∃ r, Lz4Reader.new lz4LiteralRun 17
        (FileReader (preadFile ((testFrame [⟨true, [7], []⟩]).bytes ++ [9])) 17)
      = some (.ok r) ∧ r.size = 0) ∧
    (∃ r, Lz4Reader.new lz4LiteralRun 18
        (FileReader (preadFile [4, 34, 77, 24, 0x64, 0x40, 0, 1, 0, 0, 0x80, 7, 0, 0, 0, 0, 1, 2]) 18)
      = some (.ok r) ∧ r.size = 0) :=
  ⟨C12_single_frame_only lz4LiteralRun (testFrame [⟨true, [7], []⟩]) _ [9]
      ((testFrame [⟨true, [7], []⟩]).bytes ++ [9])
      (by unfold Lz4Frame.WellFormed Lz4Frame.HeaderOK; simp only [Lz4Frame.BlockOK]; decide)
      (by decide) (by decide) (FileReader_serves _ _) (by decide) (by decide) 17 (by decide),
   C12_single_frame_only lz4LiteralRun
      { flg := 0x64, bd := 0x40, contentSize := [], dictId := [], headerChecksum := 0,
        blocks := [⟨true, [7], []⟩], contentChecksum := [1, 2, 3, 4] } _ [1, 2]
      [4, 34, 77, 24, 0x64, 0x40, 0, 1, 0, 0, 0x80, 7, 0, 0, 0, 0, 1, 2]
      (by unfold Lz4Frame.WellFormed Lz4Frame.HeaderOK; simp only [Lz4Frame.BlockOK]; decide)
      (by decide) (by decide) (FileReader_serves _ _) (by decide) (by decide) 18 (by decide)⟩

/-- The end of the constructor on a served frame: the size is computed from the
last block. -/
theorem Lz4Reader.finish_served (lz4 : Lz4Decoder) {f : Lz4Frame} {u : Reader}
    (hf : f.ServedBy u) :
    ∃ r, Lz4Reader.finish lz4
        { f.afterHeader u with blocks_ := Lz4Frame.blockInfos f.header.length f.blocks }
        = some (.ok r) ∧ r.max_block_size_ = f.maxBlockSize ∧
      r.blocks_ = Lz4Frame.blockInfos f.header.length f.blocks ∧
      (f.blocks.length = 0 → r.decompressed_size_ = 0) ∧
      ∀ b, f.blocks[f.blocks.length - 1]? = some b →
        r.decompressed_size_ =
          if b.stored then ((f.blocks.length - 1) * f.maxBlockSize + b.payload.length) % 2 ^ 64
          else match lz4 b.payload f.maxBlockSize f.maxBlockSize with
            | some out => ((f.blocks.length - 1) * f.maxBlockSize + out.length) % 2 ^ 64
            | none => 0 := by
  unfold Lz4Reader.finish
  simp only [List.getLast?_eq_getElem?, Lz4Frame.blockInfos_length]
  by_cases hn : f.blocks.length = 0
  · have hnil : f.blocks = [] := List.length_eq_zero.mp hn
    simp only [hnil, Lz4Frame.blockInfos, List.length_nil, List.getElem?_nil]
    refine ⟨_, rfl, rfl, rfl, fun _ => rfl, ?_⟩
    intro b hb; simp at hb
  · have hlt : f.blocks.length - 1 < f.blocks.length := by omega
    have hb : f.blocks[f.blocks.length - 1]? = some f.blocks[f.blocks.length - 1] :=
      List.getElem?_eq_getElem hlt
    obtain ⟨o, h1, h2, h3, _⟩ := hf.block_read_all _ _ hb
    generalize f.blocks[f.blocks.length - 1] = b at hb h1 h2 h3
    rw [h1]
    simp only
    by_cases hst : b.stored = true
    · simp only [hst, if_true]
      refine ⟨_, rfl, rfl, rfl, fun h => absurd h hn, ?_⟩
      intro b1 hb1
      rw [hb] at hb1
      rw [← Option.some.inj hb1]
      simp only [hst, if_true]
      rfl
    · simp only [hst, Bool.false_eq_true, if_false]
      have hu : (f.afterHeader u).upstream_ = u := rfl
      simp only [hu, h3, overwrite_take]
      have hm : (f.afterHeader u).max_block_size_ = f.maxBlockSize := rfl
      simp only [hm]
      cases hz : lz4 b.payload f.maxBlockSize f.maxBlockSize with
      | none =>
        refine ⟨_, rfl, rfl, rfl, fun h => absurd h hn, ?_⟩
        intro b1 hb1
        rw [hb] at hb1
        rw [← Option.some.inj hb1]
        simp only [hst, Bool.false_eq_true, if_false, hz]
        rfl
      | some out =>
        refine ⟨_, rfl, rfl, rfl, fun h => absurd h hn, ?_⟩
        intro b1 hb1
        rw [hb] at hb1
        rw [← Option.some.inj hb1]
        simp only [hst, Bool.false_eq_true, if_false, hz]

/-- C13: for every well-formed frame served by the upstream, with `n` blocks, the
constructor returns a reader whose `max_block_size_` is 64 KiB, 256 KiB, 1 MiB or
4 MiB for the block-size code 4, 5, 6 or 7, which has indexed the `n` blocks, and
whose `size()` is `0` when `n = 0` and otherwise `(n - 1) * max_block_size + d`,
with `d` the stored length of the last block when it is stored uncompressed and
the length the decompressor returns for it (at most the capacity
`max_block_size`) when it is compressed. The product `n * max_block_size` is
taken to fit the 64-bit `size_t`. -/
theorem C13_total_decompressed_size (lz4 : Lz4Decoder) (f : Lz4Frame) (u : Reader)
    (hf : f.ServedBy u) (hfit : f.blocks.length * f.maxBlockSize < 2 ^ 64)
    (fuel : Nat) (hfuel : f.bytes.length ≤ fuel) :
    ∃ r, Lz4Reader.new lz4 fuel u = some (.ok r) ∧
      (f.code = 4 → r.max_block_size_ = 64 * 1024) ∧
      (f.code = 5 → r.max_block_size_ = 256 * 1024) ∧
      (f.code = 6 → r.max_block_size_ = 1024 * 1024) ∧
      (f.code = 7 → r.max_block_size_ = 4 * 1024 * 1024) ∧
      r.blocks_.length = f.blocks.length ∧
      (f.blocks.length = 0 → r.size = 0) ∧
      ∀ b, f.blocks.getLast? = some b →
        (b.stored = true →
          r.size = (f.blocks.length - 1) * r.max_block_size_ + b.payload.length) ∧
        (b.stored = false → ∀ out,
          lz4 b.payload r.max_block_size_ r.max_block_size_ = some out →
          out.length ≤ r.max_block_size_ →
          r.size = (f.blocks.length - 1) * r.max_block_size_ + out.length) := by
  obtain ⟨r, h1, h2, h3, h4, h5⟩ := Lz4Reader.finish_served lz4 hf
  have hf' := hf
  obtain ⟨⟨hh, hb⟩, hs, hlen, hsize⟩ := hf
  have hcc := hh.2.2.2.2.2
  have hdl : f.bytes.length = f.header.length + ((Lz4Frame.blockBytes f.blocks).length +
      (4 + f.contentChecksum.length)) := by
    simp only [Lz4Frame.bytes, List.length_append, le32bytes_length]
  have hoff : (if decide (f.flg.val &&& 0x04 ≠ 0) = true
      then wadd (f.header.length + (Lz4Frame.blockBytes f.blocks).length + 4) 4
      else f.header.length + (Lz4Frame.blockBytes f.blocks).length + 4) = u.size := by
    rw [hsize, hdl]
    by_cases hc : f.flg.val &&& 0x04 ≠ 0
    · rw [if_pos hc] at hcc
      rw [if_pos (by simpa using hc), wadd_of_lt (by omega)]; omega
    · rw [if_neg hc] at hcc
      rw [if_neg (by simpa using hc)]; omega
  refine ⟨r, ?_, ?_, ?_, ?_, ?_, ?_, h4, ?_⟩
  · rw [Lz4Reader.new_scanned lz4 f u f.contentChecksum f.bytes ⟨hh, hb⟩ rfl hs hlen fuel hfuel,
      if_neg (by rw [hoff]; simp)]
    exact h1
  · intro hc; rw [h2]; simp [Lz4Frame.maxBlockSize, hc]
  · intro hc; rw [h2]; simp [Lz4Frame.maxBlockSize, hc]
  · intro hc; rw [h2]; simp [Lz4Frame.maxBlockSize, hc]
  · intro hc; rw [h2]; simp [Lz4Frame.maxBlockSize, hc]
  · rw [h3, Lz4Frame.blockInfos_length]
  · intro b hb1
    rw [List.getLast?_eq_getElem?] at hb1
    have h6 := h5 b hb1
    have hpos : 0 < f.blocks.length := by
      by_contra hc
      rw [List.getElem?_eq_none (by omega)] at hb1
      simp at hb1
    have hmul : (f.blocks.length - 1) * f.maxBlockSize + f.maxBlockSize
        = f.blocks.length * f.maxBlockSize := by
      obtain ⟨j, hj⟩ : ∃ j, f.blocks.length = j + 1 := ⟨f.blocks.length - 1, by omega⟩
      rw [hj, Nat.add_sub_cancel, Nat.succ_mul]
    have hbok := hb b (List.getElem?_mem hb1)
    refine ⟨fun hst => ?_, fun hst out hz hout => ?_⟩
    · rw [hst, if_pos rfl] at h6
      show r.decompressed_size_ = _
      rw [h6, h2]
      have := hbok.2.1
      exact Nat.mod_eq_of_lt (by omega)
    · rw [h2] at hz hout
      rw [hst, if_neg (by simp), hz] at h6
      show r.decompressed_size_ = _
      rw [h6, h2]
      exact Nat.mod_eq_of_lt (by omega)

/-- C13 (witness): two blocks with code 4, a stored block of 64 KiB and a
compressed block of one byte: `size() == 1 * 64 KiB + 1`. -/
theorem C13_total_decompressed_size_witness :
    ∃ r, Lz4Reader.new lz4LiteralRun 65557 (FileReader (preadFile testFrame2.bytes) 65557)
        = some (.ok r) ∧
      r.max_block_size_ = 64 * 1024 ∧ r.blocks_.length = 2 ∧ r.size = (2 - 1) * (64 * 1024) + 1 :=
  let ⟨r, h1, h4, _, _, _, hl, _, hb⟩ := C13_total_decompressed_size lz4LiteralRun testFrame2 _
    testFrame2_served (by rw [testFrame2_maxBlockSize]; decide) 65557
    (by rw [testFrame2_bytes_length])
  ⟨r, h1, h4 (by decide), hl, by
    have h := (hb ⟨false, [0x10, 9], []⟩ rfl).2 rfl [9]
      (by rw [h4 (by decide)]; decide) (by rw [h4 (by decide)]; decide)
    rw [h, h4 (by decide)]; rfl⟩

/-- C14 (refuted by the code): on a reader of size 1 (one stored block holding
one byte), `read(2^64 - 1, 2)` has `offset + count > size()`, but `offset_end`
wraps to `1`, the range test passes, the loop starts at an `offset_floor` above
`offset_end` and does not run, and `read` returns `req_read_size` having
written nothing, where the request `(1, 1)` raises as the claim demands. -/
theorem C14_wrapped_end_is_not_raised :
    ∃ r, Lz4Reader.new lz4LiteralRun 16
        (FileReader (preadFile (testFrame [⟨true, [7], []⟩]).bytes) 16) = some (.ok r) ∧
      r.size = 1 ∧ (2 ^ 64 - 1) + 2 > r.size ∧
      (Lz4Reader.read lz4LiteralRun r (2 ^ 64 - 1) 2).map Prod.fst = some (.ok []) ∧
      (Lz4Reader.read lz4LiteralRun r 1 1).map Prod.fst
        = some (.error .readBeyondDecompressed) := by
  refine ⟨_, rfl, ?_, ?_, ?_, ?_⟩ <;> decide

/-! ## Theorems: the page list and the string cache of CacheReader -/

theorem CacheReader.findPage_none (pageoff : Off) (ps : List CacheReader.Page) :
    CacheReader.findPage pageoff ps = none ↔ pageoff ∉ ps.map (fun p => p.offset) := by
  induction ps with
  | nil => simp [CacheReader.findPage]
  | cons p ps ih =>
    unfold CacheReader.findPage
    by_cases hp : p.offset = pageoff
    · simp [hp]
    · simp only [hp, if_false, List.map_cons, List.mem_cons, not_or]
      cases hf : CacheReader.findPage pageoff ps with
      | none =>
        rw [hf] at ih
        simp only [true_iff] at ih ⊢
        exact ⟨fun h => hp h.symm, ih⟩
      | some qr =>
        rw [hf] at ih
        simp only [false_iff, not_not, reduceCtorEq] at ih ⊢
        intro h
        exact h.2 ih

theorem CacheReader.findPage_offsets (pageoff : Off) (ps : List CacheReader.Page)
    (q : CacheReader.Page) (rest : List CacheReader.Page)
    (h : CacheReader.findPage pageoff ps = some (q, rest)) :
    rest.map (fun p => p.offset) = (ps.map (fun p => p.offset)).erase pageoff ∧
    List.Perm (q :: rest) ps := by
  induction ps generalizing q rest with
  | nil => simp [CacheReader.findPage] at h
  | cons p ps ih =>
    unfold CacheReader.findPage at h
    by_cases hp : p.offset = pageoff
    · simp only [hp, if_true, Option.some.injEq, Prod.mk.injEq] at h
      obtain ⟨rfl, rfl⟩ := h
      refine ⟨?_, List.Perm.refl _⟩
      simp [hp]
    · simp only [hp, if_false] at h
      cases hf : CacheReader.findPage pageoff ps with
      | none => simp [hf] at h
      | some qr =>
        obtain ⟨q1, rest1⟩ := qr
        simp only [hf, Option.some.injEq, Prod.mk.injEq] at h
        obtain ⟨rfl, rfl⟩ := h
        obtain ⟨h1, h2⟩ := ih q1 rest1 hf
        refine ⟨?_, ?_⟩
        · rw [List.map_cons, List.map_cons, List.erase_cons_tail (by simpa using hp), h1]
        · exact (List.Perm.swap p q1 rest1).trans (List.Perm.cons p h2)

theorem CacheReader.getPage_hit (c : CacheReader) (pageoff : Off)
    (h : pageoff ∈ c.pageOffsets) :
    (c.getPage pageoff).2.pageOffsets = pageoff :: c.pageOffsets.erase pageoff ∧
    c.getPageReads pageoff = [] ∧ (∃ page, (c.getPage pageoff).1 = .ok page) ∧
    List.Perm (c.getPage pageoff).2.pages c.pages := by
  unfold CacheReader.getPage CacheReader.getPageReads
  cases hf : CacheReader.findPage pageoff c.pages with
  | none => exact absurd h ((CacheReader.findPage_none pageoff c.pages).mp hf)
  | some qr =>
    obtain ⟨q, rest⟩ := qr
    obtain ⟨h1, _, _⟩ := CacheReader.findPage_some pageoff c.pages q rest hf
    obtain ⟨h2, h3⟩ := CacheReader.findPage_offsets pageoff c.pages q rest hf
    refine ⟨?_, rfl, ⟨q, rfl⟩, h3⟩
    simp only [CacheReader.pageOffsets, List.map_cons, h1, h2]

theorem CacheReader.getPage_miss (c : CacheReader) (pageoff : Off)
    (h : pageoff ∉ c.pageOffsets) :
    c.getPageReads pageoff = [(pageoff, CacheReader.PAGESIZE)] ∧
    (c.getPage pageoff).2.pages =
      (match (c.getPage pageoff).1 with
        | .ok page => [page]
        | .error _ => []) ++
      (if c.pages.length = CacheReader.MAXPAGES then c.pages.dropLast else c.pages) ∧
    ∀ page, (c.getPage pageoff).1 = .ok page →
      ∃ bs, c.upstream.read pageoff CacheReader.PAGESIZE = .ok bs ∧
        page.offset = pageoff ∧ page.len = bs.length := by
  have hf := (CacheReader.findPage_none pageoff c.pages).mpr h
  unfold CacheReader.getPage CacheReader.getPageReads
  simp only [hf]
  unfold CacheReader.Page.load
  cases hr : c.upstream.read pageoff CacheReader.PAGESIZE with
  | error e => simp
  | ok bs => simp

theorem CacheReader.getPage_upstream (c : CacheReader) (pageoff : Off) :
    (c.getPage pageoff).2.upstream = c.upstream ∧
    (c.getPage pageoff).2.stringCache = c.stringCache ∧
    (c.getPage pageoff).2.uninit = c.uninit := by
  unfold CacheReader.getPage
  cases hf : CacheReader.findPage pageoff c.pages with
  | some qr => exact ⟨rfl, rfl, rfl⟩
  | none =>
    simp only
    cases hl : CacheReader.Page.load
        (if c.pages.length = CacheReader.MAXPAGES then c.pages.getLastD ⟨0, 0, c.uninit⟩
          else ⟨0, 0, c.uninit⟩) c.upstream pageoff with
    | error e => exact ⟨rfl, rfl, rfl⟩
    | ok p1 => exact ⟨rfl, rfl, rfl⟩

/-- The call `getPage` keeps the page-cache invariant, also when the load throws. -/
theorem CacheReader.getPage_pagesOK (c : CacheReader) (pageoff : Off) (hu : c.upstream.Bounded)
    (ha : pageoff % CacheReader.PAGESIZE = 0) (hc : c.PagesOK) :
    (c.getPage pageoff).2.PagesOK := by
  obtain ⟨h1, h2, h3⟩ := hc
  by_cases hin : pageoff ∈ c.pageOffsets
  · obtain ⟨g1, _, _, g4⟩ := CacheReader.getPage_hit c pageoff hin
    refine ⟨by rw [g4.length_eq]; exact h1, ?_, fun p hp => h3 p (g4.subset hp)⟩
    unfold CacheReader.pageOffsets at h2 ⊢
    exact ((g4.map _).nodup_iff).mpr h2
  · obtain ⟨_, g2, g3⟩ := CacheReader.getPage_miss c pageoff hin
    have hsub : List.Sublist
        (if c.pages.length = CacheReader.MAXPAGES then c.pages.dropLast else c.pages) c.pages := by
      split
      · exact List.dropLast_sublist _
      · exact List.Sublist.refl _
    have hlen : (if c.pages.length = CacheReader.MAXPAGES then c.pages.dropLast else c.pages).length
        + 1 ≤ CacheReader.MAXPAGES := by
      split
      · rename_i h; rw [List.length_dropLast, h]; decide
      · rename_i h; omega
    have hnd : ((if c.pages.length = CacheReader.MAXPAGES then c.pages.dropLast
        else c.pages).map (fun p => p.offset)).Nodup := (hsub.map _).nodup h2
    have hnot : pageoff ∉ (if c.pages.length = CacheReader.MAXPAGES then c.pages.dropLast
        else c.pages).map (fun p => p.offset) := fun hx => hin ((hsub.map _).subset hx)
    unfold CacheReader.PagesOK CacheReader.pageOffsets
    rw [g2]
    cases hres : (c.getPage pageoff).1 with
    | error e =>
      simp only [List.nil_append]
      exact ⟨by omega, hnd, fun p hp => h3 p (hsub.subset hp)⟩
    | ok page =>
      obtain ⟨bs, r1, r2, r3⟩ := g3 page hres
      simp only [List.singleton_append, List.length_cons, List.map_cons, List.nodup_cons,
        List.mem_cons]
      refine ⟨hlen, ⟨by rw [r2]; exact hnot, hnd⟩, ?_⟩
      rintro p (rfl | hp)
      · rw [r2, r3]; exact ⟨ha, hu _ _ _ r1⟩
      · exact h3 p (hsub.subset hp)

/-- The loop of `read` changes nothing but the page list. -/
theorem CacheReader.readLoop_frame (fuel : Nat) (c : CacheReader) (off count : Nat)
    (acc : List Byte) :
    (CacheReader.readLoop fuel c off count acc).2.upstream = c.upstream ∧
    (CacheReader.readLoop fuel c off count acc).2.stringCache = c.stringCache := by
  induction fuel generalizing c off count acc with
  | zero => exact ⟨rfl, rfl⟩
  | succ fuel ih =>
    by_cases h0 : count = 0
    · subst h0; rw [CacheReader.readLoop_zero_count]; exact ⟨rfl, rfl⟩
    · obtain ⟨g2, g3, _⟩ := CacheReader.getPage_upstream c (off - off % CacheReader.PAGESIZE)
      rcases hg : c.getPage (off - off % CacheReader.PAGESIZE) with ⟨res, c1⟩
      rw [hg] at g2 g3
      cases res with
      | error e =>
        rw [CacheReader.readLoop_error fuel c c1 off count acc e h0 hg]; exact ⟨g2, g3⟩
      | ok page =>
        rw [CacheReader.readLoop_ok fuel c c1 off count acc page h0 hg]
        split
        · exact ⟨g2, g3⟩
        · obtain ⟨i2, i3⟩ := ih c1
            (wadd off (min (wsub page.len (off % CacheReader.PAGESIZE)) count))
            (count - min (wsub page.len (off % CacheReader.PAGESIZE)) count)
            (acc ++ (page.data.drop (off % CacheReader.PAGESIZE)).take
              (min (wsub page.len (off % CacheReader.PAGESIZE)) count))
          exact ⟨i2.trans g2, i3.trans g3⟩

theorem CacheReader.read_frame (c : CacheReader) (off count : Nat) :
    (c.read off count).2.upstream = c.upstream ∧
    (c.read off count).2.stringCache = c.stringCache := by
  unfold CacheReader.read
  split
  · exact ⟨rfl, rfl⟩
  · obtain ⟨h2, h3⟩ := CacheReader.readLoop_frame count c off count []
    rcases hl : CacheReader.readLoop count c off count [] with ⟨res, c1⟩
    rw [hl] at h2 h3
    cases res with
    | error e => exact ⟨h2, h3⟩
    | ok r => exact ⟨h2, h3⟩

theorem CacheReader.readStringLoop_frame (n : Nat) (c : CacheReader) (off : Nat)
    (res : List Byte) :
    (CacheReader.readStringLoop n c off res).2.upstream = c.upstream ∧
    (CacheReader.readStringLoop n c off res).2.stringCache = c.stringCache := by
  induction n generalizing c off res with
  | zero => exact ⟨rfl, rfl⟩
  | succ n ih =>
    obtain ⟨h2, h3⟩ := CacheReader.read_frame c off 1
    unfold CacheReader.readStringLoop
    rcases hr : c.read off 1 with ⟨r, c1⟩
    rw [hr] at h2 h3
    cases r with
    | error e => exact ⟨h2, h3⟩
    | ok v =>
      obtain ⟨rc, bytes⟩ := v
      simp only
      split
      · exact ⟨h2, h3⟩
      · cases bytes with
        | nil => exact ⟨h2, h3⟩
        | cons ch tl =>
          simp only
          split
          · exact ⟨h2, h3⟩
          · obtain ⟨i2, i3⟩ := ih c1 (off + 1) (res ++ [ch])
            exact ⟨i2.trans h2, i3.trans h3⟩

theorem CacheReader.readStringDefault_frame (c : CacheReader) (off : Nat) :
    (c.readStringDefault off).2.upstream = c.upstream ∧
    (c.readStringDefault off).2.stringCache = c.stringCache := by
  unfold CacheReader.readStringDefault
  split
  · exact ⟨rfl, rfl⟩
  · exact CacheReader.readStringLoop_frame _ c off []

theorem CacheReader.readString_upstream (c : CacheReader) (off : Nat) :
    (c.readString off).2.upstream = c.upstream := by
  unfold CacheReader.readString
  cases hl : c.stringCache.lookup off with
  | some v => rfl
  | none =>
    obtain ⟨h2, _⟩ := CacheReader.readStringDefault_frame c off
    rcases hr : c.readStringDefault off with ⟨r, c1⟩
    rw [hr] at h2
    cases r with
    | error e => exact h2
    | ok v => exact h2

theorem CacheReader.call_upstream (c : CacheReader) (k : CacheReader.Call) :
    (c.call k).upstream = c.upstream := by
  cases k with
  | read off count => exact (CacheReader.read_frame c off count).1
  | readString off => exact CacheReader.readString_upstream c off
  | flush => rfl

/-- The loop of `read` keeps the page-cache invariant. -/
theorem CacheReader.readLoop_pagesOK (fuel : Nat) (c : CacheReader) (off count : Nat)
    (acc : List Byte) (hu : c.upstream.Bounded) (hc : c.PagesOK) :
    (CacheReader.readLoop fuel c off count acc).2.PagesOK := by
  induction fuel generalizing c off count acc with
  | zero => exact hc
  | succ fuel ih =>
    by_cases h0 : count = 0
    · subst h0; rw [CacheReader.readLoop_zero_count]; exact hc
    · have ha : (off - off % CacheReader.PAGESIZE) % CacheReader.PAGESIZE = 0 := by
        unfold CacheReader.PAGESIZE; omega
      have g1 := CacheReader.getPage_pagesOK c _ hu ha hc
      obtain ⟨g2, _, _⟩ := CacheReader.getPage_upstream c (off - off % CacheReader.PAGESIZE)
      rcases hg : c.getPage (off - off % CacheReader.PAGESIZE) with ⟨res, c1⟩
      rw [hg] at g1 g2
      cases res with
      | error e =>
        rw [CacheReader.readLoop_error fuel c c1 off count acc e h0 hg]; exact g1
      | ok page =>
        rw [CacheReader.readLoop_ok fuel c c1 off count acc page h0 hg]
        split
        · exact g1
        · exact ih c1 _ _ _ (by rw [g2]; exact hu) g1

theorem CacheReader.read_pagesOK (c : CacheReader) (off count : Nat)
    (hu : c.upstream.Bounded) (hc : c.PagesOK) : (c.read off count).2.PagesOK := by
  unfold CacheReader.read
  split
  · exact hc
  · have h1 := CacheReader.readLoop_pagesOK count c off count [] hu hc
    rcases hl : CacheReader.readLoop count c off count [] with ⟨res, c1⟩
    rw [hl] at h1
    cases res with
    | error e => exact h1
    | ok r => exact h1

theorem CacheReader.readStringLoop_pagesOK (n : Nat) (c : CacheReader) (off : Nat)
    (res : List Byte) (hu : c.upstream.Bounded) (hc : c.PagesOK) :
    (CacheReader.readStringLoop n c off res).2.PagesOK := by
  induction n generalizing c off res with
  | zero => exact hc
  | succ n ih =>
    have h1 := CacheReader.read_pagesOK c off 1 hu hc
    obtain ⟨h2, _⟩ := CacheReader.read_frame c off 1
    unfold CacheReader.readStringLoop
    rcases hr : c.read off 1 with ⟨r, c1⟩
    rw [hr] at h1 h2
    cases r with
    | error e => exact h1
    | ok v =>
      obtain ⟨rc, bytes⟩ := v
      simp only
      split
      · exact h1
      · cases bytes with
        | nil => exact h1
        | cons ch tl =>
          simp only
          split
          · exact h1
          · exact ih c1 (off + 1) (res ++ [ch]) (by rw [h2]; exact hu) h1

theorem CacheReader.readString_pagesOK (c : CacheReader) (off : Nat)
    (hu : c.upstream.Bounded) (hc : c.PagesOK) : (c.readString off).2.PagesOK := by
  unfold CacheReader.readString
  cases hl : c.stringCache.lookup off with
  | some v => exact hc
  | none =>
    have h1 : (c.readStringDefault off).2.PagesOK := by
      unfold CacheReader.readStringDefault
      split
      · exact hc
      · exact CacheReader.readStringLoop_pagesOK _ c off [] hu hc
    rcases hr : c.readStringDefault off with ⟨r, c1⟩
    rw [hr] at h1
    cases r with
    | error e => exact h1
    | ok v => exact h1

/-- Every sequence of calls keeps the page-cache invariant. -/
theorem CacheReader.calls_pagesOK (c : CacheReader) (cs : List CacheReader.Call)
    (hu : c.upstream.Bounded) (hc : c.PagesOK) : (c.calls cs).PagesOK := by
  induction cs generalizing c with
  | nil => exact hc
  | cons k rest ih =>
    unfold CacheReader.calls
    refine ih _ (by rw [CacheReader.call_upstream]; exact hu) ?_
    cases k with
    | read off count => exact CacheReader.read_pagesOK c off count hu hc
    | readString off => exact CacheReader.readString_pagesOK c off hu hc
    | flush =>
      exact ⟨by simp [CacheReader.call, CacheReader.flush], by
        simp [CacheReader.call, CacheReader.flush, CacheReader.pageOffsets], by
        simp [CacheReader.call, CacheReader.flush]⟩

theorem MemReader_bounded (len : Nat) (data : List Byte) : (MemReader len data).Bounded := by
  intro off count bs h
  have h1 : MemReader.read len data off count = .ok bs := h
  unfold MemReader.read at h1
  split at h1
  · simp at h1
  · simp only [Except.ok.injEq] at h1
    rw [← h1, List.length_take]
    omega

theorem FileReader_bounded (data : List Byte) (fileSize : Off) :
    (FileReader (preadFile data) fileSize).Bounded := by
  intro off count bs h
  have h1 : FileReader.read (preadFile data) off count = .ok bs := h
  unfold FileReader.read preadFile at h1
  simp only at h1
  split at h1
  · simp at h1
  · simp only [Except.ok.injEq] at h1
    rw [← h1, List.length_take]
    omega

theorem CacheReader.calls_flush (c : CacheReader) (cs : List CacheReader.Call) :
    (c.calls (cs ++ [.flush])).pages = [] := by
  induction cs generalizing c with
  | nil => rfl
  | cons k rest ih => exact ih (c.call k)

/-- C16: over an upstream that keeps the contract of `read` (at most `count`
bytes), in every state reached from the constructor by any sequence of `read`,
`readString` and `flush` calls, whatever they return or throw, the page list
holds at most 16 pages, their offsets are pairwise distinct, every offset is a
multiple of 256 and every `len` is at most 256; and after a `flush()` at the end
of any such sequence the list is empty. -/
theorem C16_page_cache_invariant (u : Reader) (uninit : List Byte) (hu : u.Bounded)
    (cs : List CacheReader.Call) :
    ((CacheReader.new u uninit).calls cs).pages.length ≤ 16 ∧
    (((CacheReader.new u uninit).calls cs).pages.map (fun p => p.offset)).Nodup ∧
    (∀ p ∈ ((CacheReader.new u uninit).calls cs).pages, p.offset % 256 = 0 ∧ p.len ≤ 256) ∧
    ((CacheReader.new u uninit).calls (cs ++ [.flush])).pages = [] := by
  have h := CacheReader.calls_pagesOK (CacheReader.new u uninit) cs hu
    ⟨by simp [CacheReader.new], by simp [CacheReader.new, CacheReader.pageOffsets],
      by simp [CacheReader.new]⟩
  exact ⟨h.1, h.2.1, h.2.2, CacheReader.calls_flush _ cs⟩

set_option maxRecDepth 100000 in
/-- C16 (witness): a file of 600 bytes; the read at 900 throws in the page load. -/
theorem C16_page_cache_invariant_witness :
    ((CacheReader.new (FileReader (preadFile (testBytes 600)) 600) []).calls
      [.read 10 5, .readString 3, .read 900 4, .read 300 4]).pages.length ≤ 16 ∧
    (((CacheReader.new (FileReader (preadFile (testBytes 600)) 600) []).calls
      [.read 10 5, .readString 3, .read 900 4, .read 300 4]).pages.map
        (fun p => p.offset)).Nodup ∧
    (∀ p ∈ ((CacheReader.new (FileReader (preadFile (testBytes 600)) 600) []).calls
      [.read 10 5, .readString 3, .read 900 4, .read 300 4]).pages,
        p.offset % 256 = 0 ∧ p.len ≤ 256) ∧
    ((CacheReader.new (FileReader (preadFile (testBytes 600)) 600) []).calls
      ([.read 10 5, .readString 3, .read 900 4, .read 300 4] ++ [.flush])).pages = [] :=
  C16_page_cache_invariant (FileReader (preadFile (testBytes 600)) 600) []
    (FileReader_bounded _ _) [.read 10 5, .readString 3, .read 900 4, .read 300 4]

theorem CacheReader.readString_cached (c : CacheReader) (off : Off) (v : List Byte)
    (h : c.stringCache.lookup off = some v) : c.readString off = (.ok v, c) := by
  unfold CacheReader.readString
  rw [h]

/-- What `readString` records: a returned value is the entry of its offset. -/
theorem CacheReader.readString_records (c c1 : CacheReader) (off : Off) (v : List Byte)
    (h : c.readString off = (.ok v, c1)) : c1.stringCache.lookup off = some v := by
  unfold CacheReader.readString at h
  cases hl : c.stringCache.lookup off with
  | some w =>
    rw [hl] at h
    simp only [Prod.mk.injEq, Except.ok.injEq] at h
    rw [← h.2, ← h.1]; exact hl
  | none =>
    rw [hl] at h
    rcases hr : c.readStringDefault off with ⟨r, c2⟩
    rw [hr] at h
    cases r with
    | error e => simp at h
    | ok w =>
      simp only [Prod.mk.injEq, Except.ok.injEq] at h
      rw [← h.2, ← h.1]
      simp [List.lookup]

/-- No call removes or changes an entry of the string cache. -/
theorem CacheReader.call_lookup (c : CacheReader) (k : CacheReader.Call) (off : Off)
    (v : List Byte) (h : c.stringCache.lookup off = some v) :
    (c.call k).stringCache.lookup off = some v := by
  cases k with
  | read o count =>
    show (c.read o count).2.stringCache.lookup off = some v
    rw [(CacheReader.read_frame c o count).2]; exact h
  | flush => exact h
  | readString o =>
    show (c.readString o).2.stringCache.lookup off = some v
    unfold CacheReader.readString
    cases hl : c.stringCache.lookup o with
    | some w => exact h
    | none =>
      obtain ⟨_, h3⟩ := CacheReader.readStringDefault_frame c o
      rcases hr : c.readStringDefault o with ⟨r, c2⟩
      rw [hr] at h3
      cases r with
      | error e => show c2.stringCache.lookup off = some v; rw [h3]; exact h
      | ok w =>
        show List.lookup off ((o, w) :: c2.stringCache) = some v
        have hne : off ≠ o := by
          intro he; rw [he, hl] at h; simp at h
        rw [List.lookup_cons, beq_false_of_ne hne, h3]
        exact h

theorem CacheReader.calls_lookup (c : CacheReader) (cs : List CacheReader.Call) (off : Off)
    (v : List Byte) (h : c.stringCache.lookup off = some v) :
    (c.calls cs).stringCache.lookup off = some v := by
  induction cs generalizing c with
  | nil => exact h
  | cons k rest ih => exact ih (c.call k) (CacheReader.call_lookup c k off v h)

/-- C17: in every state of a `CacheReader` and for every offset, a
`readString(off)` that finds no entry returns what `Reader::readString(off)`
returns when run through the `read` of the cache reader; and once a
`readString(off)` has returned a value `v`, the value is recorded, and after any
sequence of further `read`, `readString` and `flush` calls (so whatever pages are
loaded, evicted or flushed) `readString(off)` returns `v` and leaves the state as
it is, whatever the upstream is replaced with: it makes no upstream read. -/
theorem C17_string_cache (c : CacheReader) (off : Off) :
    (c.stringCache.lookup off = none →
      (c.readString off).1 = (c.readStringDefault off).1) ∧
    ∀ (v : List Byte) (c1 : CacheReader), c.readString off = (.ok v, c1) →
      c1.stringCache.lookup off = some v ∧
      ∀ (cs : List CacheReader.Call) (u : Reader),
        ({ c1.calls cs with upstream := u }).readString off
          = (.ok v, { c1.calls cs with upstream := u }) := by
  refine ⟨fun hl => ?_, fun v c1 h => ?_⟩
  · unfold CacheReader.readString
    rw [hl]
    rcases hr : c.readStringDefault off with ⟨r, c2⟩
    cases r <;> rfl
  · have h1 := CacheReader.readString_records c c1 off v h
    exact ⟨h1, fun cs u => CacheReader.readString_cached _ off v
      (CacheReader.calls_lookup c1 cs off v h1)⟩

/-- C17 (witness): the string `hi` at offset 3 of a memory reader; after a flush,
a read and another `readString`, and with the upstream replaced by a
`NullReader`, whose every read throws, `readString(3)` still returns it. -/
theorem C17_string_cache_witness :
    ∃ c1, (CacheReader.new (MemReader 8 [0, 1, 2, 104, 105, 0, 3, 4]) []).readString 3
        = (.ok [104, 105], c1) ∧
      (({ c1.calls [.flush, .read 0 4, .readString 6] with upstream := NullReader }).readString
        3).1 = .ok [104, 105] :=
  ⟨_, rfl, by
    rw [((C17_string_cache (CacheReader.new (MemReader 8 [0, 1, 2, 104, 105, 0, 3, 4]) []) 3).2
      [104, 105] _ rfl).2 [.flush, .read 0 4, .readString 6] NullReader]⟩

/-- One `getPage` whose load succeeds is one step of strict LRU on the offsets. -/
theorem CacheReader.getPage_lru (c : CacheReader) (pageoff : Off)
    (hlen : c.pages.length ≤ CacheReader.MAXPAGES)
    (hload : ∃ bs, c.upstream.read pageoff CacheReader.PAGESIZE = .ok bs) :
    (c.getPage pageoff).2.pageOffsets = lruTouch c.pageOffsets pageoff ∧
    (c.getPage pageoff).2.pages.length ≤ CacheReader.MAXPAGES := by
  have hol : c.pageOffsets.length = c.pages.length := by simp [CacheReader.pageOffsets]
  by_cases hin : pageoff ∈ c.pageOffsets
  · obtain ⟨g1, _, _, g4⟩ := CacheReader.getPage_hit c pageoff hin
    refine ⟨?_, by rw [g4.length_eq]; exact hlen⟩
    rw [g1, lruTouch, List.take_of_length_le]
    rw [List.length_cons, List.length_erase_of_mem hin]
    have : 0 < c.pageOffsets.length := List.length_pos_of_mem hin
    omega
  · obtain ⟨_, g2, g3⟩ := CacheReader.getPage_miss c pageoff hin
    obtain ⟨bs, hbs⟩ := hload
    obtain ⟨page, hpage⟩ := CacheReader.getPage_ok_of_read_ok c pageoff bs hbs
    obtain ⟨_, _, r2, _⟩ := g3 page hpage
    rw [hpage] at g2
    unfold lruTouch
    rw [List.erase_of_not_mem hin]
    unfold CacheReader.pageOffsets
    rw [g2]
    simp only [List.singleton_append, List.map_cons, List.length_cons, r2]
    have h16 : CacheReader.MAXPAGES = 15 + 1 := rfl
    rw [h16, List.take_succ_cons]
    by_cases hfull : c.pages.length = 15 + 1
    · rw [if_pos hfull, List.map_dropLast, List.dropLast_eq_take, List.length_map, hfull,
        List.length_dropLast, hfull]
      exact ⟨rfl, by omega⟩
    · rw [if_neg hfull, List.take_of_length_le (by rw [List.length_map]; omega)]
      exact ⟨rfl, by omega⟩

theorem CacheReader.getPages_upstream (c : CacheReader) (accesses : List Off) :
    (c.getPages accesses).upstream = c.upstream := by
  induction accesses generalizing c with
  | nil => rfl
  | cons p rest ih =>
    exact (ih (c.getPage p).2).trans (CacheReader.getPage_upstream c p).1

/-- A sequence of `getPage` calls whose loads succeed refines strict LRU. -/
theorem CacheReader.getPages_lru (c : CacheReader) (accesses : List Off)
    (hlen : c.pages.length ≤ CacheReader.MAXPAGES)
    (hload : ∀ p ∈ accesses, ∃ bs, c.upstream.read p CacheReader.PAGESIZE = .ok bs) :
    (c.getPages accesses).pageOffsets = accesses.foldl lruTouch c.pageOffsets := by
  induction accesses generalizing c with
  | nil => rfl
  | cons p rest ih =>
    obtain ⟨h1, h2⟩ := CacheReader.getPage_lru c p hlen (hload p (List.mem_cons_self _ _))
    rw [CacheReader.getPages, List.foldl_cons, ← h1]
    exact ih _ h2 (fun q hq => by
      rw [(CacheReader.getPage_upstream c p).1]
      exact hload q (List.mem_cons_of_mem _ hq))

theorem CacheReader.readLoopReads_zero_count (fuel : Nat) (c : CacheReader) (off : Nat) :
    CacheReader.readLoopReads fuel c off 0 = [] := by
  cases fuel <;> simp [CacheReader.readLoopReads]

theorem CacheReader.readLoopReads_succ (fuel : Nat) (c : CacheReader) (off count : Nat)
    (h0 : count ≠ 0) :
    CacheReader.readLoopReads (fuel + 1) c off count =
      c.getPageReads (off - off % CacheReader.PAGESIZE) ++
        match c.getPage (off - off % CacheReader.PAGESIZE) with
        | (.error _, _) => []
        | (.ok page, c1) =>
          if page.len ≠ CacheReader.PAGESIZE then []
          else CacheReader.readLoopReads fuel c1
            (wadd off (min (wsub page.len (off % CacheReader.PAGESIZE)) count))
            (count - min (wsub page.len (off % CacheReader.PAGESIZE)) count) := by
  rw [CacheReader.readLoopReads, if_neg h0]

/-- A read of fewer than `PAGESIZE` bytes that lies inside one page is one
`getPage` of that page. -/
theorem CacheReader.read_single_page (c : CacheReader) (off count : Nat)
    (h0 : 0 < count) (hin : off % CacheReader.PAGESIZE + count ≤ CacheReader.PAGESIZE)
    (hlt : count < CacheReader.PAGESIZE) :
    (c.read off count).2 = (c.getPage (off - off % CacheReader.PAGESIZE)).2 ∧
    c.readReads off count = c.getPageReads (off - off % CacheReader.PAGESIZE) := by
  obtain ⟨n, rfl⟩ : ∃ n, count = n + 1 := ⟨count - 1, by omega⟩
  unfold CacheReader.read CacheReader.readReads
  rw [if_neg (by omega), if_neg (by omega),
    CacheReader.readLoopReads_succ n c off (n + 1) (by omega)]
  rcases hg : c.getPage (off - off % CacheReader.PAGESIZE) with ⟨res, c1⟩
  cases res with
  | error e =>
    rw [CacheReader.readLoop_error n c c1 off (n + 1) [] e (by omega) hg]
    exact ⟨rfl, List.append_nil _⟩
  | ok page =>
    rw [CacheReader.readLoop_ok n c c1 off (n + 1) [] page (by omega) hg]
    by_cases hp : page.len = CacheReader.PAGESIZE
    · have hchunk : min (wsub page.len (off % CacheReader.PAGESIZE)) (n + 1) = n + 1 := by
        rw [hp]; unfold wsub; unfold CacheReader.PAGESIZE at *; omega
      rw [if_neg (not_not.mpr hp), hchunk, Nat.sub_self, CacheReader.readLoop_zero_count]
      simp only
      rw [if_neg (not_not.mpr hp), hchunk, Nat.sub_self, CacheReader.readLoopReads_zero_count]
      exact ⟨trivial, List.append_nil _⟩
    · rw [if_pos hp]
      simp only
      rw [if_pos hp]
      exact ⟨trivial, List.append_nil _⟩

/-- Reads of one byte at page-aligned offsets are `getPage` calls. -/
theorem CacheReader.reads_single_pages (c : CacheReader) (ps : List Off)
    (ha : ∀ p ∈ ps, p % CacheReader.PAGESIZE = 0) :
    c.reads (ps.map (fun p => (p, 1))) = c.getPages ps := by
  induction ps generalizing c with
  | nil => rfl
  | cons p rest ih =>
    have hp := ha p (List.mem_cons_self _ _)
    have h1 := (CacheReader.read_single_page c p 1 (by decide) (by rw [hp]; decide)
      (by decide)).1
    rw [hp, Nat.sub_zero] at h1
    rw [List.map_cons, CacheReader.reads, CacheReader.getPages, h1]
    exact ih _ (fun q hq => ha q (List.mem_cons_of_mem _ hq))

/-- Strict LRU over accesses to distinct pages keeps the last `MAXPAGES` of
them, the latest first. -/
theorem lruOrder_nodup (ps : List Off) (hnd : ps.Nodup) :
    lruOrder ps = ps.reverse.take CacheReader.MAXPAGES := by
  induction ps using List.reverseRecOn with
  | nil => rfl
  | append_singleton ps p ih =>
    have hnd1 : ps.Nodup := (List.nodup_append.mp hnd).1
    have hp : p ∉ ps := by
      intro hx
      exact (List.nodup_append.mp hnd).2.2 hx (List.mem_singleton_self p)
    have hp1 : p ∉ ps.reverse.take CacheReader.MAXPAGES :=
      fun hx => hp (List.mem_reverse.mp (List.mem_of_mem_take hx))
    unfold lruOrder at ih ⊢
    rw [List.foldl_append, List.foldl_cons, List.foldl_nil, ih hnd1, lruTouch,
      List.erase_of_not_mem hp1, List.reverse_append, List.reverse_singleton,
      List.singleton_append]
    have h16 : CacheReader.MAXPAGES = 15 + 1 := rfl
    rw [h16, List.take_succ_cons, List.take_succ_cons, List.take_take]
    simp

theorem MemReader_read_ok (len : Nat) (data : List Byte) (off count : Nat) (h : off ≤ len) :
    ∃ bs, (MemReader len data).read off count = .ok bs := by
  show ∃ bs, MemReader.read len data off count = .ok bs
  unfold MemReader.read
  rw [if_neg (Nat.not_lt.mpr h)]
  exact ⟨_, rfl⟩

/-- C15: eviction is strict LRU. From an empty cache, after any sequence of
`getPage` calls whose loads succeed, the offsets of the page list, front first,
are the strict LRU order of the accesses (most recent first, the 16 most
recently accessed pages). In every state, a hit moves the page to the front,
keeps the others in order and reads nothing from upstream; a miss at capacity
makes exactly one upstream read and drops exactly the last page of the list,
the one accessed longest ago. And after one-byte reads touching 17 distinct
pages `p0..p16` in order, the cache holds exactly `p16, ..., p1`; reading any of
`p1..p16` again makes no upstream read, and reading `p0` again makes exactly
one, of `PAGESIZE` bytes at `p0`. -/
theorem C15_strict_lru (u : Reader) (uninit : List Byte) (accesses : List Off)
    (hload : ∀ p ∈ accesses, ∃ bs, u.read p CacheReader.PAGESIZE = .ok bs) :
    ((CacheReader.new u uninit).getPages accesses).pageOffsets = lruOrder accesses ∧
    (∀ (c : CacheReader) (p : Off), p ∈ c.pageOffsets →
      (c.getPage p).2.pageOffsets = p :: c.pageOffsets.erase p ∧ c.getPageReads p = []) ∧
    (∀ (c : CacheReader) (p : Off), p ∉ c.pageOffsets →
      c.pages.length = CacheReader.MAXPAGES →
      c.getPageReads p = [(p, CacheReader.PAGESIZE)] ∧
      (c.getPage p).2.pageOffsets =
        (match (c.getPage p).1 with
          | .ok _ => [p]
          | .error _ => []) ++ c.pageOffsets.dropLast) ∧
    (accesses.length = 17 → accesses.Nodup →
      (∀ p ∈ accesses, p % CacheReader.PAGESIZE = 0) →
      ((CacheReader.new u uninit).reads (accesses.map (fun p => (p, 1)))).pageOffsets
        = (accesses.drop 1).reverse ∧
      (∀ p ∈ accesses.drop 1,
        ((CacheReader.new u uninit).reads (accesses.map (fun p => (p, 1)))).readReads p 1
          = []) ∧
      ∀ p0, accesses.head? = some p0 →
        ((CacheReader.new u uninit).reads (accesses.map (fun p => (p, 1)))).readReads p0 1
          = [(p0, CacheReader.PAGESIZE)]) := by
  have hA : ((CacheReader.new u uninit).getPages accesses).pageOffsets = lruOrder accesses :=
    CacheReader.getPages_lru (CacheReader.new u uninit) accesses (by simp [CacheReader.new])
      hload
  refine ⟨hA, fun c p hp => ?_, fun c p hp hfull => ?_, fun hlen hnd ha => ?_⟩
  · obtain ⟨g1, g2, _, _⟩ := CacheReader.getPage_hit c p hp
    exact ⟨g1, g2⟩
  · obtain ⟨g1, g2, g3⟩ := CacheReader.getPage_miss c p hp
    refine ⟨g1, ?_⟩
    unfold CacheReader.pageOffsets
    rw [g2, if_pos hfull, List.map_append, List.map_dropLast]
    cases hres : (c.getPage p).1 with
    | error e => rfl
    | ok page =>
      obtain ⟨_, _, r2, _⟩ := g3 page hres
      simp [r2]
  · have hst := CacheReader.reads_single_pages (CacheReader.new u uninit) accesses ha
    have hoffs : ((CacheReader.new u uninit).reads (accesses.map (fun p => (p, 1)))).pageOffsets
        = (accesses.drop 1).reverse := by
      rw [hst, hA, lruOrder_nodup accesses hnd, List.take_reverse, hlen]
      rfl
    have hrr : ∀ p ∈ accesses,
        ((CacheReader.new u uninit).reads (accesses.map (fun p => (p, 1)))).readReads p 1
          = ((CacheReader.new u uninit).reads (accesses.map (fun p => (p, 1)))).getPageReads p := by
      intro p hp
      have h1 := (CacheReader.read_single_page
        ((CacheReader.new u uninit).reads (accesses.map (fun p => (p, 1)))) p 1 (by decide)
        (by rw [ha p hp]; decide) (by decide)).2
      rw [ha p hp, Nat.sub_zero] at h1
      exact h1
    refine ⟨hoffs, fun p hp => ?_, fun p0 hp0 => ?_⟩
    · rw [hrr p (List.mem_of_mem_drop hp)]
      exact (CacheReader.getPage_hit _ p (by rw [hoffs]; exact List.mem_reverse.mpr hp)).2.1
    · cases accesses with
      | nil => simp at hp0
      | cons a tl =>
        simp only [List.head?_cons, Option.some.injEq] at hp0
        subst hp0
        rw [hrr a (List.mem_cons_self _ _)]
        refine (CacheReader.getPage_miss _ a ?_).1
        rw [hoffs]
        simp only [List.drop_succ_cons, List.drop_zero, List.mem_reverse]
        exact (List.nodup_cons.mp hnd).1

/-- C15 (witness): the 17 pages of a memory reader of `17 * 256` bytes. -/
theorem C15_strict_lru_witness :
    ((CacheReader.new (MemReader 4352 (testBytes 4352)) []).reads
      [(0, 1), (256, 1), (512, 1), (768, 1), (1024, 1), (1280, 1), (1536, 1), (1792, 1),
        (2048, 1), (2304, 1), (2560, 1), (2816, 1), (3072, 1), (3328, 1), (3584, 1),
        (3840, 1), (4096, 1)]).pageOffsets
      = [4096, 3840, 3584, 3328, 3072, 2816, 2560, 2304, 2048, 1792, 1536, 1280, 1024, 768,
        512, 256] ∧
    ((CacheReader.new (MemReader 4352 (testBytes 4352)) []).reads
      [(0, 1), (256, 1), (512, 1), (768, 1), (1024, 1), (1280, 1), (1536, 1), (1792, 1),
        (2048, 1), (2304, 1), (2560, 1), (2816, 1), (3072, 1), (3328, 1), (3584, 1),
        (3840, 1), (4096, 1)]).readReads 256 1 = [] ∧
    ((CacheReader.new (MemReader 4352 (testBytes 4352)) []).reads
      [(0, 1), (256, 1), (512, 1), (768, 1), (1024, 1), (1280, 1), (1536, 1), (1792, 1),
        (2048, 1), (2304, 1), (2560, 1), (2816, 1), (3072, 1), (3328, 1), (3584, 1),
        (3840, 1), (4096, 1)]).readReads 0 1 = [(0, 256)] :=
  have h := (C15_strict_lru (MemReader 4352 (testBytes 4352)) []
    [0, 256, 512, 768, 1024, 1280, 1536, 1792, 2048, 2304, 2560, 2816, 3072, 3328, 3584,
      3840, 4096]
    (fun p hp => MemReader_read_ok _ _ p _ (by revert p; decide))).2.2.2 rfl (by decide)
      (by decide)
  ⟨h.1, h.2.1 256 (by decide), h.2.2 0 rfl⟩

/-! ## Theorems: LEB128 -/

theorem byte_and_7f (b : Byte) : b.val &&& 0x7f = b.val % 128 :=
  Nat.and_pow_two_sub_one_eq_mod b.val 7

set_option maxRecDepth 100000 in
theorem byte_and_80 : ∀ b : Byte, (b.val &&& 0x80 = 0) = (b.val < 128) := by decide

set_option maxRecDepth 100000 in
theorem byte_and_40 : ∀ b : Byte, (b.val &&& 0x40 ≠ 0) = (64 ≤ b.val % 128) := by decide

theorem or_eq_add_of_dvd (r X s : Nat) (hr : r < 2 ^ s) (hX : 2 ^ s ∣ X) : r ||| X = r + X := by
  obtain ⟨q, rfl⟩ := hX
  rw [Nat.lor_comm, ← Nat.mul_add_lt_is_or hr q, Nat.add_comm]

theorem dvd_mod_two_pow (X s : Nat) (hs : s ≤ 64) (hX : 2 ^ s ∣ X) : 2 ^ s ∣ X % 2 ^ 64 :=
  (Nat.dvd_mod_iff (Nat.pow_dvd_pow 2 hs)).mpr hX

theorem leb128_group_arith (j result g : Nat) (hj : j ≤ 9) (hr : result < 2 ^ (7 * j))
    (hg : g < 128) :
    result + (g * 2 ^ (7 * j)) % 2 ^ 64 = (result + g * 2 ^ (7 * j)) % 2 ^ 64 ∧
    (j ≤ 8 → (result + g * 2 ^ (7 * j)) % 2 ^ 64 = result + g * 2 ^ (7 * j) ∧
      result + g * 2 ^ (7 * j) < 2 ^ (7 * (j + 1))) := by
  interval_cases j <;> simp only [Nat.reduceMul, Nat.reducePow, Nat.reduceAdd] at hr ⊢ <;> omega

theorem leb128_sign_mask (j : Nat) (hj : j ≤ 8) :
    ((2 ^ 64 - 1) <<< (7 * j + 7)) % 2 ^ 64 = 2 ^ 64 - 2 ^ (7 * (j + 1)) := by
  interval_cases j <;> decide

/-- One round of the loop of `readleb128`, in arithmetic: at shift `7 * j`, with
the groups so far below `2 ^ (7 * j)`. -/
theorem readleb128Loop_step (signed : Bool) (b : Byte) (rest : List Byte) (result j n : Nat)
    (hj : j ≤ 9) (hr : result < 2 ^ (7 * j)) :
    readleb128Loop signed (b :: rest) result (7 * j) n =
      if b.val < 128 then
        .ok (if signed = true ∧ j ≤ 8 ∧ 64 ≤ b.val % 128 then
            (result + b.val % 128 * 2 ^ (7 * j)) % 2 ^ 64 + (2 ^ 64 - 2 ^ (7 * (j + 1)))
          else (result + b.val % 128 * 2 ^ (7 * j)) % 2 ^ 64, n + 1)
      else readleb128Loop signed rest ((result + b.val % 128 * 2 ^ (7 * j)) % 2 ^ 64)
        (7 * (j + 1)) (n + 1) := by
  have hg : b.val % 128 < 128 := Nat.mod_lt _ (by decide)
  obtain ⟨a1, a2⟩ := leb128_group_arith j result (b.val % 128) hj hr hg
  have hor : result ||| ((b.val &&& 0x7f) <<< (7 * j)) % 2 ^ 64
      = (result + b.val % 128 * 2 ^ (7 * j)) % 2 ^ 64 := by
    rw [byte_and_7f, Nat.shiftLeft_eq, or_eq_add_of_dvd _ _ (7 * j) hr
      (dvd_mod_two_pow _ _ (by omega) (Nat.dvd_mul_left _ _)), a1]
  conv_lhs => unfold readleb128Loop
  rw [if_neg (by omega)]
  simp only [hor, byte_and_80, byte_and_40]
  by_cases hb : b.val < 128
  · rw [if_pos hb, if_pos hb]
    by_cases hs : signed = true ∧ j ≤ 8 ∧ 64 ≤ b.val % 128
    · rw [if_pos hs, if_pos ⟨hs.1, by omega, hs.2.2⟩]
      obtain ⟨a3, a4⟩ := a2 hs.2.1
      rw [leb128_sign_mask j hs.2.1, or_eq_add_of_dvd _ _ (7 * (j + 1)) (by rw [a3]; exact a4)
        (Nat.dvd_sub' (Nat.pow_dvd_pow 2 (by omega)) (dvd_refl _))]
    · rw [if_neg hs, if_neg (by intro h; exact hs ⟨h.1, by omega, h.2.2⟩)]
  · rw [if_neg hb, if_neg hb, show 7 * j + 7 = 7 * (j + 1) by ring]

theorem leb128Sum_zero (b : Byte) (rest : List Byte) :
    leb128Sum (b :: rest) 0 = b.val % 128 := by
  simp [leb128Sum, byte_and_7f]

theorem leb128Sum_succ (b : Byte) (rest : List Byte) (k : Nat) :
    leb128Sum (b :: rest) (k + 1) = b.val % 128 + 128 * leb128Sum rest k := by
  unfold leb128Sum
  rw [Finset.sum_range_succ', Finset.mul_sum, Nat.add_comm]
  congr 1
  · simp [byte_and_7f]
  · refine Finset.sum_congr rfl (fun i _ => ?_)
    rw [List.getD_cons_succ, Nat.mul_add, pow_add]
    ring

theorem leb128Sum_lt (bs : List Byte) (k : Nat) : leb128Sum bs k < 2 ^ (7 * (k + 1)) := by
  induction k generalizing bs with
  | zero =>
    unfold leb128Sum
    simp only [zero_add, Finset.range_one, Finset.sum_singleton, Nat.mul_zero, pow_zero,
      Nat.mul_one, byte_and_7f]
    omega
  | succ k ih =>
    cases bs with
    | nil =>
      have h0 : leb128Sum [] (k + 1) = 0 := by
        unfold leb128Sum
        refine Finset.sum_eq_zero (fun i _ => ?_)
        simp
      rw [h0]; exact Nat.two_pow_pos _
    | cons b rest =>
      rw [leb128Sum_succ]
      have h1 := ih rest
      have h2 : 2 ^ (7 * (k + 1 + 1)) = 128 * 2 ^ (7 * (k + 1)) := by
        rw [show 7 * (k + 1 + 1) = 7 + 7 * (k + 1) by ring, pow_add]; rfl
      rw [h2]
      omega

/-- The loop of `readleb128` on a sequence whose first byte with bit 7 clear is at
index `k`, started at shift `7 * j` with `j + k <= 9`, so that every shift count
is below 64. -/
theorem readleb128Loop_spec (signed : Bool) (k : Nat) :
    ∀ (bs : List Byte) (j result n : Nat), k < bs.length →
      (∀ i < k, 128 ≤ (bs.getD i 0).val) → (bs.getD k 0).val < 128 →
      j + k ≤ 9 → result < 2 ^ (7 * j) →
      readleb128Loop signed bs result (7 * j) n =
        .ok (if signed = true ∧ j + k ≤ 8 ∧ 64 ≤ (bs.getD k 0).val % 128 then
            (result + leb128Sum bs k * 2 ^ (7 * j)) % 2 ^ 64 + (2 ^ 64 - 2 ^ (7 * (j + k + 1)))
          else (result + leb128Sum bs k * 2 ^ (7 * j)) % 2 ^ 64, n + k + 1) := by
  induction k with
  | zero =>
    intro bs j result n hk _ hterm hj hr
    cases bs with
    | nil => simp at hk
    | cons b rest =>
      simp only [List.getD_cons_zero] at hterm
      rw [readleb128Loop_step signed b rest result j n (by omega) hr, if_pos hterm,
        leb128Sum_zero]
      simp only [List.getD_cons_zero, Nat.add_zero]
  | succ k ih =>
    intro bs j result n hk hcont hterm hj hr
    cases bs with
    | nil => simp at hk
    | cons b rest =>
      have hb : ¬ b.val < 128 := by
        have := hcont 0 (by omega)
        simp only [List.getD_cons_zero] at this
        omega
      have hg : b.val % 128 < 128 := Nat.mod_lt _ (by decide)
      obtain ⟨_, a2⟩ := leb128_group_arith j result (b.val % 128) (by omega) hr hg
      obtain ⟨a3, a4⟩ := a2 (by omega)
      simp only [List.getD_cons_succ] at hterm
      rw [readleb128Loop_step signed b rest result j n (by omega) hr, if_neg hb, a3,
        ih rest (j + 1) _ (n + 1) (by simpa using hk)
          (fun i hi => by simpa using hcont (i + 1) (by omega)) hterm (by omega) a4,
        leb128Sum_succ, List.getD_cons_succ]
      have e1 : j + 1 + k = j + (k + 1) := by omega
      have e2 : n + 1 + k + 1 = n + (k + 1) + 1 := by omega
      have e3 : result + b.val % 128 * 2 ^ (7 * j) + leb128Sum rest k * 2 ^ (7 * (j + 1))
          = result + (b.val % 128 + 128 * leb128Sum rest k) * 2 ^ (7 * j) := by
        rw [show 7 * (j + 1) = 7 * j + 7 by ring, pow_add]
        ring
      rw [e1, e2, e3]

theorem List.getD_of_take_eq (bs bs' : List Byte) (k i : Nat)
    (h : bs'.take (k + 1) = bs.take (k + 1)) (hi : i ≤ k) : bs'.getD i 0 = bs.getD i 0 := by
  have h1 := congrArg (fun l => l[i]?) h
  simp only [List.getElem?_take, show i < k + 1 by omega, if_true] at h1
  rw [List.getD_eq_getElem?_getD, List.getD_eq_getElem?_getD, h1]

theorem leb128Sum_congr (bs bs' : List Byte) (k : Nat)
    (h : bs'.take (k + 1) = bs.take (k + 1)) : leb128Sum bs' k = leb128Sum bs k := by
  unfold leb128Sum
  refine Finset.sum_congr rfl (fun i hi => ?_)
  rw [List.getD_of_take_eq bs bs' k i h (by have := Finset.mem_range.mp hi; omega)]

/-- The pattern `readleb128` returns on a sequence whose first byte with bit 7
clear is at index `k <= 9`. -/
theorem readleb128Loop_start (signed : Bool) (bs : List Byte) (k : Nat) (hk : k < bs.length)
    (hcont : ∀ i < k, (bs.getD i 0).val &&& 0x80 ≠ 0)
    (hterm : (bs.getD k 0).val &&& 0x80 = 0) (h9 : k ≤ 9) :
    readleb128Loop signed bs 0 0 0 =
      .ok (if signed = true ∧ 7 * (k + 1) < 64 ∧ (bs.getD k 0).val &&& 0x40 ≠ 0 then
          leb128Sum bs k % 2 ^ 64 ||| (2 ^ 64 - 2 ^ (7 * (k + 1)))
        else leb128Sum bs k % 2 ^ 64, k + 1) := by
  have h1 := readleb128Loop_spec signed k bs 0 0 0 hk
    (fun i hi => by
      have := hcont i hi
      rw [Ne, byte_and_80] at this
      omega)
    (by rw [byte_and_80] at hterm; exact hterm) (by omega) (by decide)
  simp only [Nat.mul_zero, pow_zero, Nat.mul_one, Nat.zero_add] at h1
  rw [h1]
  have hlt := leb128Sum_lt bs k
  by_cases hs : signed = true ∧ 7 * (k + 1) < 64 ∧ (bs.getD k 0).val &&& 0x40 ≠ 0
  · have hs1 : signed = true ∧ k ≤ 8 ∧ 64 ≤ (bs.getD k 0).val % 128 :=
      ⟨hs.1, by omega, by rw [← byte_and_40]; exact hs.2.2⟩
    have hle : 2 ^ (7 * (k + 1)) ≤ 2 ^ 64 := Nat.pow_le_pow_right (by decide) (by omega)
    have hmod : leb128Sum bs k % 2 ^ 64 = leb128Sum bs k := Nat.mod_eq_of_lt (by omega)
    rw [if_pos hs, if_pos hs1, hmod, or_eq_add_of_dvd _ _ (7 * (k + 1)) hlt
      (Nat.dvd_sub' (Nat.pow_dvd_pow 2 (by omega)) (dvd_refl _))]
  · have hs1 : ¬ (signed = true ∧ k ≤ 8 ∧ 64 ≤ (bs.getD k 0).val % 128) := by
      intro h
      exact hs ⟨h.1, by omega, by rw [byte_and_40]; exact h.2.2⟩
    rw [if_neg hs, if_neg hs1]

/-- C19 (as stated, refuted): in the eleven bytes `0x80` (ten times), `0x01` the
first byte with bit 7 clear is at index 10. The sum of the groups is `2^70`, so
the claim has `readleb128<uintmax_t>` return `(0, 11)`; but the eleventh round
evaluates `T(byte & 0x7f) << shift` with `shift == 70`, a shift count above the
width of `T`, for which C++ defines no result. -/
theorem C19_overlong_counterexample :
    (∀ i < 10, (([0x80, 0x80, 0x80, 0x80, 0x80, 0x80, 0x80, 0x80, 0x80, 0x80, 0x01] :
      List Byte).getD i 0).val &&& 0x80 ≠ 0) ∧
    (([0x80, 0x80, 0x80, 0x80, 0x80, 0x80, 0x80, 0x80, 0x80, 0x80, 0x01] :
      List Byte).getD 10 0).val &&& 0x80 = 0 ∧
    readleb128 .uintmax_t [0x80, 0x80, 0x80, 0x80, 0x80, 0x80, 0x80, 0x80, 0x80, 0x80, 0x01]
      = .error .shiftTooLarge ∧
    MemReader.readULEB128 [0x80, 0x80, 0x80, 0x80, 0x80, 0x80, 0x80, 0x80, 0x80, 0x80, 0x01] 0
      = .error .shiftTooLarge := by
  refine ⟨by decide, by decide, by decide, by decide⟩

/-- C19 (amended): for every byte sequence whose first byte with bit 7 clear is
at index `k <= 9` (so that every shift count is below 64),
`readleb128<uintmax_t>`, and `MemReader::readULEB128` at the offset of the
sequence in memory, return the sum over `i` in `0..k` of `(b_i & 0x7f) * 2^(7i)`
reduced modulo `2^64`, together with the count `k + 1`; and every sequence with
the same first `k + 1` bytes gives the same result. -/
theorem C19_unsigned_decoding (bs : List Byte) (k : Nat) (hk : k < bs.length)
    (hcont : ∀ i < k, (bs.getD i 0).val &&& 0x80 ≠ 0)
    (hterm : (bs.getD k 0).val &&& 0x80 = 0) (h9 : k ≤ 9) :
    readleb128 .uintmax_t bs = .ok (((leb128Sum bs k % 2 ^ 64 : Nat) : Int), k + 1) ∧
    (∀ pre : List Byte, MemReader.readULEB128 (pre ++ bs) pre.length
      = .ok (((leb128Sum bs k % 2 ^ 64 : Nat) : Int), k + 1)) ∧
    ∀ bs' : List Byte, bs'.take (k + 1) = bs.take (k + 1) →
      readleb128 .uintmax_t bs' = readleb128 .uintmax_t bs := by
  have main : ∀ (l : List Byte), k < l.length → (∀ i < k, (l.getD i 0).val &&& 0x80 ≠ 0) →
      (l.getD k 0).val &&& 0x80 = 0 →
      readleb128 .uintmax_t l = .ok (((leb128Sum l k % 2 ^ 64 : Nat) : Int), k + 1) := by
    intro l h1 h2 h3
    unfold readleb128
    rw [show IntType.uintmax_t.isSigned = false from rfl,
      readleb128Loop_start false l k h1 h2 h3 h9]
    simp
  refine ⟨main bs hk hcont hterm, fun pre => ?_, fun bs' h => ?_⟩
  · unfold MemReader.readULEB128
    rw [List.drop_left]
    exact main bs hk hcont hterm
  have hk' : k < bs'.length := by
    have h1 := congrArg List.length h
    rw [List.length_take, List.length_take] at h1
    omega
  rw [main bs hk hcont hterm, main bs' hk'
    (fun i hi => by rw [List.getD_of_take_eq bs bs' k i h (by omega)]; exact hcont i hi)
    (by rw [List.getD_of_take_eq bs bs' k k h (by omega)]; exact hterm),
    leb128Sum_congr bs bs' k h]

/-- C19 (witness): the three bytes of 624485, followed by one more byte. -/
theorem C19_unsigned_decoding_witness :
    readleb128 .uintmax_t [0xe5, 0x8e, 0x26, 0xff]
      = .ok (((leb128Sum [0xe5, 0x8e, 0x26, 0xff] 2 % 2 ^ 64 : Nat) : Int), 2 + 1) ∧
    leb128Sum [0xe5, 0x8e, 0x26, 0xff] 2 = 624485 :=
  ⟨(C19_unsigned_decoding [0xe5, 0x8e, 0x26, 0xff] 2 (by decide) (by decide) (by decide)
    (by decide)).1, by decide⟩

/-- C20 (as stated, refuted): the eleven bytes `0x80` (ten times), `0x7f`
terminate at index 10, where `7 * 11 >= 64`, so the claim has
`readleb128<intmax_t>` return the accumulated groups, `0` modulo `2^64`, and the
count 11; but the eleventh round shifts by 70, for which C++ defines no result. -/
theorem C20_overlong_counterexample :
    (∀ i < 10, (([0x80, 0x80, 0x80, 0x80, 0x80, 0x80, 0x80, 0x80, 0x80, 0x80, 0x7f] :
      List Byte).getD i 0).val &&& 0x80 ≠ 0) ∧
    (([0x80, 0x80, 0x80, 0x80, 0x80, 0x80, 0x80, 0x80, 0x80, 0x80, 0x7f] :
      List Byte).getD 10 0).val &&& 0x80 = 0 ∧
    readleb128 .intmax_t [0x80, 0x80, 0x80, 0x80, 0x80, 0x80, 0x80, 0x80, 0x80, 0x80, 0x7f]
      = .error .shiftTooLarge := by
  refine ⟨by decide, by decide, by decide⟩

/-- C20 (amended): for every byte sequence that terminates at index `k <= 9`,
`readleb128<intmax_t>` returns the count `k + 1` and, read as a 64-bit
two's-complement value, the accumulated 7-bit groups (modulo `2^64`) with all bits
at positions `>= 7(k+1)` set to 1 exactly when `7(k+1) < 64` and bit 6 of the
terminating byte is set, and the accumulated groups as they are otherwise. The
mask `2^64 - 2^(7(k+1))` is the 64-bit pattern with exactly those bits set. -/
theorem C20_signed_sign_extension (bs : List Byte) (k : Nat) (hk : k < bs.length)
    (hcont : ∀ i < k, (bs.getD i 0).val &&& 0x80 ≠ 0)
    (hterm : (bs.getD k 0).val &&& 0x80 = 0) (h9 : k ≤ 9) :
    readleb128 .intmax_t bs =
      .ok (toSigned64
        (if 7 * (k + 1) < 64 ∧ (bs.getD k 0).val &&& 0x40 ≠ 0 then
          leb128Sum bs k % 2 ^ 64 ||| (2 ^ 64 - 2 ^ (7 * (k + 1)))
        else leb128Sum bs k % 2 ^ 64), k + 1) := by
  unfold readleb128
  rw [show IntType.intmax_t.isSigned = true from rfl,
    readleb128Loop_start true bs k hk hcont hterm h9]
  simp

/-- C20 (witness): the two bytes of `-129`, whose sign extension starts at bit
14, followed by one more byte. -/
theorem C20_signed_sign_extension_witness :
    readleb128 .intmax_t [0xff, 0x7e, 0x00] =
      .ok (toSigned64
        (if 7 * (1 + 1) < 64 ∧ (([0xff, 0x7e, 0x00] : List Byte).getD 1 0).val &&& 0x40 ≠ 0 then
          leb128Sum [0xff, 0x7e, 0x00] 1 % 2 ^ 64 ||| (2 ^ 64 - 2 ^ (7 * (1 + 1)))
        else leb128Sum [0xff, 0x7e, 0x00] 1 % 2 ^ 64), 1 + 1) ∧
    readleb128 .intmax_t [0xff, 0x7e, 0x00] = .ok (-129, 2) :=
  ⟨C20_signed_sign_extension [0xff, 0x7e, 0x00] 1 (by decide) (by decide) (by decide)
    (by decide), by decide⟩

theorem uleb128_arith (j result v : Nat) (hj : j ≤ 9) (hr : result < 2 ^ (7 * j))
    (hv : v * 2 ^ (7 * j) < 2 ^ 64) :
    (v < 128 → (result + v % 128 * 2 ^ (7 * j)) % 2 ^ 64 = result + v * 2 ^ (7 * j)) ∧
    (128 ≤ v → j ≤ 8 ∧
      (result + v % 128 * 2 ^ (7 * j)) % 2 ^ 64 = result + v % 128 * 2 ^ (7 * j) ∧
      result + v % 128 * 2 ^ (7 * j) < 2 ^ (7 * (j + 1)) ∧
      v / 128 * 2 ^ (7 * (j + 1)) < 2 ^ 64 ∧
      result + v % 128 * 2 ^ (7 * j) + v / 128 * 2 ^ (7 * (j + 1))
        = result + v * 2 ^ (7 * j)) := by
  interval_cases j <;> simp only [Nat.reduceMul, Nat.reducePow, Nat.reduceAdd] at hr hv ⊢ <;>
    omega

theorem uleb128_lt (v : Nat) (h : v < 128) : uleb128 v = [Fin.ofNat v] := by
  rw [uleb128, if_pos h]

theorem uleb128_ge (v : Nat) (h : ¬ v < 128) :
    uleb128 v = Fin.ofNat (v % 128 + 128) :: uleb128 (v / 128) := by
  rw [uleb128, if_neg h]

/-- The loop of `readleb128` on the encoding of `v`, started at shift `7 * j`
with room for `v`. -/
theorem readleb128Loop_uleb128 (signed : Bool) (v : Nat) :
    ∀ (j result n : Nat) (tail : List Byte), j ≤ 9 → result < 2 ^ (7 * j) →
      v * 2 ^ (7 * j) < 2 ^ 64 → signed = false →
      readleb128Loop signed (uleb128 v ++ tail) result (7 * j) n
        = .ok (result + v * 2 ^ (7 * j), n + (uleb128 v).length) := by
  induction v using Nat.strong_induction_on with
  | _ v ih =>
    intro j result n tail hj hr hv hs
    obtain ⟨a1, a2⟩ := uleb128_arith j result v hj hr hv
    by_cases h : v < 128
    · have hval : (Fin.ofNat v : Byte).val = v := by
        simp only [Fin.ofNat]; omega
      rw [uleb128_lt v h, List.singleton_append, readleb128Loop_step signed _ tail result j n hj hr,
        hval, if_pos h, if_neg (by rw [hs]; simp), a1 h]
      rfl
    · have hval : (Fin.ofNat (v % 128 + 128) : Byte).val = v % 128 + 128 := by
        simp only [Fin.ofNat]; omega
      obtain ⟨b1, b2, b3, b4, b5⟩ := a2 (by omega)
      have hg : (v % 128 + 128) % 128 = v % 128 := by omega
      rw [uleb128_ge v h, List.cons_append,
        readleb128Loop_step signed _ (uleb128 (v / 128) ++ tail) result j n hj hr, hval,
        if_neg (by omega), hg, b2, ih (v / 128) (by omega) (j + 1) _ (n + 1) tail (by omega)
          b3 b4 hs, b5, List.length_cons]
      rw [show n + 1 + (uleb128 (v / 128)).length = n + ((uleb128 (v / 128)).length + 1) by omega]

theorem sleb128_arith (j result : Nat) (s : Int) (hj : j ≤ 9) (hr : result < 2 ^ (7 * j))
    (hlo : -2 ^ (63 - 7 * j) ≤ s) (hhi : s < 2 ^ (63 - 7 * j)) :
    (s / 128 = 0 ∧ s % 128 < 64 →
      (((result + (s % 128).toNat % 128 * 2 ^ (7 * j)) % 2 ^ 64 : Nat) : Int)
        = ((result : Int) + s * 2 ^ (7 * j)) % 2 ^ 64) ∧
    (s / 128 = -1 ∧ 64 ≤ s % 128 → j ≤ 8 →
      (((result + (s % 128).toNat % 128 * 2 ^ (7 * j)) % 2 ^ 64
        + (2 ^ 64 - 2 ^ (7 * (j + 1))) : Nat) : Int)
        = ((result : Int) + s * 2 ^ (7 * j)) % 2 ^ 64) ∧
    (s / 128 = -1 ∧ 64 ≤ s % 128 → ¬ j ≤ 8 →
      (((result + (s % 128).toNat % 128 * 2 ^ (7 * j)) % 2 ^ 64 : Nat) : Int)
        = ((result : Int) + s * 2 ^ (7 * j)) % 2 ^ 64) ∧
    (¬ ((s / 128 = 0 ∧ s % 128 < 64) ∨ (s / 128 = -1 ∧ 64 ≤ s % 128)) → j ≤ 8 ∧
      (result + (s % 128).toNat % 128 * 2 ^ (7 * j)) % 2 ^ 64
        = result + (s % 128).toNat % 128 * 2 ^ (7 * j) ∧
      result + (s % 128).toNat % 128 * 2 ^ (7 * j) < 2 ^ (7 * (j + 1)) ∧
      -2 ^ (63 - 7 * (j + 1)) ≤ s / 128 ∧ s / 128 < 2 ^ (63 - 7 * (j + 1)) ∧
      (((result + (s % 128).toNat % 128 * 2 ^ (7 * j) : Nat) : Int)
          + s / 128 * 2 ^ (7 * (j + 1))) % 2 ^ 64
        = ((result : Int) + s * 2 ^ (7 * j)) % 2 ^ 64) := by
  interval_cases j <;>
    simp only [Nat.reduceMul, Nat.reducePow, Nat.reduceAdd, Nat.reduceSub, Int.reducePow,
      Int.reduceNeg] at hr hlo hhi ⊢ <;>
    omega

theorem sleb128_last (s : Int) (h : (s / 128 = 0 ∧ s % 128 < 64) ∨ (s / 128 = -1 ∧ 64 ≤ s % 128)) :
    sleb128 s = [Fin.ofNat (s % 128).toNat] := by
  rw [sleb128, if_pos h]

theorem sleb128_more (s : Int)
    (h : ¬ ((s / 128 = 0 ∧ s % 128 < 64) ∨ (s / 128 = -1 ∧ 64 ≤ s % 128))) :
    sleb128 s = Fin.ofNat ((s % 128).toNat + 128) :: sleb128 (s / 128) := by
  rw [sleb128, if_neg h]

/-- The loop of `readleb128<intmax_t>` on the encoding of `s`, started at shift
`7 * j` with room for `s`: the pattern is `result + s * 2^(7j)` modulo `2^64`. -/
theorem readleb128Loop_sleb128 (m : Nat) :
    ∀ (s : Int), s.natAbs = m → ∀ (j result n : Nat) (tail : List Byte), j ≤ 9 →
      result < 2 ^ (7 * j) → -2 ^ (63 - 7 * j) ≤ s → s < 2 ^ (63 - 7 * j) →
      ∃ p : Nat, readleb128Loop true (sleb128 s ++ tail) result (7 * j) n
          = .ok (p, n + (sleb128 s).length) ∧
        (p : Int) = ((result : Int) + s * 2 ^ (7 * j)) % 2 ^ 64 := by
  induction m using Nat.strong_induction_on with
  | _ m ih =>
    intro s hm j result n tail hj hr hlo hhi
    obtain ⟨a1, a2, a3, a4⟩ := sleb128_arith j result s hj hr hlo hhi
    have hg0 : 0 ≤ s % 128 := Int.emod_nonneg _ (by decide)
    have hg1 : s % 128 < 128 := Int.emod_lt_of_pos _ (by decide)
    by_cases h : (s / 128 = 0 ∧ s % 128 < 64) ∨ (s / 128 = -1 ∧ 64 ≤ s % 128)
    · have hval : (Fin.ofNat (s % 128).toNat : Byte).val = (s % 128).toNat := by
        simp only [Fin.ofNat]; omega
      rw [sleb128_last s h, List.singleton_append,
        readleb128Loop_step true _ tail result j n hj hr, hval, if_pos (by omega)]
      rcases h with h | h
      · rw [if_neg (by omega)]
        exact ⟨_, rfl, a1 h⟩
      · by_cases h8 : j ≤ 8
        · rw [if_pos ⟨rfl, h8, by omega⟩]
          exact ⟨_, rfl, a2 h h8⟩
        · rw [if_neg (by omega)]
          exact ⟨_, rfl, a3 h h8⟩
    · have hval : (Fin.ofNat ((s % 128).toNat + 128) : Byte).val = (s % 128).toNat + 128 := by
        simp only [Fin.ofNat]; omega
      obtain ⟨b1, b2, b3, b4, b5, b6⟩ := a4 h
      have hg : ((s % 128).toNat + 128) % 128 = (s % 128).toNat % 128 := by omega
      obtain ⟨p, hp1, hp2⟩ := ih (s / 128).natAbs (by omega) (s / 128) rfl (j + 1)
        (result + (s % 128).toNat % 128 * 2 ^ (7 * j)) (n + 1) tail (by omega) b3 b4 b5
      refine ⟨p, ?_, by rw [hp2, b6]⟩
      rw [sleb128_more s h, List.cons_append,
        readleb128Loop_step true _ (sleb128 (s / 128) ++ tail) result j n hj hr, hval,
        if_neg (by omega), hg, b2, hp1, List.length_cons]
      rw [show n + 1 + (sleb128 (s / 128)).length = n + ((sleb128 (s / 128)).length + 1) by omega]

/-- C18: for every unsigned 64-bit value `v`, `readleb128<uintmax_t>` on the
standard ULEB128 encoding of `v`, whatever bytes follow it, returns `v` and the
length of the encoding; for every signed 64-bit value `s`,
`readleb128<intmax_t>` on the standard SLEB128 encoding of `s` returns `s` and
the length of the encoding. -/
theorem C18_leb128_round_trip :
    (∀ (v : Nat) (tail : List Byte), v < 2 ^ 64 →
      readleb128 .uintmax_t (uleb128 v ++ tail) = .ok ((v : Int), (uleb128 v).length)) ∧
    (∀ (s : Int) (tail : List Byte), -2 ^ 63 ≤ s → s < 2 ^ 63 →
      readleb128 .intmax_t (sleb128 s ++ tail) = .ok (s, (sleb128 s).length)) := by
  refine ⟨fun v tail hv => ?_, fun s tail hlo hhi => ?_⟩
  · unfold readleb128
    rw [show IntType.uintmax_t.isSigned = false from rfl,
      readleb128Loop_uleb128 false v 0 0 0 tail (by decide) (by decide) (by simpa using hv) rfl]
    simp
  · obtain ⟨p, hp1, hp2⟩ := readleb128Loop_sleb128 s.natAbs s rfl 0 0 0 tail (by decide)
      (by decide) (by simpa using hlo) (by simpa using hhi)
    unfold readleb128
    rw [show IntType.intmax_t.isSigned = true from rfl, hp1]
    simp only [if_true, Nat.zero_add]
    have : toSigned64 p = s := by
      unfold toSigned64
      simp only [Nat.mul_zero, pow_zero, Int.mul_one, Nat.cast_zero, Int.zero_add] at hp2
      split <;> omega
    rw [this]

/-- C18 (witness): the values `0`, `2^64 - 1`, `-1` and `-129`, with the bytes
of their encodings. -/
theorem C18_leb128_round_trip_witness :
    readleb128 .uintmax_t (uleb128 0 ++ []) = .ok (((0 : Nat) : Int), (uleb128 0).length) ∧
    readleb128 .uintmax_t (uleb128 (2 ^ 64 - 1) ++ [])
      = .ok (((2 ^ 64 - 1 : Nat) : Int), (uleb128 (2 ^ 64 - 1)).length) ∧
    readleb128 .intmax_t (sleb128 (-1) ++ []) = .ok (-1, (sleb128 (-1)).length) ∧
    readleb128 .intmax_t (sleb128 (-129) ++ []) = .ok (-129, (sleb128 (-129)).length) ∧
    uleb128 0 = [0] ∧
    uleb128 (2 ^ 64 - 1) = [0xff, 0xff, 0xff, 0xff, 0xff, 0xff, 0xff, 0xff, 0xff, 0x01] ∧
    sleb128 (-1) = [0x7f] ∧ sleb128 (-129) = [0xff, 0x7e] :=
  ⟨C18_leb128_round_trip.1 0 [] (by decide), C18_leb128_round_trip.1 (2 ^ 64 - 1) [] (by decide),
    C18_leb128_round_trip.2 (-1) [] (by decide) (by decide),
    C18_leb128_round_trip.2 (-129) [] (by decide) (by decide),
    by simp [uleb128_lt]; decide, by simp [uleb128_lt, uleb128_ge]; decide,
    by simp [sleb128_last]; decide, by simp [sleb128_last, sleb128_more]; decide⟩

/-! ## Theorems: readObj and the default readString -/

/-- The loop of the default `readString` over a reader that serves `data`: with
`n` rounds left inside the content, it appends the bytes before the first NUL
among the next `n`. -/
theorem Reader.readStringLoop_serves (u : Reader) (data : List Byte) (hs : Serves u data)
    (n offset : Nat) (res : List Byte) (h : offset + n ≤ data.length) :
    Reader.readStringLoop u.read n offset res
      = .ok (res ++ ((data.drop offset).take n).takeWhile (fun c => c ≠ 0)) := by
  induction n generalizing offset res with
  | zero => simp [Reader.readStringLoop]
  | succ n ih =>
    have hlt : offset < data.length := by omega
    have hread := hs offset 1 hlt (by decide)
    have hdrop : data.drop offset = data[offset] :: data.drop (offset + 1) :=
      List.drop_eq_getElem_cons hlt
    rw [hdrop] at hread
    simp only [List.take_succ_cons, List.take_zero] at hread
    unfold Reader.readStringLoop
    rw [hread, hdrop]
    simp only [List.take_succ_cons]
    by_cases hc : data[offset] = 0
    · simp [hc, List.takeWhile]
    · simp only [hc, if_false]
      rw [ih (offset + 1) (res ++ [data[offset]]) (by omega)]
      simp [List.takeWhile, hc]

/-- The default `readString` over a reader that serves `data`, for any value
`size` of `size()` inside the content. -/
theorem Reader.readStringDefault_serves (u : Reader) (data : List Byte) (hs : Serves u data)
    (size : Nat) (hsize : size ≤ data.length) (offset : Nat) (h0 : offset ≠ 0) :
    Reader.readStringDefault u.read size offset
        = .ok (((data.take size).drop offset).takeWhile (fun c => c ≠ 0)) ∧
      (((data.take size).drop offset).takeWhile (fun c => c ≠ 0)).length ≤ size - offset ∧
      (size ≤ offset → ((data.take size).drop offset).takeWhile (fun c => c ≠ 0) = []) := by
  refine ⟨?_, ?_, ?_⟩
  · unfold Reader.readStringDefault
    rw [if_neg h0]
    by_cases hlt : offset ≤ size
    · rw [Reader.readStringLoop_serves u data hs _ offset [] (by omega), List.drop_take]
      simp
    · have h1 : size - offset = 0 := by omega
      have h2 : (data.take size).drop offset = [] := by
        apply List.drop_eq_nil_of_le
        rw [List.length_take]; omega
      rw [h1, h2]
      simp [Reader.readStringLoop]
  · have h1 := (List.takeWhile_sublist (fun c => decide (c ≠ 0)) :
      List.Sublist (((data.take size).drop offset).takeWhile (fun c => decide (c ≠ 0)))
        ((data.take size).drop offset)).length_le
    rw [List.length_drop, List.length_take] at h1
    omega
  · intro hle
    have h2 : (data.take size).drop offset = [] := by
      apply List.drop_eq_nil_of_le
      rw [List.length_take]; omega
    rw [h2]; rfl

/-- C23 (as stated, refuted): a file reader built with a `minsize` above the
size of its file has `size()` past the content: here a file of five bytes with
`size() == 8`. The default `readString(3)` reads the bytes at 3 and 4, finds no
NUL, is still below `size()` and reads at offset 5, where `FileReader::read`
raises "hit unexpected EOF": the call raises instead of returning the run that
ends at `size()`. -/
theorem C23_size_past_content_counterexample :
    Reader.size (FileReader (preadFile [0, 1, 2, 104, 105]) 8) = 8 ∧
    Reader.read (FileReader (preadFile [0, 1, 2, 104, 105]) 8) 4 1 = .ok [105] ∧
    Reader.read (FileReader (preadFile [0, 1, 2, 104, 105]) 8) 5 1 = .error .unexpectedEOF ∧
    Reader.readStringDefault (Reader.read (FileReader (preadFile [0, 1, 2, 104, 105]) 8))
      (Reader.size (FileReader (preadFile [0, 1, 2, 104, 105]) 8)) 3
      = .error .unexpectedEOF ∧
    Reader.readString (FileReader (preadFile [0, 1, 2, 104, 105]) 8) 3
      = .error .unexpectedEOF := by
  decide

/-- C23 (amended): for every reader that uses the default `Reader::readString`
and holds its content up to `size()` (a read of one byte below `size()` returns
the byte there), and every offset other than 0, the result is the run of
non-NUL bytes that starts at `offset` and ends before the first NUL byte or at
`size()`: no byte of it is NUL, the byte after it (if there is one before
`size()`) is NUL, its length is at most `size() - offset`, and it is empty when
`offset >= size()`. For offset 0 the result is the literal `"(null)"`. -/
theorem C23_generic_readString (u : Reader) (data : List Byte) (hs : Serves u data)
    (hsize : u.size ≤ data.length) (offset : Nat) :
    (offset ≠ 0 →
      Reader.readStringDefault u.read u.size offset
        = .ok (((data.take u.size).drop offset).takeWhile (fun c => c ≠ 0)) ∧
      (∀ c ∈ ((data.take u.size).drop offset).takeWhile (fun c => c ≠ 0), c ≠ 0) ∧
      (∀ c, ((data.take u.size).drop offset)[
          (((data.take u.size).drop offset).takeWhile (fun c => c ≠ 0)).length]? = some c →
        c = 0) ∧
      (((data.take u.size).drop offset).takeWhile (fun c => c ≠ 0)).length ≤ u.size - offset ∧
      (u.size ≤ offset → ((data.take u.size).drop offset).takeWhile (fun c => c ≠ 0) = [])) ∧
    Reader.readStringDefault u.read u.size 0 = .ok nullString := by
  refine ⟨fun h0 => ?_, by simp [Reader.readStringDefault]⟩
  obtain ⟨h1, h2, h3⟩ := Reader.readStringDefault_serves u data hs u.size hsize offset h0
  refine ⟨h1, ?_, ?_, h2, h3⟩
  · intro c hc
    have := List.mem_takeWhile_imp hc
    simpa using this
  · intro c hc
    generalize (data.take u.size).drop offset = l at hc
    induction l with
    | nil => simp at hc
    | cons a l ih =>
      by_cases ha : a = 0
      · rw [List.takeWhile_cons_of_neg (by simp [ha])] at hc
        simp only [List.length_nil, List.getElem?_cons_zero, Option.some.injEq] at hc
        rw [← hc]; exact ha
      · rw [List.takeWhile_cons_of_pos (by simp [ha])] at hc
        simp only [List.length_cons, List.getElem?_cons_succ] at hc
        exact ih hc

/-- C23 (witness): the string `hi` at offset 3 of a seven-byte file. -/
theorem C23_generic_readString_witness :
    Reader.readStringDefault (Reader.read (FileReader (preadFile [0, 1, 2, 104, 105, 0, 7]) 7))
        (Reader.size (FileReader (preadFile [0, 1, 2, 104, 105, 0, 7]) 7)) 3
      = .ok (((([0, 1, 2, 104, 105, 0, 7] : List Byte).take
          (Reader.size (FileReader (preadFile [0, 1, 2, 104, 105, 0, 7]) 7))).drop 3).takeWhile
            (fun c => c ≠ 0)) ∧
    Reader.readStringDefault (Reader.read (FileReader (preadFile [0, 1, 2, 104, 105, 0, 7]) 7))
        7 3 = .ok [104, 105] :=
  ⟨((C23_generic_readString (FileReader (preadFile [0, 1, 2, 104, 105, 0, 7]) 7)
    [0, 1, 2, 104, 105, 0, 7] (FileReader_serves _ _) (by decide) 3).1 (by decide)).1,
    by decide⟩

/-! ## Theorems: readString(0), MemReader::read and FileReader::read -/

/-- C24 (as stated, refuted): `MemReader::readString(0)` returns the C string at
the start of the buffer, here `hi`, and `OffsetReader::readString(0)` forwards
`0 + offset` to its upstream, here the string `hi` at offset 3 of a file; neither
is the literal `"(null)"`. -/
theorem C24_offset_zero_counterexample :
    Reader.readString (MemReader 3 [104, 105, 0]) 0 = .ok [104, 105] ∧
    Reader.readString (OffsetReader (FileReader (preadFile [0, 1, 2, 104, 105, 0]) 6) 3 3) 0
      = .ok [104, 105] ∧
    ([104, 105] : List Byte) ≠ nullString := by
  decide

/-- The default `readString` through the cache returns `"(null)"` for offset 0
and leaves the cache as it is. -/
theorem CacheReader.readStringDefault_zero (c : CacheReader) :
    c.readStringDefault 0 = (.ok nullString, c) := by
  simp [CacheReader.readStringDefault]

/-- The entry of offset 0, if there is one, holds the literal `"(null)"`. -/
theorem CacheReader.call_null_entry (c : CacheReader) (k : CacheReader.Call)
    (h : ∀ v, c.stringCache.lookup 0 = some v → v = nullString) :
    ∀ v, (c.call k).stringCache.lookup 0 = some v → v = nullString := by
  cases k with
  | read o count =>
    show ∀ v, (c.read o count).2.stringCache.lookup 0 = some v → v = nullString
    rw [(CacheReader.read_frame c o count).2]; exact h
  | flush => exact h
  | readString o =>
    show ∀ v, (c.readString o).2.stringCache.lookup 0 = some v → v = nullString
    unfold CacheReader.readString
    cases hl : c.stringCache.lookup o with
    | some w => exact h
    | none =>
      obtain ⟨_, h3⟩ := CacheReader.readStringDefault_frame c o
      rcases hr : c.readStringDefault o with ⟨r, c2⟩
      rw [hr] at h3
      cases r with
      | error e => intro v hv; exact h v (by rw [← h3]; exact hv)
      | ok w =>
        intro v hv
        have hv1 : List.lookup 0 ((o, w) :: c2.stringCache) = some v := hv
        by_cases ho : o = 0
        · subst ho
          rw [CacheReader.readStringDefault_zero] at hr
          simp only [Prod.mk.injEq, Except.ok.injEq] at hr
          rw [List.lookup_cons] at hv1
          simp only [beq_self_eq_true, Option.some.injEq] at hv1
          rw [← hv1, ← hr.1]
        · rw [List.lookup_cons, beq_false_of_ne (Ne.symm ho), h3] at hv1
          exact h v hv1

/-- After any sequence of calls the entry of offset 0, if there is one, holds the
literal `"(null)"`. -/
theorem CacheReader.calls_null_entry (c : CacheReader) (cs : List CacheReader.Call)
    (h : ∀ v, c.stringCache.lookup 0 = some v → v = nullString) :
    ∀ v, (c.calls cs).stringCache.lookup 0 = some v → v = nullString := by
  induction cs generalizing c with
  | nil => exact h
  | cons k rest ih => exact ih (c.call k) (CacheReader.call_null_entry c k h)

/-- C24 (amended): `readString(0)` returns `"(null)"` in the default
implementation (any `read`, any size) and in `CacheReader` (in every state
reached from a new cache by calls of `read`, `readString` and `flush`).
`MemReader::readString(0)` returns the bytes of the buffer before its first NUL,
and `OffsetReader::readString(0)` returns what the upstream returns for the
start offset of the view. -/
theorem C24_offset_zero_convention :
    (∀ (read : Off → Nat → Except Exception (List Byte)) (size : Off),
      Reader.readStringDefault read size 0 = .ok nullString) ∧
    (∀ (u : Reader) (uninit : List Byte) (cs : List CacheReader.Call),
      (((CacheReader.new u uninit).calls cs).readString 0).1 = .ok nullString) ∧
    (∀ (len : Nat) (data : List Byte),
      Reader.readString (MemReader len data) 0 = .ok (data.takeWhile (fun c => c ≠ 0))) ∧
    (∀ (upstream : Reader) (offset length : Off),
      Reader.readString (.offsetReader upstream offset length) 0
        = Reader.readString upstream (offset % 2 ^ 64)) := by
  refine ⟨fun read size => by simp [Reader.readStringDefault], fun u uninit cs => ?_,
    fun len data => rfl, fun upstream offset length => ?_⟩
  · have hinv := CacheReader.calls_null_entry (CacheReader.new u uninit) cs
      (by intro v hv; simp [CacheReader.new] at hv)
    unfold CacheReader.readString
    cases hl : ((CacheReader.new u uninit).calls cs).stringCache.lookup 0 with
    | some v => rw [hinv v hl]
    | none => rw [CacheReader.readStringDefault_zero]
  · show Reader.readString upstream (wadd 0 offset) = _
    unfold wadd
    rw [Nat.zero_add]

/-- C25 (as stated, refuted): on a buffer of three bytes `read(4, 1)` and
`read(4, 0)` raise "read past end of memory"; a request that starts at the end,
`read(3, 1)`, returns no byte. -/
theorem C25_read_past_len_counterexample :
    Reader.read (MemReader 3 [1, 2, 3]) 4 1 = .error .readPastEndOfMemory ∧
    Reader.read (MemReader 3 [1, 2, 3]) 4 0 = .error .readPastEndOfMemory ∧
    Reader.read (MemReader 3 [1, 2, 3]) 3 1 = .ok [] := by
  decide

/-- C25 (amended): for every buffer of length `len` and every `(off, count)`
with `off <= len`, `MemReader::read(off, count)` does not raise, returns
`min(count, len - off)` bytes, and byte `i` of the result is byte `off + i` of
the buffer; for `off > len` it raises "read past end of memory". -/
theorem C25_memreader_read_clips (len : Nat) (data : List Byte) (off count : Nat)
    (hdata : len ≤ data.length) :
    (off ≤ len →
      Reader.read (MemReader len data) off count
        = .ok ((data.drop off).take (min count (len - off))) ∧
      ((data.drop off).take (min count (len - off))).length = min count (len - off) ∧
      ∀ i < min count (len - off),
        ((data.drop off).take (min count (len - off)))[i]? = data[off + i]?) ∧
    (len < off → Reader.read (MemReader len data) off count = .error .readPastEndOfMemory) := by
  refine ⟨fun h => ⟨?_, ?_, ?_⟩, fun h => ?_⟩
  · show MemReader.read len data off count = _
    unfold MemReader.read
    rw [if_neg (Nat.not_lt.mpr h)]
  · rw [List.length_take, List.length_drop]; omega
  · intro i hi
    rw [List.getElem?_take_of_lt hi, List.getElem?_drop]
  · show MemReader.read len data off count = _
    unfold MemReader.read
    rw [if_pos h]

/-- C25 (witness): `read(2, 5)` on a buffer of three bytes returns the last
byte. -/
theorem C25_memreader_read_clips_witness :
    Reader.read (MemReader 3 [1, 2, 3]) 2 5
      = .ok ((([1, 2, 3] : List Byte).drop 2).take (min 5 (3 - 2))) ∧
    Reader.read (MemReader 3 [1, 2, 3]) 2 5 = .ok [3] :=
  ⟨((C25_memreader_read_clips 3 [1, 2, 3] 2 5 (by decide)).1 (by decide)).1, by decide⟩

/-- C26 (as stated, refuted): over a file of three bytes `pread` returns three
bytes for `read(0, 4)`, fewer than asked for, and `FileReader::read` returns
them without raising. -/
theorem C26_short_read_counterexample :
    Reader.read (FileReader (preadFile [1, 2, 3]) 3) 0 4 = .ok [1, 2, 3] ∧
    preadFile [1, 2, 3] 4 0 = some [1, 2, 3] := by
  decide

/-- C26 (amended): modelling `pread` as returning the bytes transferred or an
error, for every `(off, count)` `FileReader::read` raises when `pread` reports
an error and when it transfers zero bytes, and otherwise returns exactly what
`pread` transferred, also when that is fewer than `count` bytes; `size()` is the
size the reader was built with. -/
theorem C26_filereader_read (pread : Nat → Off → Option (List Byte)) (fileSize : Off)
    (off count : Nat) :
    (pread count off = none →
      Reader.read (FileReader pread fileSize) off count = .error .preadFailed) ∧
    (∀ bs, pread count off = some bs → bs.length = 0 →
      Reader.read (FileReader pread fileSize) off count = .error .unexpectedEOF) ∧
    (∀ bs, pread count off = some bs → 0 < bs.length →
      Reader.read (FileReader pread fileSize) off count = .ok bs) ∧
    Reader.size (FileReader pread fileSize) = fileSize := by
  refine ⟨fun h => ?_, fun bs h h0 => ?_, fun bs h h0 => ?_, rfl⟩
  · show FileReader.read pread off count = _
    unfold FileReader.read
    rw [h]
  · show FileReader.read pread off count = _
    unfold FileReader.read
    rw [h]
    simp [h0]
  · show FileReader.read pread off count = _
    unfold FileReader.read
    rw [h]
    have : bs.length ≠ 0 := by omega
    simp [this]

/-- C26 (witness): over a zero-length file `size() == 0` and `read(0, 1)`
raises. -/
theorem C26_filereader_read_witness :
    Reader.size (FileReader (preadFile []) 0) = 0 ∧
    Reader.read (FileReader (preadFile []) 0) 0 1 = .error .unexpectedEOF :=
  ⟨(C26_filereader_read (preadFile []) 0 0 1).2.2.2,
    (C26_filereader_read (preadFile []) 0 0 1).2.1 [] rfl rfl⟩

/-! ## Theorems: the block index of Lz4Reader -/

/-- C30 (as stated, refuted): in a frame whose first block-size word is
`0x80000000` (length field zero, high bit set), followed by a stored block of
one byte and an end mark, the constructor reads on after that word: the index
holds the block behind it and `size() == 1`. -/
theorem C30_high_bit_word_counterexample :
    ∃ r, Lz4Reader.new lz4LiteralRun 20
        (FileReader (preadFile [4, 34, 77, 24, 0x60, 0x40, 0, 0, 0, 0, 0x80, 1, 0, 0, 0x80, 7,
          0, 0, 0, 0]) 20) = some (.ok r) ∧
      le32toh [0, 0, 0, 0x80] = 0x80000000 ∧ le32toh [0, 0, 0, 0x80] &&& 0x7fffffff = 0 ∧
      r.blocks_ = [{ uncompressed_ := true, data_size_ := 1, data_offset_ := 15 }] ∧
      r.size = 1 := by
  refine ⟨_, rfl, ?_, ?_, ?_, ?_⟩ <;> decide

/-- C30 (amended): block scanning stops at the first block-size word that is
zero as a whole: at such a word the scan returns the descriptors collected so
far and the offset behind the word. A word `0x80000000` adds no descriptor and
does not end the scan: the next block-size word is read four bytes further
on. -/
theorem C30_end_of_block_stream (u : Reader) (data : List Byte) (hs : Serves u data)
    (hlen : data.length < 2 ^ 64) (mbs : Nat) (cks : Bool) (pre tail : List Byte) (fuel : Nat)
    (acc : List Lz4Reader.BlockInfo) :
    (data = pre ++ (le32bytes 0 ++ tail) →
      Lz4Reader.scanBlocks u mbs cks (fuel + 1) pre.length acc
        = some (.ok (acc, some (pre.length + 4)))) ∧
    (data = pre ++ (le32bytes 0x80000000 ++ tail) →
      Lz4Reader.scanBlocks u mbs cks (fuel + 1) pre.length acc
        = Lz4Reader.scanBlocks u mbs cks fuel (pre.length + 4) acc) := by
  refine ⟨fun hd => Lz4Reader.scanBlocks_end_mark u data hs hlen mbs cks pre tail hd fuel acc,
    fun hd => ?_⟩
  have hread := hs.readObj_mid pre (le32bytes 0x80000000) _ hd 4 (le32bytes_length _) (by decide)
  have hdl : data.length = pre.length + (4 + tail.length) := by
    rw [hd]; simp [le32bytes_length]
  have h4 : wadd pre.length 4 = pre.length + 4 := wadd_of_lt (by omega)
  have hw : le32toh (le32bytes 0x80000000) = 0x80000000 := by decide
  have hz : (0x80000000 : Nat) &&& 0x7fffffff = 0 := by decide
  rw [Lz4Reader.scanBlocks_step u mbs cks _ _ _ _ hread, hw, hz, h4]
  simp

/-- C30 (witness): a zero word at offset 1, with a block header behind it that
is not read; and a word `0x80000000` at offset 1, after which the scan goes on at
offset 5. -/
theorem C30_end_of_block_stream_witness :
    Lz4Reader.scanBlocks (FileReader (preadFile [9, 0, 0, 0, 0, 1, 0, 0, 0x80, 7]) 10) 65536 false
        (0 + 1) ([9] : List Byte).length []
      = some (.ok ([], some (([9] : List Byte).length + 4))) ∧
    Lz4Reader.scanBlocks (FileReader (preadFile [9, 0, 0, 0, 0x80, 0, 0, 0, 0]) 9) 65536 false
        (1 + 1) ([9] : List Byte).length []
      = Lz4Reader.scanBlocks (FileReader (preadFile [9, 0, 0, 0, 0x80, 0, 0, 0, 0]) 9) 65536 false
        1 (([9] : List Byte).length + 4) [] :=
  ⟨(C30_end_of_block_stream (FileReader (preadFile [9, 0, 0, 0, 0, 1, 0, 0, 0x80, 7]) 10)
      [9, 0, 0, 0, 0, 1, 0, 0, 0x80, 7] (FileReader_serves _ _) (by decide) 65536 false [9]
      [1, 0, 0, 0x80, 7] 0 []).1 (by decide),
    (C30_end_of_block_stream (FileReader (preadFile [9, 0, 0, 0, 0x80, 0, 0, 0, 0]) 9)
      [9, 0, 0, 0, 0x80, 0, 0, 0, 0] (FileReader_serves _ _) (by decide) 65536 false [9]
      [0, 0, 0, 0] 1 []).2 (by decide)⟩

set_option maxRecDepth 100000 in
/-- C28 (refuted by the code): the frame of two stored blocks of one byte each
(block size code 4) is accepted with `size() == 65537 > 0` although its first
block holds one byte, not `max_block_size == 65536`. For `read(1, 1)` the stored
branch of `decompress_block` reads at `data_offset_ + 1` without a look at
`data_size_ == 1`, and the call returns the byte at file offset 12, the first
byte of the block-size word of block 1, outside the payload of block 0. On the
same layout with a compressed first block the other branch compares the request
with the size of the decompressed block and the read raises. -/
theorem C28_stored_read_leaves_payload :
    (∃ r, Lz4Reader.new lz4LiteralRun 21 (FileReader (preadFile testFrameShort.bytes) 21)
        = some (.ok r) ∧
      0 < r.size ∧ r.max_block_size_ = 65536 ∧
      r.blocks_ = [{ uncompressed_ := true, data_size_ := 1, data_offset_ := 11 },
        { uncompressed_ := true, data_size_ := 1, data_offset_ := 16 }] ∧
      (Lz4Reader.read lz4LiteralRun r 1 1).map Prod.fst = some (.ok [1]) ∧
      testFrameShort.bytes[12]? = some 1) ∧
    (∃ r, Lz4Reader.new lz4LiteralRun 22
        (FileReader (preadFile (testFrame [⟨false, [0x10, 7], []⟩, ⟨true, [9], []⟩]).bytes) 22)
        = some (.ok r) ∧
      0 < r.size ∧ r.max_block_size_ = 65536 ∧
      r.blocks_ = [{ uncompressed_ := false, data_size_ := 2, data_offset_ := 11 },
        { uncompressed_ := true, data_size_ := 1, data_offset_ := 17 }] ∧
      (Lz4Reader.read lz4LiteralRun r 1 1).map Prod.fst
        = some (.error (.failedToReadBlock 0))) := by
  refine ⟨⟨_, rfl, ?_, ?_, ?_, ?_, ?_⟩, ⟨_, rfl, ?_, ?_, ?_, ?_⟩⟩ <;> decide

/-- The layout of a frame with full blocks: for every well-formed frame in which
every block except the last decompresses to exactly `max_block_size` bytes (the
frame encodes its plaintext in chunks of `max_block_size`), the constructor
accepts the frame, and in every state reached by reads the byte at decompressed
offset `o < size()` is byte `o mod max_block_size` of what block
`floor(o / max_block_size)` decompresses to. -/
theorem Lz4Reader.fixed_stride_layout (lz4 : Lz4Decoder) (f : Lz4Frame) (u : Reader)
    (P : List Byte) (hf : f.ServedBy u) (hE : f.Encodes lz4 P) (hP : P.length + f.maxBlockSize < 2 ^ 64)
    (fuel : Nat) (hfuel : f.bytes.length ≤ fuel) :
    ∃ r, Lz4Reader.new lz4 fuel u = some (.ok r) ∧ r.size = P.length ∧
      r.max_block_size_ = f.maxBlockSize ∧
      (∀ (i : Nat) (b : Lz4Frame.Block), f.blocks[i]? = some b → i + 1 < f.blocks.length →
        ∃ chunk, b.decodesTo lz4 f.maxBlockSize chunk ∧ chunk.length = f.maxBlockSize) ∧
      ∀ (reqs : List (Off × Nat)) (r1 : Lz4Reader), Lz4Reader.reads lz4 r reqs = some r1 →
        ∀ o : Nat, o < r.size →
          ∃ (b : Lz4Frame.Block) (chunk : List Byte) (c : Byte) (r2 : Lz4Reader),
            f.blocks[o / f.maxBlockSize]? = some b ∧ b.decodesTo lz4 f.maxBlockSize chunk ∧
            chunk[o % f.maxBlockSize]? = some c ∧
            Lz4Reader.read lz4 r1 o 1 = some (.ok [c], r2) := by
  have hpos : 0 < f.maxBlockSize := by
    have := (Lz4Frame.maxBlockSize_bounds f hf.1.1).1; omega
  obtain ⟨r, h1, hM⟩ := Lz4Reader.new_encodes hf hE hP fuel hfuel
  have hsize : r.size = P.length := hM.2.2.2.1
  refine ⟨r, h1, hsize, hM.2.1, fun i b hb hi => ?_, fun reqs r1 hreach o ho => ?_⟩
  · refine ⟨_, hE.2 i b hb, ?_⟩
    rw [List.length_take, List.length_drop]
    have hn := hE.1
    obtain ⟨c1, _⟩ := ceil_div_bounds P.length f.maxBlockSize f.blocks.length hpos hn (by omega)
    have : (i + 1) * f.maxBlockSize ≤ (f.blocks.length - 1) * f.maxBlockSize :=
      Nat.mul_le_mul_right _ (by omega)
    rw [Nat.succ_mul] at this
    omega
  · rw [hsize] at ho
    have hM1 := Lz4Reader.reads_models hf r hM reqs r1 hreach
    obtain ⟨r2, h2, _⟩ := Lz4Reader.read_in_range hf hE hP r1 hM1 o 1 (by omega)
    have hk : o / f.maxBlockSize * f.maxBlockSize < P.length := by
      have := Nat.div_mul_le_self o f.maxBlockSize; omega
    obtain ⟨b, hb, hdec⟩ := hE.block_at hpos (o / f.maxBlockSize) hk
    have hdm := Nat.div_add_mod o f.maxBlockSize
    have hml := Nat.mod_lt o hpos
    have hidx : o / f.maxBlockSize * f.maxBlockSize + o % f.maxBlockSize = o := by
      rw [Nat.mul_comm]; exact hdm
    have hc : ((P.drop (o / f.maxBlockSize * f.maxBlockSize)).take f.maxBlockSize)[
        o % f.maxBlockSize]? = some P[o] := by
      rw [List.getElem?_take_of_lt hml, List.getElem?_drop, hidx]
      exact List.getElem?_eq_getElem ho
    refine ⟨b, _, P[o], r2, hb, hdec, hc, ?_⟩
    rw [h2, List.drop_eq_getElem_cons ho]
    rfl

/-! ## Theorems: what a read of Lz4Reader keeps and what it fetches -/

/-- What a reader keeps over calls: everything but the two buffers and the
cached block id. -/
theorem Lz4Reader.fill_cache_keeps (lz4 : Lz4Decoder) (r : Lz4Reader) (blk_idx : Nat)
    (blk : Lz4Reader.BlockInfo) (res : Except Exception Bool) (r1 : Lz4Reader)
    (h : Lz4Reader.fill_cache lz4 r blk_idx blk = some (res, r1)) :
    r1.upstream_ = r.upstream_ ∧ r1.blocks_ = r.blocks_ ∧
    r1.max_block_size_ = r.max_block_size_ ∧ r1.decompressed_size_ = r.decompressed_size_ ∧
    r1.with_block_checksum_ = r.with_block_checksum_ ∧
    r1.with_content_size_ = r.with_content_size_ ∧
    r1.with_content_checksum_ = r.with_content_checksum_ ∧ r1.with_dic_id_ = r.with_dic_id_ := by
  unfold Lz4Reader.fill_cache at h
  rcases hru : Lz4Reader.read_upstream_up_to r.upstream_ blk.data_offset_ blk.data_size_
    with _ | ⟨rr, bytes⟩
  · simp [hru] at h
  · rw [hru] at h
    cases rr with
    | error e =>
      simp only [Option.some.injEq, Prod.mk.injEq] at h
      rw [← h.2]; exact ⟨rfl, rfl, rfl, rfl, rfl, rfl, rfl, rfl⟩
    | ok bb =>
      cases bb with
      | false =>
        simp only [Option.some.injEq, Prod.mk.injEq] at h
        rw [← h.2]; exact ⟨rfl, rfl, rfl, rfl, rfl, rfl, rfl, rfl⟩
      | true =>
        simp only at h
        split at h
        · simp only [Option.some.injEq, Prod.mk.injEq] at h
          rw [← h.2]; exact ⟨rfl, rfl, rfl, rfl, rfl, rfl, rfl, rfl⟩
        · simp only [Option.some.injEq, Prod.mk.injEq] at h
          rw [← h.2]; exact ⟨rfl, rfl, rfl, rfl, rfl, rfl, rfl, rfl⟩

/-- A call of `decompress_block` changes nothing but the two buffers and the
cached block id. -/
theorem Lz4Reader.decompress_block_keeps (lz4 : Lz4Decoder) (r : Lz4Reader) (idx s l : Nat)
    (res : Except Exception (Bool × List Byte)) (r1 : Lz4Reader)
    (h : Lz4Reader.decompress_block lz4 r idx s l = some (res, r1)) :
    r1.upstream_ = r.upstream_ ∧ r1.blocks_ = r.blocks_ ∧
    r1.max_block_size_ = r.max_block_size_ ∧ r1.decompressed_size_ = r.decompressed_size_ ∧
    r1.with_block_checksum_ = r.with_block_checksum_ ∧
    r1.with_content_size_ = r.with_content_size_ ∧
    r1.with_content_checksum_ = r.with_content_checksum_ ∧ r1.with_dic_id_ = r.with_dic_id_ := by
  unfold Lz4Reader.decompress_block at h
  cases hinfo : r.blocks_[idx]? with
  | none =>
    simp only [hinfo, Option.some.injEq, Prod.mk.injEq] at h
    rw [← h.2]; exact ⟨rfl, rfl, rfl, rfl, rfl, rfl, rfl, rfl⟩
  | some blk =>
    rw [hinfo] at h
    simp only at h
    by_cases hst : blk.uncompressed_ = true
    · simp only [hst, if_true] at h
      rcases hru : Lz4Reader.read_upstream_up_to r.upstream_ (wadd blk.data_offset_ s) l
        with _ | ⟨rr, bytes⟩
      · simp [hru] at h
      · rw [hru] at h
        cases rr with
        | error e =>
          simp only [Option.some.injEq, Prod.mk.injEq] at h
          rw [← h.2]; exact ⟨rfl, rfl, rfl, rfl, rfl, rfl, rfl, rfl⟩
        | ok bb =>
          simp only [Option.some.injEq, Prod.mk.injEq] at h
          rw [← h.2]; exact ⟨rfl, rfl, rfl, rfl, rfl, rfl, rfl, rfl⟩
    · simp only [hst, Bool.false_eq_true, if_false] at h
      by_cases hid : r.decompressed_buf_blk_id_ = idx
      · simp only [hid, ne_eq, not_true_eq_false, if_false] at h
        split at h
        · simp only [Option.some.injEq, Prod.mk.injEq] at h
          rw [← h.2]; exact ⟨rfl, rfl, rfl, rfl, rfl, rfl, rfl, rfl⟩
        · simp only [Option.some.injEq, Prod.mk.injEq] at h
          rw [← h.2]; exact ⟨rfl, rfl, rfl, rfl, rfl, rfl, rfl, rfl⟩
      · simp only [ne_eq, hid, not_false_eq_true, if_true] at h
        rcases hfc : Lz4Reader.fill_cache lz4 r idx blk with _ | ⟨rr, r2⟩
        · simp [hfc] at h
        · have hfr := Lz4Reader.fill_cache_keeps lz4 r idx blk rr r2 hfc
          rw [hfc] at h
          cases rr with
          | error e =>
            simp only [Option.some.injEq, Prod.mk.injEq] at h
            rw [← h.2]; exact hfr
          | ok bb =>
            cases bb with
            | false =>
              simp only [Option.some.injEq, Prod.mk.injEq] at h
              rw [← h.2]; exact hfr
            | true =>
              simp only at h
              split at h
              · simp only [Option.some.injEq, Prod.mk.injEq] at h
                rw [← h.2]; exact hfr
              · simp only [Option.some.injEq, Prod.mk.injEq] at h
                rw [← h.2]; exact hfr

/-- The loop of `read` changes nothing but the two buffers and the cached block
id. -/
theorem Lz4Reader.readLoop_keeps (lz4 : Lz4Decoder) (off count start floor : Nat) (fuel : Nat) :
    ∀ (r : Lz4Reader) (offset : Nat) (dst : List Byte) (res : Except Exception (List Byte))
      (r1 : Lz4Reader),
      Lz4Reader.readLoop lz4 off count start floor fuel r offset dst = some (res, r1) →
      r1.upstream_ = r.upstream_ ∧ r1.blocks_ = r.blocks_ ∧
      r1.max_block_size_ = r.max_block_size_ ∧ r1.decompressed_size_ = r.decompressed_size_ ∧
      r1.with_block_checksum_ = r.with_block_checksum_ ∧
      r1.with_content_size_ = r.with_content_size_ ∧
      r1.with_content_checksum_ = r.with_content_checksum_ ∧
      r1.with_dic_id_ = r.with_dic_id_ := by
  induction fuel with
  | zero =>
    intro r offset dst res r1 h
    unfold Lz4Reader.readLoop at h
    split at h
    · simp at h
    · simp only [Option.some.injEq, Prod.mk.injEq] at h
      rw [← h.2]; exact ⟨rfl, rfl, rfl, rfl, rfl, rfl, rfl, rfl⟩
  | succ fuel ih =>
    intro r offset dst res r1 h
    rw [Lz4Reader.readLoop] at h
    split at h
    · simp only at h
      rcases hd : Lz4Reader.decompress_block lz4 r (start + wsub offset floor / r.max_block_size_)
        (if off > offset then off - offset else 0)
        (wsub (min r.max_block_size_ (wsub (wadd off count) offset))
          (if off > offset then off - offset else 0)) with _ | ⟨rr, r2⟩
      · simp [hd] at h
      · have hfr := Lz4Reader.decompress_block_keeps lz4 r _ _ _ rr r2 hd
        rw [hd] at h
        cases rr with
        | error e =>
          simp only [Option.some.injEq, Prod.mk.injEq] at h
          rw [← h.2]; exact hfr
        | ok v =>
          obtain ⟨bb, bytes⟩ := v
          cases bb with
          | false =>
            simp only [Option.some.injEq, Prod.mk.injEq] at h
            rw [← h.2]; exact hfr
          | true =>
            simp only at h
            obtain ⟨i1, i2, i3, i4, i5, i6, i7, i8⟩ := ih r2 _ _ res r1 h
            obtain ⟨f1, f2, f3, f4, f5, f6, f7, f8⟩ := hfr
            exact ⟨i1.trans f1, i2.trans f2, i3.trans f3, i4.trans f4, i5.trans f5,
              i6.trans f6, i7.trans f7, i8.trans f8⟩
    · simp only [Option.some.injEq, Prod.mk.injEq] at h
      rw [← h.2]; exact ⟨rfl, rfl, rfl, rfl, rfl, rfl, rfl, rfl⟩

/-- A `read` changes nothing but the two buffers and the cached block id. -/
theorem Lz4Reader.read_keeps (lz4 : Lz4Decoder) (r : Lz4Reader) (off count : Nat)
    (res : Except Exception (List Byte)) (r1 : Lz4Reader)
    (h : Lz4Reader.read lz4 r off count = some (res, r1)) :
    r1.upstream_ = r.upstream_ ∧ r1.blocks_ = r.blocks_ ∧
    r1.max_block_size_ = r.max_block_size_ ∧ r1.decompressed_size_ = r.decompressed_size_ ∧
    r1.with_block_checksum_ = r.with_block_checksum_ ∧
    r1.with_content_size_ = r.with_content_size_ ∧
    r1.with_content_checksum_ = r.with_content_checksum_ ∧ r1.with_dic_id_ = r.with_dic_id_ := by
  unfold Lz4Reader.read at h
  simp only at h
  split at h
  · simp only [Option.some.injEq, Prod.mk.injEq] at h
    rw [← h.2]; exact ⟨rfl, rfl, rfl, rfl, rfl, rfl, rfl, rfl⟩
  · split at h
    · simp only [Option.some.injEq, Prod.mk.injEq] at h
      rw [← h.2]; exact ⟨rfl, rfl, rfl, rfl, rfl, rfl, rfl, rfl⟩
    · exact Lz4Reader.readLoop_keeps lz4 _ _ _ _ _ r _ _ res r1 h

/-- The loop fetches nothing once the offset has reached the end of the request. -/
theorem Lz4Reader.readLoopFetches_exit (lz4 : Lz4Decoder) (off count start floor fuel : Nat)
    (r : Lz4Reader) (offset : Nat) (h : ¬ offset < wadd off count) :
    Lz4Reader.readLoopFetches lz4 off count start floor fuel r offset = [] := by
  cases fuel <;> simp [Lz4Reader.readLoopFetches, h]

/-- One round of the loop: the fetch of `decompress_block`, then those of the
rounds after it. -/
theorem Lz4Reader.readLoopFetches_step (lz4 : Lz4Decoder) (off count start floor fuel : Nat)
    (r r1 : Lz4Reader) (offset : Nat) (bytes : List Byte) (hlt : offset < wadd off count)
    (hd : Lz4Reader.decompress_block lz4 r (start + wsub offset floor / r.max_block_size_)
      (if off > offset then off - offset else 0)
      (wsub (min r.max_block_size_ (wsub (wadd off count) offset))
        (if off > offset then off - offset else 0)) = some (.ok (true, bytes), r1)) :
    Lz4Reader.readLoopFetches lz4 off count start floor (fuel + 1) r offset =
      r.decompress_block_fetch (start + wsub offset floor / r.max_block_size_)
        (if off > offset then off - offset else 0)
        (wsub (min r.max_block_size_ (wsub (wadd off count) offset))
          (if off > offset then off - offset else 0)) ++
      Lz4Reader.readLoopFetches lz4 off count start floor fuel r1
        (wadd offset r.max_block_size_) := by
  rw [Lz4Reader.readLoopFetches]
  simp only [hlt, if_true, hd]

/-- Inside the chunk that the `i`-th block stores, the range `decompress_block`
fetches lies inside the payload of the block. -/
theorem Lz4Reader.decompress_block_fetch_chunk {lz4 : Lz4Decoder} {f : Lz4Frame} {u : Reader}
    {size : Nat} {r : Lz4Reader} (hf : f.ServedBy u) (hM : r.Models lz4 f u size)
    (i : Nat) (b : Lz4Frame.Block) (hb : f.blocks[i]? = some b) (chunk : List Byte)
    (hdec : b.decodesTo lz4 f.maxBlockSize chunk) (s l : Nat) (hsl : s + l ≤ chunk.length) :
    ∀ q ∈ r.decompress_block_fetch i s l, f.InPayload q := by
  obtain ⟨o, h1, h2, _, _⟩ := hf.block_read_all i b hb
  have hget : r.blocks_[i]? = some ⟨b.stored, b.payload.length, o⟩ := by rw [hM.2.2.1, h1]
  unfold Lz4Reader.decompress_block_fetch
  rw [hget]
  simp only
  unfold Lz4Frame.Block.decodesTo at hdec
  intro q hq
  by_cases hst : b.stored = true
  · simp only [hst, if_true] at hdec hq
    subst hdec
    have hwo : wadd o s = o + s := wadd_of_lt (by omega)
    rw [hwo, List.mem_singleton] at hq
    subst hq
    exact ⟨i, b, o, hb, h1, by simp, by simp only; omega⟩
  · simp only [hst, Bool.false_eq_true, if_false] at hq
    split at hq
    · rw [List.mem_singleton] at hq
      subst hq
      exact ⟨i, b, o, hb, h1, le_refl _, le_refl _⟩
    · simp at hq

/-- Inside the plaintext, every range the loop of `read` fetches from upstream
lies inside the payload of one block. -/
theorem Lz4Reader.readLoop_fetches {lz4 : Lz4Decoder} {f : Lz4Frame} {u : Reader}
    {P : List Byte} (hf : f.ServedBy u) (hE : f.Encodes lz4 P)
    (hP : P.length + f.maxBlockSize < 2 ^ 64) (off count : Nat) (hr : off + count ≤ P.length)
    (fuel : Nat) (r : Lz4Reader) (hM : r.Models lz4 f u P.length) (k : Nat)
    (hk1 : off / f.maxBlockSize ≤ k) (hk2 : off < k * f.maxBlockSize + f.maxBlockSize) :
    ∀ q ∈ Lz4Reader.readLoopFetches lz4 off count (off / f.maxBlockSize)
        (off / f.maxBlockSize * f.maxBlockSize) fuel r (k * f.maxBlockSize),
      f.InPayload q := by
  have hpos : 0 < f.maxBlockSize := by
    have := (Lz4Frame.maxBlockSize_bounds f hf.1.1).1; omega
  have hwe : wadd off count = off + count := wadd_of_lt (by omega)
  induction fuel generalizing r k with
  | zero => intro q hq; simp [Lz4Reader.readLoopFetches] at hq
  | succ fuel ih =>
    by_cases hlt : k * f.maxBlockSize < off + count
    · obtain ⟨b, hb, hdec⟩ := hE.block_at hpos k (by omega)
      have hq1 : off / f.maxBlockSize * f.maxBlockSize ≤ off := Nat.div_mul_le_self _ _
      have hq2 : off / f.maxBlockSize * f.maxBlockSize ≤ k * f.maxBlockSize :=
        Nat.mul_le_mul_right _ hk1
      have hidx : off / f.maxBlockSize
          + wsub (k * f.maxBlockSize) (off / f.maxBlockSize * f.maxBlockSize) / r.max_block_size_
          = k := by
        have h1 : wsub (k * f.maxBlockSize) (off / f.maxBlockSize * f.maxBlockSize)
            = (k - off / f.maxBlockSize) * f.maxBlockSize := by
          rw [Nat.sub_mul]; unfold wsub; omega
        rw [h1, hM.2.1, Nat.mul_div_cancel _ hpos]; omega
      have hclen : ((P.drop (k * f.maxBlockSize)).take f.maxBlockSize).length
          = min f.maxBlockSize (P.length - k * f.maxBlockSize) := by
        rw [List.length_take, List.length_drop]
      have hew : wsub (wadd off count) (k * f.maxBlockSize) = off + count - k * f.maxBlockSize := by
        rw [hwe]; unfold wsub; omega
      have hsw : (if off > k * f.maxBlockSize then off - k * f.maxBlockSize else 0)
          = max off (k * f.maxBlockSize) - k * f.maxBlockSize := by
        split <;> omega
      have hlen : wsub (min r.max_block_size_ (wsub (wadd off count) (k * f.maxBlockSize)))
          (if off > k * f.maxBlockSize then off - k * f.maxBlockSize else 0)
          = min (k * f.maxBlockSize + f.maxBlockSize) (off + count)
            - max off (k * f.maxBlockSize) := by
        rw [hew, hsw, hM.2.1]; unfold wsub; omega
      obtain ⟨r1, hd, hM1⟩ := Lz4Reader.decompress_block_chunk hf hM k b hb _ hdec
        (max off (k * f.maxBlockSize) - k * f.maxBlockSize)
        (min (k * f.maxBlockSize + f.maxBlockSize) (off + count) - max off (k * f.maxBlockSize))
        (by rw [hclen]; omega) (by rw [hclen]; omega)
      have hfetch := Lz4Reader.decompress_block_fetch_chunk hf hM k b hb _ hdec
        (max off (k * f.maxBlockSize) - k * f.maxBlockSize)
        (min (k * f.maxBlockSize + f.maxBlockSize) (off + count) - max off (k * f.maxBlockSize))
        (by rw [hclen]; omega)
      have hstep := Lz4Reader.readLoopFetches_step lz4 off count (off / f.maxBlockSize)
        (off / f.maxBlockSize * f.maxBlockSize) fuel r r1 (k * f.maxBlockSize) _
        (by rw [hwe]; exact hlt) (by rw [hlen, hsw, hidx]; exact hd)
      have hnext : wadd (k * f.maxBlockSize) r.max_block_size_ = (k + 1) * f.maxBlockSize := by
        rw [hM.2.1, Nat.succ_mul]; exact wadd_of_lt (by omega)
      rw [hstep, hnext, hlen, hsw, hidx]
      have hsm : (k + 1) * f.maxBlockSize = k * f.maxBlockSize + f.maxBlockSize := Nat.succ_mul _ _
      intro q hq
      rcases List.mem_append.mp hq with hq | hq
      · exact hfetch q hq
      · exact ih r1 hM1 (k + 1) (by omega) (by rw [hsm]; omega) q hq
    · have hge : ¬ k * f.maxBlockSize < wadd off count := by rw [hwe]; exact hlt
      rw [Lz4Reader.readLoopFetches_exit _ _ _ _ _ _ _ _ hge]
      intro q hq; simp at hq

/-- Inside the plaintext, every range `read` fetches from upstream lies inside
the payload of one block. -/
theorem Lz4Reader.read_fetches {lz4 : Lz4Decoder} {f : Lz4Frame} {u : Reader}
    {P : List Byte} (hf : f.ServedBy u) (hE : f.Encodes lz4 P)
    (hP : P.length + f.maxBlockSize < 2 ^ 64) (r : Lz4Reader) (hM : r.Models lz4 f u P.length)
    (off count : Nat) (hr : off + count ≤ P.length) :
    ∀ q ∈ Lz4Reader.readFetches lz4 r off count, f.InPayload q := by
  have hpos : 0 < f.maxBlockSize := by
    have := (Lz4Frame.maxBlockSize_bounds f hf.1.1).1; omega
  have hwe : wadd off count = off + count := wadd_of_lt (by omega)
  have hq2 : off < off / f.maxBlockSize * f.maxBlockSize + f.maxBlockSize := by
    have h1 := Nat.div_add_mod off f.maxBlockSize
    have h2 := Nat.mod_lt off hpos
    rw [Nat.mul_comm] at h1
    omega
  have h1 := Lz4Reader.readLoop_fetches hf hE hP off count hr
    (off + count - off / f.maxBlockSize * f.maxBlockSize) r hM (off / f.maxBlockSize)
    (le_refl _) hq2
  unfold Lz4Reader.readFetches
  simp only [hwe, hM.2.2.2.1, hM.2.1]
  rw [if_neg (by omega), if_neg (by omega)]
  exact h1

set_option maxRecDepth 100000 in
/-- C27 (refuted by the code): a read fetches a block-size header again. In the
frame of two stored blocks of one byte each, the block-size word of block 1 lies
at file offsets 12 to 15. For the in-range `read(0, 6)` the stored branch of
`decompress_block` asks the upstream for six bytes at `data_offset_ == 11`
although `data_size_ == 1`: the range covers that word, and its bytes are
returned as data. On the same layout with a compressed first block the other
branch fetches the two bytes of the payload only and the read raises. -/
theorem C27_stored_fetch_covers_header :
    (∃ r, Lz4Reader.new lz4LiteralRun 21 (FileReader (preadFile testFrameShort.bytes) 21)
        = some (.ok r) ∧
      0 + 6 ≤ r.size ∧
      r.blocks_ = [{ uncompressed_ := true, data_size_ := 1, data_offset_ := 11 },
        { uncompressed_ := true, data_size_ := 1, data_offset_ := 16 }] ∧
      (testFrameShort.bytes.drop (16 - 4)).take 4 = le32bytes (2 ^ 31 + 1) ∧
      Lz4Reader.readFetches lz4LiteralRun r 0 6 = [(11, 6)] ∧
      (Lz4Reader.read lz4LiteralRun r 0 6).map Prod.fst = some (.ok [7, 1, 0, 0, 0x80, 9])) ∧
    (∃ r, Lz4Reader.new lz4LiteralRun 22
        (FileReader (preadFile (testFrame [⟨false, [0x10, 7], []⟩, ⟨true, [9], []⟩]).bytes) 22)
        = some (.ok r) ∧
      0 + 6 ≤ r.size ∧
      r.blocks_ = [{ uncompressed_ := false, data_size_ := 2, data_offset_ := 11 },
        { uncompressed_ := true, data_size_ := 1, data_offset_ := 17 }] ∧
      Lz4Reader.readFetches lz4LiteralRun r 0 6 = [(11, 2)] ∧
      (Lz4Reader.read lz4LiteralRun r 0 6).map Prod.fst
        = some (.error (.failedToReadBlock 0))) := by
  refine ⟨⟨_, rfl, ?_, ?_, ?_, ?_, ?_⟩, ⟨_, rfl, ?_, ?_, ?_, ?_⟩⟩ <;> decide

/-- What reads keep: for every state of an `Lz4Reader` and every `read` that
returns or raises, `blocks_`, `max_block_size_`, `decompressed_size_` (so
`size()`), the upstream and the four frame flags are the same before and after:
only the two buffers and the cached block id may change. For a well-formed frame
whose blocks except the last decompress to `max_block_size` bytes, in every
state reached by reads every range that an in-range `read` fetches from upstream
lies inside the payload of one block. -/
theorem Lz4Reader.reads_keep_construction (lz4 : Lz4Decoder) :
    (∀ (r : Lz4Reader) (off count : Nat) (res : Except Exception (List Byte)) (r1 : Lz4Reader),
      Lz4Reader.read lz4 r off count = some (res, r1) →
      r1.blocks_ = r.blocks_ ∧ r1.max_block_size_ = r.max_block_size_ ∧
      r1.decompressed_size_ = r.decompressed_size_ ∧ r1.size = r.size ∧
      r1.upstream_ = r.upstream_ ∧ r1.with_block_checksum_ = r.with_block_checksum_ ∧
      r1.with_content_size_ = r.with_content_size_ ∧
      r1.with_content_checksum_ = r.with_content_checksum_ ∧
      r1.with_dic_id_ = r.with_dic_id_) ∧
    (∀ (f : Lz4Frame) (u : Reader) (P : List Byte), f.ServedBy u → f.Encodes lz4 P →
      P.length + f.maxBlockSize < 2 ^ 64 → ∀ fuel, f.bytes.length ≤ fuel →
      ∃ r, Lz4Reader.new lz4 fuel u = some (.ok r) ∧ r.size = P.length ∧
        ∀ (reqs : List (Off × Nat)) (r1 : Lz4Reader), Lz4Reader.reads lz4 r reqs = some r1 →
          r1.size = r.size ∧ r1.blocks_ = r.blocks_ ∧
          ∀ off count : Nat, off + count ≤ r.size →
            ∀ q ∈ Lz4Reader.readFetches lz4 r1 off count, f.InPayload q) := by
  refine ⟨fun r off count res r1 h => ?_, fun f u P hf hE hP fuel hfuel => ?_⟩
  · obtain ⟨f1, f2, f3, f4, f5, f6, f7, f8⟩ := Lz4Reader.read_keeps lz4 r off count res r1 h
    exact ⟨f2, f3, f4, f4, f1, f5, f6, f7, f8⟩
  · obtain ⟨r, h1, hM⟩ := Lz4Reader.new_encodes hf hE hP fuel hfuel
    have hsize : r.size = P.length := hM.2.2.2.1
    refine ⟨r, h1, hsize, fun reqs r1 hreach => ?_⟩
    have hM1 := Lz4Reader.reads_models hf r hM reqs r1 hreach
    refine ⟨by rw [hsize]; exact hM1.2.2.2.1, by rw [hM1.2.2.1, hM.2.2.1],
      fun off count hr => ?_⟩
    rw [hsize] at hr
    exact Lz4Reader.read_fetches hf hE hP r1 hM1 off count hr

/-! ## Theorems: ReaderArray -/

/-- One record that lies inside the served content is read in full. -/
theorem Serves.readObj_full {u : Reader} {data : List Byte} (hs : Serves u data)
    (off r : Nat) (hr : 0 < r) (h : off + r ≤ data.length) :
    Reader.readObj u.read off r 1 = .ok ((data.drop off).take r) := by
  unfold Reader.readObj
  simp only [one_ne_zero, if_false, one_mul]
  rw [hs off r (by omega) hr]
  have : ((data.drop off).take r).length = r := by
    rw [List.length_take, List.length_drop]; omega
  simp only []
  rw [if_neg (not_not.mpr this)]

/-- One record that starts inside the served content and runs past its end is an
incomplete read. -/
theorem Serves.readObj_short {u : Reader} {data : List Byte} (hs : Serves u data)
    (off r : Nat) (h1 : off < data.length) (h2 : data.length < off + r) :
    Reader.readObj u.read off r 1 = .error .incompleteObjectRead := by
  unfold Reader.readObj
  simp only [one_ne_zero, if_false, one_mul]
  rw [hs off r h1 (by omega)]
  have : ((data.drop off).take r).length ≠ r := by
    rw [List.length_take, List.length_drop]; omega
  simp only []
  rw [if_pos this]

/-- The loop visits nothing from an iterator that equals `end()`. -/
theorem ReaderArray.elementsFrom_atEnd (a : ReaderArray) (fuel : Nat)
    (it : ReaderArray.iterator) (h : it.offset = a.reader.size) :
    ReaderArray.elementsFrom a fuel it = some [] := by
  cases fuel <;> simp [ReaderArray.elementsFrom, ReaderArray.iterator.atEnd, h]

/-- One round of the loop from an iterator that differs from `end()`. -/
theorem ReaderArray.elementsFrom_succ (a : ReaderArray) (fuel : Nat)
    (it : ReaderArray.iterator) (h : it.offset ≠ a.reader.size) :
    ReaderArray.elementsFrom a (fuel + 1) it =
      (ReaderArray.elementsFrom a fuel (it.next a)).map (fun rest => it.datum :: rest) := by
  rw [ReaderArray.elementsFrom]
  simp only [ReaderArray.iterator.atEnd, h, decide_False, Bool.false_eq_true, if_false]
  cases ReaderArray.elementsFrom a fuel (it.next a) <;> rfl

/-- The loop of a range-based `for` from an iterator at record `k` of a served
content with `n + 1` whole records left: it visits the datum of the iterator and
then the `n` records after `k`. -/
theorem ReaderArray.elementsFrom_records (u : Reader) (data : List Byte) (hs : Serves u data)
    (s : Nat) (hsize : u.size = s) (hdata : data.length = s) (hlen : s < 2 ^ 64)
    (r : Nat) (hr : 0 < r) (N : Nat) (hNr : N * r ≤ s) (hlt : s < N * r + r)
    (off0 : Nat) (n : Nat) :
    ∀ (k fuel : Nat) (d : List Byte), k + (n + 1) = N → n + 1 ≤ fuel →
      ReaderArray.elementsFrom ⟨u, r, off0⟩ fuel ⟨d, k * r⟩
        = some (d :: recordsFrom data r (k + 1) n) := by
  induction n with
  | zero =>
    intro k fuel d hk hfuel
    obtain ⟨fuel, rfl⟩ : ∃ g, fuel = g + 1 := ⟨fuel - 1, by omega⟩
    have hk1 : k * r + r = N * r := by rw [← hk]; exact (Nat.succ_mul k r).symm
    have hk2 : (k + 1) * r = k * r + r := Nat.succ_mul k r
    have hne : k * r ≠ s := by omega
    rw [ReaderArray.elementsFrom_succ _ _ _ (by show k * r ≠ u.size; rw [hsize]; exact hne)]
    have hw : wadd (k * r) r = (k + 1) * r := by rw [hk2]; exact wadd_of_lt (by omega)
    have hend : (ReaderArray.iterator.next ⟨u, r, off0⟩ ⟨d, k * r⟩).offset = u.size := by
      unfold ReaderArray.iterator.next
      simp only [hw, hsize]
      by_cases he : (k + 1) * r = s
      · rw [if_neg (not_not.mpr he)]; exact he
      · rw [if_pos he]
        unfold ReaderArray.iterator.getitem
        simp only
        rw [hs.readObj_short ((k + 1) * r) r (by omega) (by omega)]
        simp only [hsize]
    rw [ReaderArray.elementsFrom_atEnd _ _ _ hend]
    rfl
  | succ n ih =>
    intro k fuel d hk hfuel
    obtain ⟨fuel, rfl⟩ : ∃ g, fuel = g + 1 := ⟨fuel - 1, by omega⟩
    have hk1 : (k + 1 + 1) * r ≤ N * r := Nat.mul_le_mul_right _ (by omega)
    have hk2 : (k + 1) * r = k * r + r := Nat.succ_mul k r
    have hk3 : (k + 1 + 1) * r = (k + 1) * r + r := Nat.succ_mul (k + 1) r
    have hne : k * r ≠ s := by omega
    rw [ReaderArray.elementsFrom_succ _ _ _ (by show k * r ≠ u.size; rw [hsize]; exact hne)]
    have hw : wadd (k * r) r = (k + 1) * r := by rw [hk2]; exact wadd_of_lt (by omega)
    have hne2 : (k + 1) * r ≠ s := by omega
    have hnext : ReaderArray.iterator.next ⟨u, r, off0⟩ ⟨d, k * r⟩
        = ⟨(data.drop ((k + 1) * r)).take r, (k + 1) * r⟩ := by
      unfold ReaderArray.iterator.next
      simp only [hw, hsize]
      rw [if_pos hne2]
      unfold ReaderArray.iterator.getitem
      simp only
      rw [hs.readObj_full ((k + 1) * r) r hr (by omega)]
    rw [hnext, ih (k + 1) fuel _ (by omega) (by omega)]
    rfl

/-- The number of records listed. -/
theorem recordsFrom_length (data : List Byte) (r k n : Nat) :
    (recordsFrom data r k n).length = n := by
  induction n generalizing k with
  | zero => rfl
  | succ n ih => simp [recordsFrom, ih]

/-- The `i`-th record listed from record `k` on is the `r` bytes at offset
`(k + i) * r`. -/
theorem recordsFrom_get (data : List Byte) (r k n i : Nat) (h : i < n) :
    (recordsFrom data r k n)[i]? = some ((data.drop ((k + i) * r)).take r) := by
  induction n generalizing k i with
  | zero => omega
  | succ n ih =>
    cases i with
    | zero => simp [recordsFrom]
    | succ j =>
      simp only [recordsFrom, List.getElem?_cons_succ]
      rw [ih (k + 1) j (by omega)]
      rw [show k + 1 + j = k + (j + 1) by omega]

/-- C21 (as stated, refuted): over a source of five bytes and records of four
bytes, a source truncated mid-record, the `assert` in the constructor of
`ReaderArray` fails, for a memory reader and for a file reader: the program is
aborted before any element is yielded. -/
theorem C21_truncated_source_asserts_counterexample :
    Reader.size (MemReader 5 [1, 2, 3, 4, 5]) = 5 ∧
    (ReaderArray.new (MemReader 5 [1, 2, 3, 4, 5]) 4 0).isNone = true ∧
    (ReaderArray.new (FileReader (preadFile [1, 2, 3, 4, 5]) 5) 4 0).isNone = true := by
  decide

/-- C21 (amended): for every reader that serves a content of `s < 2^64` bytes
with `size() == s`, and every record size `r > 0`: the constructor of
`ReaderArray` passes its `assert` when `s` is a multiple of `r`, and fails it
when `s` is neither a multiple of `r` nor the largest offset. Iterating the
array from offset 0, `begin()` to `end()`, ends and yields exactly
`floor(s / r)` elements, the `i`-th equal to the `r` bytes at offset `i * r`,
without raising; this holds also for a truncated source when the `assert` is
compiled out. -/
theorem C21_reader_array_elements (u : Reader) (data : List Byte) (hs : Serves u data)
    (hsize : u.size = data.length) (hlen : data.length < 2 ^ 64) (r : Nat) (hr : 0 < r)
    (uninit : List Byte) (fuel : Nat) (hfuel : data.length / r ≤ fuel) :
    (data.length % r = 0 → (ReaderArray.new u r 0).isSome = true) ∧
    (data.length % r ≠ 0 → data.length ≠ OffMax → (ReaderArray.new u r 0).isNone = true) ∧
    ReaderArray.elements ⟨u, r, 0⟩ uninit fuel
      = some (recordsFrom data r 0 (data.length / r)) ∧
    (recordsFrom data r 0 (data.length / r)).length = data.length / r ∧
    ∀ i, i < data.length / r →
      (recordsFrom data r 0 (data.length / r))[i]? = some ((data.drop (i * r)).take r) ∧
      ((data.drop (i * r)).take r).length = r := by
  have hNr : data.length / r * r ≤ data.length := Nat.div_mul_le_self _ _
  refine ⟨fun h => ?_, fun h1 h2 => ?_, ?_, recordsFrom_length _ _ _ _, fun i hi => ⟨?_, ?_⟩⟩
  · simp [ReaderArray.new, ReaderArray.sizeAsserted, hsize, h]
  · simp [ReaderArray.new, ReaderArray.sizeAsserted, hsize, h1, h2]
  · have hlt : data.length < data.length / r * r + r := by
      have h1 := Nat.div_add_mod data.length r
      have h2 := Nat.mod_lt data.length hr
      rw [Nat.mul_comm] at h1
      omega
    unfold ReaderArray.elements ReaderArray.begin ReaderArray.iterator.getitem
    simp only
    by_cases hN : data.length / r = 0
    · rw [hN]
      have hsmall : data.length < r := by
        rw [hN, Nat.zero_mul, Nat.zero_add] at hlt; exact hlt
      by_cases h0 : data.length = 0
      · cases hro : Reader.readObj u.read 0 r 1 with
        | ok bs =>
          simp only
          rw [ReaderArray.elementsFrom_atEnd _ _ _ (by show 0 = u.size; rw [hsize, h0])]
          rfl
        | error e =>
          simp only
          rw [ReaderArray.elementsFrom_atEnd _ _ _ rfl]
          rfl
      · rw [hs.readObj_short 0 r (by omega) (by omega)]
        simp only
        rw [ReaderArray.elementsFrom_atEnd _ _ _ rfl]
        rfl
    · obtain ⟨n, hn⟩ := Nat.exists_eq_succ_of_ne_zero hN
      have hfull : 0 + r ≤ data.length := by
        rw [hn, Nat.succ_mul] at hNr; omega
      rw [hs.readObj_full 0 r hr hfull]
      simp only
      have h := ReaderArray.elementsFrom_records u data hs data.length hsize rfl hlen r hr
        (data.length / r) hNr hlt 0 n 0 fuel ((data.drop 0).take r) (by omega) (by omega)
      rw [Nat.zero_mul] at h
      rw [h, hn]
      simp [recordsFrom]
  · have := recordsFrom_get data r 0 (data.length / r) i hi
    rw [Nat.zero_add] at this
    exact this
  · rw [List.length_take, List.length_drop]
    have : (i + 1) * r ≤ data.length / r * r := Nat.mul_le_mul_right _ (by omega)
    rw [Nat.succ_mul] at this
    omega

/-- C21 (witness): a file of nine bytes and records of four bytes: two
elements. -/
theorem C21_reader_array_elements_witness :
    ReaderArray.elements ⟨FileReader (preadFile [1, 2, 3, 4, 5, 6, 7, 8, 9]) 9, 4, 0⟩ [] 2
      = some (recordsFrom [1, 2, 3, 4, 5, 6, 7, 8, 9] 4 0
        (([1, 2, 3, 4, 5, 6, 7, 8, 9] : List Byte).length / 4)) ∧
    recordsFrom [1, 2, 3, 4, 5, 6, 7, 8, 9] 4 0 2 = [[1, 2, 3, 4], [5, 6, 7, 8]] :=
  ⟨(C21_reader_array_elements (FileReader (preadFile [1, 2, 3, 4, 5, 6, 7, 8, 9]) 9)
    [1, 2, 3, 4, 5, 6, 7, 8, 9] (FileReader_serves _ _) rfl (by decide) 4 (by decide) [] 2
    (by decide)).2.2.1, by decide⟩

/-! ## Theorems: the decompressed buffer of Lz4Reader as a cache -/

/-- When the loop of `read_upstream_up_to` ends with `true`, at least `req_size`
bytes were written: the 32-bit counter is never above the number of bytes. -/
theorem Lz4Reader.read_upstream_loop_length (upstream : Reader) (offset : Off) (req_size : Nat) :
    ∀ (fuel sum : Nat) (dst out : List Byte),
      Lz4Reader.read_upstream_loop upstream offset req_size fuel sum dst = some (.ok true, out) →
      sum ≤ dst.length → req_size ≤ out.length := by
  intro fuel
  induction fuel with
  | zero =>
    intro sum dst out h hs
    unfold Lz4Reader.read_upstream_loop at h
    by_cases hr : req_size > sum
    · rw [if_pos hr] at h; simp at h
    · rw [if_neg hr] at h
      simp only [Option.some.injEq, Prod.mk.injEq, true_and] at h
      rw [← h]; omega
  | succ fuel ih =>
    intro sum dst out h hs
    unfold Lz4Reader.read_upstream_loop at h
    by_cases hr : req_size > sum
    · rw [if_pos hr] at h
      cases hu : upstream.read (wadd offset sum) (wsub req_size sum) with
      | error e => rw [hu] at h; simp at h
      | ok bs =>
        rw [hu] at h
        simp only at h
        by_cases hz : bs.length % 2 ^ 32 = 0
        · rw [if_pos hz] at h; simp at h
        · rw [if_neg hz] at h
          refine ih _ _ _ h ?_
          rw [List.length_append]
          have h1 : (sum + bs.length % 2 ^ 32) % 2 ^ 32 ≤ sum + bs.length % 2 ^ 32 :=
            Nat.mod_le _ _
          have h2 : bs.length % 2 ^ 32 ≤ bs.length := Nat.mod_le _ _
          omega
    · rw [if_neg hr] at h
      simp only [Option.some.injEq, Prod.mk.injEq, true_and] at h
      rw [← h]; omega

/-- A call of `read_upstream_up_to` that returns `true` has written at least
`req_size` bytes. -/
theorem Lz4Reader.read_upstream_up_to_length (upstream : Reader) (offset : Off) (req_size : Nat)
    (out : List Byte)
    (h : Lz4Reader.read_upstream_up_to upstream offset req_size = some (.ok true, out)) :
    req_size ≤ out.length :=
  Lz4Reader.read_upstream_loop_length upstream offset req_size _ _ _ _ h (Nat.le_refl _)

/-- The start of a buffer after a write of at least `n` bytes is the start of
what was written. -/
theorem overwrite_take_of_le (buf bytes : List Byte) (n : Nat) (h : n ≤ bytes.length) :
    (overwrite buf bytes).take n = bytes.take n := by
  unfold overwrite
  exact List.take_append_of_le_length h

/-- The refill of the decompressed buffer for the block `blk`: its outcome is
that of `blockFetch`, it keeps the cache coherent, and after a refill that
succeeds the cached block id is `blk_idx` and the buffer holds the decompression
of the block. -/
theorem Lz4Reader.fill_cache_fetch (lz4 : Lz4Decoder) (r : Lz4Reader) (blk_idx : Nat)
    (blk : Lz4Reader.BlockInfo) :
    (Lz4Reader.fill_cache lz4 r blk_idx blk).map Prod.fst
      = (Lz4Reader.blockFetch lz4 r.upstream_ r.max_block_size_ blk).map
          (Except.map Option.isSome) ∧
    ∀ res r1, Lz4Reader.fill_cache lz4 r blk_idx blk = some (res, r1) →
      (r.CacheCoherent lz4 → r.blocks_[blk_idx]? = some blk → r1.CacheCoherent lz4) ∧
      (res = .ok true → r1.decompressed_buf_blk_id_ = blk_idx ∧
        Lz4Reader.blockFetch lz4 r.upstream_ r.max_block_size_ blk
          = some (.ok (some r1.decompressed_buf_))) := by
  unfold Lz4Reader.fill_cache Lz4Reader.blockFetch
  rcases hru : Lz4Reader.read_upstream_up_to r.upstream_ blk.data_offset_ blk.data_size_
    with _ | ⟨rr, bytes⟩
  · simp
  · cases rr with
    | error e =>
      refine ⟨rfl, fun res r1 h => ?_⟩
      simp only [Option.some.injEq, Prod.mk.injEq] at h
      obtain ⟨h1, h2⟩ := h
      subst h1 h2
      exact ⟨fun hc _ => hc, fun hh => by simp at hh⟩
    | ok b =>
      cases b with
      | false =>
        refine ⟨rfl, fun res r1 h => ?_⟩
        simp only [Option.some.injEq, Prod.mk.injEq] at h
        obtain ⟨h1, h2⟩ := h
        subst h1 h2
        exact ⟨fun hc _ => hc, fun hh => by simp at hh⟩
      | true =>
        have hlen := Lz4Reader.read_upstream_up_to_length _ _ _ _ hru
        simp only [overwrite_take_of_le _ _ _ hlen]
        cases hl : lz4 (bytes.take blk.data_size_) r.max_block_size_ r.max_block_size_ with
        | none =>
          refine ⟨rfl, fun res r1 h => ?_⟩
          simp only [Option.some.injEq, Prod.mk.injEq] at h
          obtain ⟨h1, h2⟩ := h
          subst h1 h2
          exact ⟨fun _ _ => Or.inl rfl, fun hh => by simp at hh⟩
        | some out =>
          refine ⟨rfl, fun res r1 h => ?_⟩
          simp only [Option.some.injEq, Prod.mk.injEq] at h
          obtain ⟨h1, h2⟩ := h
          subst h1 h2
          have hbf : Lz4Reader.blockFetch lz4 r.upstream_ r.max_block_size_ blk
              = some (.ok (some out)) := by
            unfold Lz4Reader.blockFetch
            rw [hru]
            simp only [hl]
          refine ⟨fun _ hb => Or.inr ⟨blk, hb, hbf⟩, fun _ => ⟨rfl, ?_⟩⟩
          simp only [hl]

/-- From a coherent cache `decompress_block` returns what it returns when
nothing is cached, and it leaves the cache coherent, whatever it returns. -/
theorem Lz4Reader.decompress_block_cache (lz4 : Lz4Decoder) (r : Lz4Reader)
    (hc : r.CacheCoherent lz4) (blk_idx : Nat) (o : Off) (n : Nat) :
    (r.blocks_.length < 2 ^ 64 →
      (Lz4Reader.decompress_block lz4 r blk_idx o n).map Prod.fst
        = Lz4Reader.blockResult lz4 r.upstream_ r.max_block_size_ r.blocks_ blk_idx o n) ∧
    ∀ res r1, Lz4Reader.decompress_block lz4 r blk_idx o n = some (res, r1) →
      r1.CacheCoherent lz4 := by
  unfold Lz4Reader.decompress_block Lz4Reader.blockResult
  cases hinfo : r.blocks_[blk_idx]? with
  | none =>
    refine ⟨fun _ => rfl, fun res r1 h => ?_⟩
    simp only [Option.some.injEq, Prod.mk.injEq] at h
    rw [← h.2]; exact hc
  | some blk =>
    simp only
    by_cases hun : blk.uncompressed_ = true
    · rw [if_pos hun, if_pos hun]
      rcases hru : Lz4Reader.read_upstream_up_to r.upstream_ (wadd blk.data_offset_ o) n
        with _ | ⟨rr, bytes⟩
      · exact ⟨fun _ => rfl, fun res r1 h => by simp at h⟩
      · cases rr with
        | error e =>
          refine ⟨fun _ => rfl, fun res r1 h => ?_⟩
          simp only [Option.some.injEq, Prod.mk.injEq] at h
          rw [← h.2]; exact hc
        | ok b =>
          refine ⟨fun _ => rfl, fun res r1 h => ?_⟩
          simp only [Option.some.injEq, Prod.mk.injEq] at h
          rw [← h.2]; exact hc
    · rw [if_neg hun, if_neg hun]
      by_cases hit : r.decompressed_buf_blk_id_ = blk_idx
      · rw [if_neg (not_not.mpr hit)]
        simp only
        refine ⟨fun hn => ?_, fun res r1 h => ?_⟩
        · have hbf : Lz4Reader.blockFetch lz4 r.upstream_ r.max_block_size_ blk
              = some (.ok (some r.decompressed_buf_)) := by
            rcases hc with h0 | ⟨blk1, hb1, hf1⟩
            · exfalso
              rw [hit] at h0
              have hlt : blk_idx < r.blocks_.length := by
                by_contra hge
                rw [List.getElem?_eq_none (Nat.le_of_not_lt hge)] at hinfo
                simp at hinfo
              rw [h0] at hlt
              unfold OffMax at hlt
              omega
            · rw [hit, hinfo] at hb1
              simp only [Option.some.injEq] at hb1
              rw [hb1]; exact hf1
          rw [hbf]
          simp only
          by_cases hl : r.decompressed_buf_.length < wadd o n
          · rw [if_pos hl, if_pos hl]; rfl
          · rw [if_neg hl, if_neg hl]; rfl
        · by_cases hl : r.decompressed_buf_.length < wadd o n
          · rw [if_pos hl] at h
            simp only [Option.some.injEq, Prod.mk.injEq] at h
            rw [← h.2]; exact hc
          · rw [if_neg hl] at h
            simp only [Option.some.injEq, Prod.mk.injEq] at h
            rw [← h.2]; exact hc
      · rw [if_pos hit]
        obtain ⟨hf1, hf2⟩ := Lz4Reader.fill_cache_fetch lz4 r blk_idx blk
        rcases hfc : Lz4Reader.fill_cache lz4 r blk_idx blk with _ | ⟨fres, r1⟩
        · rw [hfc] at hf1
          simp only [Option.map_none'] at hf1
          have hbn : Lz4Reader.blockFetch lz4 r.upstream_ r.max_block_size_ blk = none := by
            cases hb : Lz4Reader.blockFetch lz4 r.upstream_ r.max_block_size_ blk with
            | none => rfl
            | some v => rw [hb] at hf1; simp at hf1
          rw [hbn]
          exact ⟨fun _ => rfl, fun res r1 h => by simp at h⟩
        · rw [hfc] at hf1
          obtain ⟨hco, hbuf⟩ := hf2 fres r1 hfc
          have hc1 := hco hc hinfo
          cases fres with
          | error e =>
            refine ⟨fun _ => ?_, fun res r2 h => ?_⟩
            · cases hb : Lz4Reader.blockFetch lz4 r.upstream_ r.max_block_size_ blk with
              | none => rw [hb] at hf1; simp at hf1
              | some v =>
                rw [hb] at hf1
                cases v with
                | error e1 =>
                  simp only [Option.map_some', Except.map, Option.some.injEq,
                    Except.error.injEq] at hf1
                  rw [hf1]; rfl
                | ok w => simp [Except.map] at hf1
            · simp only [Option.some.injEq, Prod.mk.injEq] at h
              rw [← h.2]; exact hc1
          | ok b =>
            cases b with
            | false =>
              refine ⟨fun _ => ?_, fun res r2 h => ?_⟩
              · cases hb : Lz4Reader.blockFetch lz4 r.upstream_ r.max_block_size_ blk with
                | none => rw [hb] at hf1; simp at hf1
                | some v =>
                  rw [hb] at hf1
                  cases v with
                  | error e1 => simp [Except.map] at hf1
                  | ok w =>
                    cases w with
                    | none => rfl
                    | some buf => simp [Except.map] at hf1
              · simp only [Option.some.injEq, Prod.mk.injEq] at h
                rw [← h.2]; exact hc1
            | true =>
              obtain ⟨_, hbf⟩ := hbuf rfl
              rw [hbf]
              simp only
              refine ⟨fun _ => ?_, fun res r2 h => ?_⟩
              · by_cases hl : r1.decompressed_buf_.length < wadd o n
                · rw [if_pos hl, if_pos hl]; rfl
                · rw [if_neg hl, if_neg hl]; rfl
              · by_cases hl : r1.decompressed_buf_.length < wadd o n
                · rw [if_pos hl] at h
                  simp only [Option.some.injEq, Prod.mk.injEq] at h
                  rw [← h.2]; exact hc1
                · rw [if_neg hl] at h
                  simp only [Option.some.injEq, Prod.mk.injEq] at h
                  rw [← h.2]; exact hc1

/-- The loop of `read` keeps the cache coherent, whatever it returns. -/
theorem Lz4Reader.readLoop_cache (lz4 : Lz4Decoder) (off count start floor : Nat) (fuel : Nat) :
    ∀ (r : Lz4Reader) (offset : Nat) (dst : List Byte) (res : Except Exception (List Byte))
      (r1 : Lz4Reader), r.CacheCoherent lz4 →
      Lz4Reader.readLoop lz4 off count start floor fuel r offset dst = some (res, r1) →
      r1.CacheCoherent lz4 := by
  induction fuel with
  | zero =>
    intro r offset dst res r1 hc h
    unfold Lz4Reader.readLoop at h
    split at h
    · simp at h
    · simp only [Option.some.injEq, Prod.mk.injEq] at h
      rw [← h.2]; exact hc
  | succ fuel ih =>
    intro r offset dst res r1 hc h
    rw [Lz4Reader.readLoop] at h
    split at h
    · simp only at h
      rcases hd : Lz4Reader.decompress_block lz4 r (start + wsub offset floor / r.max_block_size_)
        (if off > offset then off - offset else 0)
        (wsub (min r.max_block_size_ (wsub (wadd off count) offset))
          (if off > offset then off - offset else 0)) with _ | ⟨rr, r2⟩
      · simp [hd] at h
      · have hc2 := (Lz4Reader.decompress_block_cache lz4 r hc _ _ _).2 rr r2 hd
        rw [hd] at h
        cases rr with
        | error e =>
          simp only [Option.some.injEq, Prod.mk.injEq] at h
          rw [← h.2]; exact hc2
        | ok v =>
          obtain ⟨bb, bytes⟩ := v
          cases bb with
          | false =>
            simp only [Option.some.injEq, Prod.mk.injEq] at h
            rw [← h.2]; exact hc2
          | true =>
            simp only at h
            exact ih r2 _ _ res r1 hc2 h
    · simp only [Option.some.injEq, Prod.mk.injEq] at h
      rw [← h.2]; exact hc

/-- A `read` keeps the cache coherent, whatever it returns. -/
theorem Lz4Reader.read_cache (lz4 : Lz4Decoder) (r : Lz4Reader) (off count : Nat)
    (res : Except Exception (List Byte)) (r1 : Lz4Reader) (hc : r.CacheCoherent lz4)
    (h : Lz4Reader.read lz4 r off count = some (res, r1)) : r1.CacheCoherent lz4 := by
  unfold Lz4Reader.read at h
  simp only at h
  split at h
  · simp only [Option.some.injEq, Prod.mk.injEq] at h
    rw [← h.2]; exact hc
  · split at h
    · simp only [Option.some.injEq, Prod.mk.injEq] at h
      rw [← h.2]; exact hc
    · exact Lz4Reader.readLoop_cache lz4 _ _ _ _ _ r _ _ res r1 hc h

/-- After any sequence of reads the cache is coherent and the upstream, the
block index, `max_block_size_` and `decompressed_size_` are as before. -/
theorem Lz4Reader.reads_cache (lz4 : Lz4Decoder) (r : Lz4Reader) (hc : r.CacheCoherent lz4)
    (reqs : List (Off × Nat)) (r1 : Lz4Reader) (h : Lz4Reader.reads lz4 r reqs = some r1) :
    r1.CacheCoherent lz4 ∧ r1.upstream_ = r.upstream_ ∧ r1.blocks_ = r.blocks_ ∧
    r1.max_block_size_ = r.max_block_size_ ∧ r1.decompressed_size_ = r.decompressed_size_ := by
  induction reqs generalizing r with
  | nil =>
    simp only [Lz4Reader.reads, Option.some.injEq] at h
    rw [← h]; exact ⟨hc, rfl, rfl, rfl, rfl⟩
  | cons q rest ih =>
    obtain ⟨off, count⟩ := q
    unfold Lz4Reader.reads at h
    rcases hr : Lz4Reader.read lz4 r off count with _ | ⟨res, r2⟩
    · simp [hr] at h
    · rw [hr] at h
      obtain ⟨k1, k2, k3, k4, _⟩ := Lz4Reader.read_keeps lz4 r off count res r2 hr
      obtain ⟨i0, i1, i2, i3, i4⟩ :=
        ih r2 (Lz4Reader.read_cache lz4 r off count res r2 hc hr) h
      exact ⟨i0, i1.trans k1, i2.trans k2, i3.trans k3, i4.trans k4⟩

/-- From two states with the same upstream, block index and `max_block_size_`,
both with a coherent cache, the loop of `read` returns the same. -/
theorem Lz4Reader.readLoop_indep (lz4 : Lz4Decoder) (off count start floor : Nat) (fuel : Nat) :
    ∀ (r r' : Lz4Reader) (offset : Nat) (dst : List Byte),
      r'.upstream_ = r.upstream_ → r'.blocks_ = r.blocks_ →
      r'.max_block_size_ = r.max_block_size_ → r.CacheCoherent lz4 → r'.CacheCoherent lz4 →
      r.blocks_.length < 2 ^ 64 →
      (Lz4Reader.readLoop lz4 off count start floor fuel r offset dst).map Prod.fst
        = (Lz4Reader.readLoop lz4 off count start floor fuel r' offset dst).map Prod.fst := by
  induction fuel with
  | zero =>
    intro r r' offset dst hu hb hm hc hc' hn
    unfold Lz4Reader.readLoop
    by_cases hlt : offset < wadd off count
    · simp only [if_pos hlt, Option.map_none']
    · simp only [if_neg hlt, Option.map_some']
  | succ fuel ih =>
    intro r r' offset dst hu hb hm hc hc' hn
    rw [Lz4Reader.readLoop, Lz4Reader.readLoop]
    by_cases hlt : offset < wadd off count
    · rw [if_pos hlt, if_pos hlt]
      simp only [hm]
      have e := (Lz4Reader.decompress_block_cache lz4 r hc
        (start + wsub offset floor / r.max_block_size_)
        (if off > offset then off - offset else 0)
        (wsub (min r.max_block_size_ (wsub (wadd off count) offset))
          (if off > offset then off - offset else 0))).1 hn
      have e' := (Lz4Reader.decompress_block_cache lz4 r' hc'
        (start + wsub offset floor / r.max_block_size_)
        (if off > offset then off - offset else 0)
        (wsub (min r.max_block_size_ (wsub (wadd off count) offset))
          (if off > offset then off - offset else 0))).1 (by rw [hb]; exact hn)
      rw [hu, hb, hm, ← e] at e'
      rcases hd : Lz4Reader.decompress_block lz4 r (start + wsub offset floor / r.max_block_size_)
        (if off > offset then off - offset else 0)
        (wsub (min r.max_block_size_ (wsub (wadd off count) offset))
          (if off > offset then off - offset else 0)) with _ | ⟨rr, r2⟩
      · rw [hd] at e'
        rcases hd' : Lz4Reader.decompress_block lz4 r'
          (start + wsub offset floor / r.max_block_size_)
          (if off > offset then off - offset else 0)
          (wsub (min r.max_block_size_ (wsub (wadd off count) offset))
            (if off > offset then off - offset else 0)) with _ | ⟨rr', r2'⟩
        · rfl
        · rw [hd'] at e'; simp at e'
      · rw [hd] at e'
        rcases hd' : Lz4Reader.decompress_block lz4 r'
          (start + wsub offset floor / r.max_block_size_)
          (if off > offset then off - offset else 0)
          (wsub (min r.max_block_size_ (wsub (wadd off count) offset))
            (if off > offset then off - offset else 0)) with _ | ⟨rr', r2'⟩
        · rw [hd'] at e'; simp at e'
        · rw [hd'] at e'
          simp only [Option.map_some', Option.some.injEq] at e'
          subst e'
          have hc2 := (Lz4Reader.decompress_block_cache lz4 r hc _ _ _).2 _ r2 hd
          have hc2' := (Lz4Reader.decompress_block_cache lz4 r' hc' _ _ _).2 _ r2' hd'
          obtain ⟨k1, k2, k3, _⟩ := Lz4Reader.decompress_block_keeps lz4 r _ _ _ _ r2 hd
          obtain ⟨k1', k2', k3', _⟩ := Lz4Reader.decompress_block_keeps lz4 r' _ _ _ _ r2' hd'
          cases rr' with
          | error e => rfl
          | ok v =>
            obtain ⟨bb, bytes⟩ := v
            cases bb with
            | false => rfl
            | true =>
              simp only
              exact ih r2 r2' _ _ (by rw [k1', k1, hu]) (by rw [k2', k2, hb])
                (by rw [k3', k3, hm]) hc2 hc2' (by rw [k2]; exact hn)
    · simp only [if_neg hlt, Option.map_some']

/-- From two states with the same upstream, block index, `max_block_size_` and
`decompressed_size_`, both with a coherent cache, `read` returns the same. -/
theorem Lz4Reader.read_indep (lz4 : Lz4Decoder) (r r' : Lz4Reader)
    (hu : r'.upstream_ = r.upstream_) (hb : r'.blocks_ = r.blocks_)
    (hm : r'.max_block_size_ = r.max_block_size_)
    (hs : r'.decompressed_size_ = r.decompressed_size_)
    (hc : r.CacheCoherent lz4) (hc' : r'.CacheCoherent lz4) (hn : r.blocks_.length < 2 ^ 64)
    (off count : Nat) :
    (Lz4Reader.read lz4 r off count).map Prod.fst
      = (Lz4Reader.read lz4 r' off count).map Prod.fst := by
  unfold Lz4Reader.read
  simp only [hm, hs]
  by_cases h1 : wadd off count > r.decompressed_size_
  · simp only [if_pos h1, Option.map_some']
  · rw [if_neg h1, if_neg h1]
    by_cases h2 : r.max_block_size_ = 0
    · simp only [if_pos h2, Option.map_some']
    · rw [if_neg h2, if_neg h2]
      exact Lz4Reader.readLoop_indep lz4 _ _ _ _ _ r r' _ _ hu hb hm hc hc' hn

/-- The end of the constructor leaves a coherent cache: the sentinel, or the
last block with its decompression. -/
theorem Lz4Reader.finish_cache (lz4 : Lz4Decoder) (r r1 : Lz4Reader)
    (h0 : r.decompressed_buf_blk_id_ = OffMax)
    (h : Lz4Reader.finish lz4 r = some (.ok r1)) : r1.CacheCoherent lz4 := by
  unfold Lz4Reader.finish at h
  cases hl : r.blocks_.getLast? with
  | none =>
    rw [hl] at h
    simp only [Option.some.injEq, Except.ok.injEq] at h
    rw [← h]; exact Or.inl h0
  | some back =>
    rw [hl] at h
    simp only at h
    by_cases hun : back.uncompressed_ = true
    · rw [if_pos hun] at h
      simp only [Option.some.injEq, Except.ok.injEq] at h
      rw [← h]; exact Or.inl h0
    · rw [if_neg hun] at h
      rcases hru : Lz4Reader.read_upstream_up_to r.upstream_ back.data_offset_ back.data_size_
        with _ | ⟨rr, bytes⟩
      · rw [hru] at h; simp at h
      · rw [hru] at h
        cases rr with
        | error e => simp at h
        | ok b =>
          cases b with
          | false =>
            simp only [Option.some.injEq, Except.ok.injEq] at h
            rw [← h]; exact Or.inl h0
          | true =>
            have hlen := Lz4Reader.read_upstream_up_to_length _ _ _ _ hru
            simp only [overwrite_take_of_le _ _ _ hlen] at h
            cases hz : lz4 (bytes.take back.data_size_) r.max_block_size_ r.max_block_size_ with
            | none =>
              rw [hz] at h
              simp only [Option.some.injEq, Except.ok.injEq] at h
              rw [← h]; exact Or.inl h0
            | some out =>
              rw [hz] at h
              simp only [Option.some.injEq, Except.ok.injEq] at h
              rw [← h]
              refine Or.inr ⟨back, ?_, ?_⟩
              · show r.blocks_[r.blocks_.length - 1]? = some back
                rw [← List.getLast?_eq_getElem?]; exact hl
              · show Lz4Reader.blockFetch lz4 r.upstream_ r.max_block_size_ back
                  = some (.ok (some out))
                unfold Lz4Reader.blockFetch
                rw [hru]
                simp only [hz]

/-- The constructor leaves a coherent cache. -/
theorem Lz4Reader.new_cache (lz4 : Lz4Decoder) (fuel : Nat) (u : Reader) (r : Lz4Reader)
    (h : Lz4Reader.new lz4 fuel u = some (.ok r)) : r.CacheCoherent lz4 := by
  unfold Lz4Reader.new at h
  simp only at h
  repeat' split at h
  all_goals first
    | (simp at h; done)
    | (simp only [Option.some.injEq, Except.ok.injEq] at h; rw [← h]; exact Or.inl rfl)
    | exact Lz4Reader.finish_cache lz4 _ r rfl h

/-- C31: in every state reached from the constructor by any sequence of reads,
whatever they return (bytes, the out-of-range error, an exception of the
upstream, or the error of a failed fetch or decompression), the cached block id
is the sentinel `numeric_limits<size_t>::max()` or an index below the number of
blocks such that the decompressed buffer holds exactly the decompression of that
block (the block's payload fetched from the upstream and decoded with
`max_block_size_`). Consequently, with a block index that a `std::vector` can
hold, what `read(off, n)` returns is the same in any two such states: it does
not depend on the reads issued before. -/
theorem C31_decoded_block_cache_coherent (lz4 : Lz4Decoder) (fuel : Nat) (u : Reader)
    (r0 : Lz4Reader) (h0 : Lz4Reader.new lz4 fuel u = some (.ok r0)) :
    (∀ (reqs : List (Off × Nat)) (r1 : Lz4Reader), Lz4Reader.reads lz4 r0 reqs = some r1 →
      r1.decompressed_buf_blk_id_ = OffMax ∨
        (r1.decompressed_buf_blk_id_ < r1.blocks_.length ∧
          ∃ blk, r1.blocks_[r1.decompressed_buf_blk_id_]? = some blk ∧
            Lz4Reader.blockFetch lz4 r1.upstream_ r1.max_block_size_ blk
              = some (.ok (some r1.decompressed_buf_)))) ∧
    (r0.blocks_.length < 2 ^ 64 →
      ∀ (reqs1 reqs2 : List (Off × Nat)) (r1 r2 : Lz4Reader),
        Lz4Reader.reads lz4 r0 reqs1 = some r1 → Lz4Reader.reads lz4 r0 reqs2 = some r2 →
        ∀ off n : Nat, (Lz4Reader.read lz4 r1 off n).map Prod.fst
          = (Lz4Reader.read lz4 r2 off n).map Prod.fst) := by
  have hc0 := Lz4Reader.new_cache lz4 fuel u r0 h0
  refine ⟨fun reqs r1 h => ?_, fun hn reqs1 reqs2 r1 r2 h1 h2 off n => ?_⟩
  · rcases (Lz4Reader.reads_cache lz4 r0 hc0 reqs r1 h).1 with hs | ⟨blk, hb, hf⟩
    · exact Or.inl hs
    · refine Or.inr ⟨?_, blk, hb, hf⟩
      by_contra hge
      rw [List.getElem?_eq_none (Nat.le_of_not_lt hge)] at hb
      simp at hb
  · obtain ⟨c1, u1, b1, m1, s1⟩ := Lz4Reader.reads_cache lz4 r0 hc0 reqs1 r1 h1
    obtain ⟨c2, u2, b2, m2, s2⟩ := Lz4Reader.reads_cache lz4 r0 hc0 reqs2 r2 h2
    exact Lz4Reader.read_indep lz4 r1 r2 (by rw [u2, u1]) (by rw [b2, b1]) (by rw [m2, m1])
      (by rw [s2, s1]) c1 c2 (by rw [b1]; exact hn) off n

set_option maxRecDepth 100000 in
/-- C31 (witness): the frame of one compressed block that holds the byte `9`;
after `read(0, 1)` and the out-of-range `read(1, 1)` the cache holds block 0. -/
theorem C31_decoded_block_cache_coherent_witness :
    ∃ r0 r1, Lz4Reader.new lz4LiteralRun 17
        (FileReader (preadFile [4, 34, 77, 24, 0x60, 0x40, 0, 2, 0, 0, 0, 0x10, 9, 0, 0, 0, 0]) 17)
        = some (.ok r0) ∧
      Lz4Reader.reads lz4LiteralRun r0 [(0, 1), (1, 1)] = some r1 ∧
      r1.decompressed_buf_blk_id_ = 0 ∧ r1.decompressed_buf_ = [9] ∧
      (r1.decompressed_buf_blk_id_ = OffMax ∨
        (r1.decompressed_buf_blk_id_ < r1.blocks_.length ∧
          ∃ blk, r1.blocks_[r1.decompressed_buf_blk_id_]? = some blk ∧
            Lz4Reader.blockFetch lz4LiteralRun r1.upstream_ r1.max_block_size_ blk
              = some (.ok (some r1.decompressed_buf_)))) := by
  refine ⟨_, _, rfl, rfl, ?_, ?_, ?_⟩
  · decide
  · decide
  · exact (C31_decoded_block_cache_coherent lz4LiteralRun 17
      (FileReader (preadFile [4, 34, 77, 24, 0x60, 0x40, 0, 2, 0, 0, 0, 0x10, 9, 0, 0, 0, 0]) 17)
      _ rfl).1 [(0, 1), (1, 1)] _ rfl

/-! ## Theorems: short pages, readers without a frame, truncated varints -/

set_option maxRecDepth 100000 in
/-- C32 (refuted by the code): over a source of 10 bytes that clips reads at its
end (a memory reader, a file reader), the page at offset 0 is loaded with
`len == 10`. For `read(20, 5)` the chunk length `page->len - off % PAGESIZE` is
`10 - 20` in `size_t`, which wraps to `2^64 - 10`; the chunk is then `count`, and
the call returns the count 5 with the bytes 20 to 24 of the page buffer, which
the load did not receive from the upstream (here `0xAA`, the content of the
buffer before the load). -/
theorem C32_short_page_underflow :
    Reader.size (MemReader 10 (testBytes 10)) = 10 ∧
    Reader.read (MemReader 10 (testBytes 10)) 0 CacheReader.PAGESIZE = .ok (testBytes 10) ∧
    wsub 10 (20 % CacheReader.PAGESIZE) = 2 ^ 64 - 10 ∧
    ((CacheReader.new (MemReader 10 (testBytes 10)) (List.replicate 256 170)).read 20 5).1
      = .ok (5, [170, 170, 170, 170, 170]) ∧
    ((CacheReader.new (FileReader (preadFile (testBytes 10)) 10) (List.replicate 256 170)).read
      20 5).1 = .ok (5, [170, 170, 170, 170, 170]) := by
  decide

set_option maxRecDepth 100000 in
/-- C33 (refuted by the code): a reader built over four bytes that are not the
magic, or over a header with the unsupported block-size code 3, has
`max_block_size_ == 0` and `size() == 0`. On it `read(0, 0)` passes the range
check (`0 > 0` is false) and evaluates `decompressed_offset / max_block_size_`,
a division by zero; so does `read(2^64 - 1, 1)`, whose end wraps to 0. Only a
request with `offset_end > 0` raises the out-of-range error. -/
theorem C33_read_divides_by_zero :
    (∃ r, Lz4Reader.new lz4LiteralRun 4 (FileReader (preadFile [1, 2, 3, 4]) 4) = some (.ok r) ∧
      r.max_block_size_ = 0 ∧ r.size = 0 ∧
      (Lz4Reader.read lz4LiteralRun r 0 0).map Prod.fst = some (.error .divisionByZero) ∧
      (Lz4Reader.read lz4LiteralRun r (2 ^ 64 - 1) 1).map Prod.fst
        = some (.error .divisionByZero) ∧
      (Lz4Reader.read lz4LiteralRun r 0 1).map Prod.fst
        = some (.error .readBeyondDecompressed)) ∧
    (∃ r, Lz4Reader.new lz4LiteralRun 7
        (FileReader (preadFile [4, 34, 77, 24, 0x60, 0x30, 0]) 7) = some (.ok r) ∧
      r.max_block_size_ = 0 ∧ r.size = 0 ∧
      (Lz4Reader.read lz4LiteralRun r 0 0).map Prod.fst = some (.error .divisionByZero)) := by
  refine ⟨⟨_, rfl, ?_, ?_, ?_, ?_, ?_⟩, ⟨_, rfl, ?_, ?_, ?_⟩⟩ <;> decide

/-- More rounds do not change what the loop of `readleb128` returns. -/
theorem ReaderArray.readleb128Loop_mono (signed : Bool) (a : ReaderArray) (startOffset : Off)
    (k : Nat) (x : Except Leb128Fault (Nat × Nat)) :
    ∀ (fuel : Nat) (it : ReaderArray.iterator) (result shift : Nat),
      ReaderArray.readleb128Loop signed a startOffset fuel it result shift = some x →
      ReaderArray.readleb128Loop signed a startOffset (fuel + k) it result shift = some x := by
  intro fuel
  induction fuel with
  | zero => intro it result shift h; simp [ReaderArray.readleb128Loop] at h
  | succ fuel ih =>
    intro it result shift h
    rw [show fuel + 1 + k = (fuel + k) + 1 by omega]
    unfold ReaderArray.readleb128Loop at h ⊢
    by_cases hs : shift ≥ 64
    · rw [if_pos hs] at h ⊢; exact h
    · rw [if_neg hs] at h ⊢
      simp only at h ⊢
      by_cases hb : u8 it.datum &&& 0x80 = 0
      · rw [if_pos hb] at h ⊢; exact h
      · rw [if_neg hb] at h ⊢
        exact ih _ _ _ h

/-- More rounds do not change what `readleb128` over a reader returns. -/
theorem Reader.readleb128_mono (T : IntType) (reader : Reader) (uninit : List Byte)
    (fuel k : Nat) (off : Off) (x : Except Leb128Fault (Int × Nat))
    (h : Reader.readleb128 T reader uninit fuel off = some x) :
    Reader.readleb128 T reader uninit (fuel + k) off = some x := by
  unfold Reader.readleb128 at h ⊢
  simp only at h ⊢
  cases hl : ReaderArray.readleb128Loop T.isSigned ⟨reader, 1, off⟩
      (ReaderArray.begin ⟨reader, 1, off⟩ uninit).offset fuel
      (ReaderArray.begin ⟨reader, 1, off⟩ uninit) 0 0 with
  | none => rw [hl] at h; simp at h
  | some y =>
    rw [hl] at h
    rw [ReaderArray.readleb128Loop_mono _ _ _ k y _ _ _ _ hl]
    exact h

/-- C34 (refuted by the code): over a file that holds the single byte `0x80`,
`readULEB128(0)` and `readSLEB128(0)` never return. The loop of `readleb128` has
no test against `end()`: after the first round the iterator is at `size()`,
`++it` moves it to `size() + 1`, the read there fails and `getitem` puts it back
to `size()` with the old `datum`, so every round sees `0x80` again (the iterator
at `size()` with `datum == 0x80` is a fixed point of `++it`). No round returns,
and in the eleventh the shift count is 70, above the width of `T`. When the
offset is at `size()` from the start, the first read fails as well and the loop
decodes the indeterminate `datum`: with the value 5 there it returns `(5, 1)`,
one byte consumed where `size() - offset == 0`. -/
theorem C34_truncated_varint_never_returns :
    Reader.size (FileReader (preadFile [0x80]) 1) = 1 ∧
    (∀ fuel : Fin 11, Reader.readULEB128 (FileReader (preadFile [0x80]) 1) [] fuel.val 0 = none) ∧
    (∀ k, Reader.readULEB128 (FileReader (preadFile [0x80]) 1) [] (11 + k) 0
      = some (.error .shiftTooLarge)) ∧
    (∀ fuel : Fin 11, Reader.readSLEB128 (FileReader (preadFile [0x80]) 1) [] fuel.val 0 = none) ∧
    (∀ k, Reader.readSLEB128 (FileReader (preadFile [0x80]) 1) [] (11 + k) 0
      = some (.error .shiftTooLarge)) ∧
    ReaderArray.iterator.next ⟨FileReader (preadFile [0x80]) 1, 1, 0⟩ ⟨[0x80], 1⟩
      = ⟨[0x80], 1⟩ ∧
    Reader.readULEB128 (FileReader (preadFile []) 0) [5] 1 0 = some (.ok (5, 1)) := by
  refine ⟨rfl, by decide, fun k => ?_, by decide, fun k => ?_, by decide, by decide⟩
  · exact Reader.readleb128_mono _ _ _ 11 k 0 _ (by decide)
  · exact Reader.readleb128_mono _ _ _ 11 k 0 _ (by decide)

end pstack
